import Mathlib

/-!
# Storage allocator (`mm.c`): a shallow embedding and its verification

The allocator of `src/mm.c` manages one growable region with boundary-tagged
blocks, an explicit doubly linked free list threaded through the free blocks,
and a next-fit search cursor (`rover`).

Modelling conventions.

* Memory is byte addressed: `Mem = Nat → Nat`, every stored value is a byte.
  A word (`unsigned int`, 4 bytes) and a long (`unsigned long` / pointer,
  8 bytes) are read and written little-endian, as on the LP64 targets the
  source is written for (it stores pointers in 8 bytes and sizes in 4).
* `size_t` arithmetic wraps modulo `2^64`; a word store truncates to `2^32`.
* Pointer arithmetic is plain `Nat` arithmetic (overflowing it is undefined
  behaviour in C, so no wrap-around is modelled for it).
* Loops over the free list take fuel; `none` means the loop did not finish.
* Memory is total: every store has an effect, also one through a pointer that
  does not point into the heap. `mm_init_checked` repeats `mm_init` with each
  store tested against the bytes obtained from the provider.
-/

namespace MM

/-! ## Constants and macros -/

/-- Word size (bytes). -/
abbrev WSIZE : Nat := 4
/-- Doubleword size (bytes). -/
abbrev DSIZE : Nat := 8
/-- Quadword size (bytes). -/
abbrev QSIZE : Nat := 16
/-- Initial heap size (bytes), `1<<12`. -/
abbrev CHUNKSIZE : Nat := 4096
/-- The constant the source calls overhead of header and footer. -/
abbrev OVERHEAD : Nat := 16
/-- Minimum block size. -/
abbrev MINIMUM : Nat := 24

/-- Modulus of `size_t` and of pointers. -/
abbrev SZ : Nat := 18446744073709551616
/-- Modulus of `unsigned int`. -/
abbrev WD : Nat := 4294967296

/-- `MAX(x, y)`. -/
def MAX (x y : Nat) : Nat := if x > y then x else y

/-- `PACK(size, alloc)`: `size | alloc`. -/
def PACK (size alloc : Nat) : Nat := size ||| alloc

/-- Byte-addressed memory. -/
abbrev Mem := Nat → Nat

/-- `GET(p)`: read an `unsigned int` at `p` (little-endian). -/
def GET (m : Mem) (p : Nat) : Nat :=
  m p % 256 + 256 * (m (p + 1) % 256) + 65536 * (m (p + 2) % 256)
    + 16777216 * (m (p + 3) % 256)

/-- `PUT(p, val)`: store the low 32 bits of `val` at `p` (little-endian). -/
def PUT (m : Mem) (p val : Nat) : Mem := fun a =>
  if a = p then val % 256
  else if a = p + 1 then val / 256 % 256
  else if a = p + 2 then val / 65536 % 256
  else if a = p + 3 then val / 16777216 % 256
  else m a

/-- `GETL(p)`: read an `unsigned long` at `p`. -/
def GETL (m : Mem) (p : Nat) : Nat := GET m p + WD * GET m (p + 4)

/-- `GETA(bp)`: read a pointer at `bp`. -/
def GETA (m : Mem) (bp : Nat) : Nat := GETL m bp

/-- `PUTA(p, val)`: store an `unsigned long` at `p`. -/
def PUTA (m : Mem) (p val : Nat) : Mem := PUT (PUT m p (val % WD)) (p + 4) (val / WD)

/-- `GET_SIZE(p)`: `GET(p) & ~0x7`, the mask being `0xFFFFFFF8` as `unsigned int`. -/
def GET_SIZE (m : Mem) (p : Nat) : Nat := GET m p &&& 4294967288

/-- `GET_ALLOC(p)`: `GET(p) & 0x1`. -/
def GET_ALLOC (m : Mem) (p : Nat) : Nat := GET m p &&& 1

/-- `HDRP(bp)`. -/
def HDRP (bp : Nat) : Nat := bp - WSIZE

/-- `FTRP(bp)`. -/
def FTRP (m : Mem) (bp : Nat) : Nat := bp + GET_SIZE m (HDRP bp) - DSIZE

/-- `NEXT_BLKP(bp)`. -/
def NEXT_BLKP (m : Mem) (bp : Nat) : Nat := bp + GET_SIZE m (bp - WSIZE)

/-- `PREV_BLKP(bp)`. -/
def PREV_BLKP (m : Mem) (bp : Nat) : Nat := bp - GET_SIZE m (bp - DSIZE)

/-- `NEXT_FRP(bp)`: address of the forward link of a free block. -/
def NEXT_FRP (bp : Nat) : Nat := bp + DSIZE

/-- `PREV_FRP(bp)`: address of the backward link of a free block. -/
def PREV_FRP (bp : Nat) : Nat := bp

/-- `PUTAN(p, val)`: store the forward link of `p`. -/
def PUTAN (m : Mem) (p val : Nat) : Mem := PUTA m (NEXT_FRP p) val

/-- `PUTAP(p, val)`: store the backward link of `p`. -/
def PUTAP (m : Mem) (p val : Nat) : Mem := PUTA m (PREV_FRP p) val

/-- `memcpy(dst, src, n)` on non-overlapping regions. -/
def memcpy (m : Mem) (dst src n : Nat) : Mem := fun a =>
  if dst ≤ a ∧ a < dst + n then m (src + (a - dst)) else m a

/-- `bzero(p, n)`. -/
def bzero (m : Mem) (p n : Nat) : Mem := fun a =>
  if p ≤ a ∧ a < p + n then 0 else m a

/-! ## Allocator state and the heap-growth provider -/

/-- The memory, the provider's variables and the two globals of `mm.c`. -/
structure State where
  /-- the bytes of the address space -/
  mem : Mem
  /-- provider: first byte of the region it hands out -/
  mem_heap : Nat
  /-- provider: current end of the region (the break) -/
  mem_brk : Nat
  /-- provider: the break may never exceed this address -/
  mem_max_addr : Nat
  /-- provider: the pointer value returned on failure -/
  mem_fail : Nat
  /-- global `heap_listp` -/
  heap_listp : Nat
  /-- global `rover` -/
  rover : Nat

/-- Modelled from the spec: the heap-growth provider `mem_sbrk` (declared in
`memlib.h`, absent from the sources). `GrowHeap(byteCount)` returns the start
of a region contiguous with the previous end of the managed range, or signals
failure without any partial effect. -/
def mem_sbrk (s : State) (incr : Nat) : State × Nat :=
  if s.mem_brk + incr ≤ s.mem_max_addr then
    ({ s with mem_brk := s.mem_brk + incr }, s.mem_brk)
  else (s, s.mem_fail)

/-! ## Free-list manager -/

/-- `removefblock(bp)`. -/
def removefblock (s : State) (bp : Nat) : State :=
  let nextfblock := GETA s.mem (NEXT_FRP bp)
  let prevfblock := GETA s.mem (PREV_FRP bp)
  let rover := if s.rover = bp then nextfblock else s.rover
  let m := PUTAN s.mem prevfblock nextfblock
  let m := if nextfblock ≠ 0 then PUTAP m nextfblock prevfblock else m
  { s with mem := m, rover := rover }

/-- `addfblock(bp)`. -/
def addfblock (s : State) (bp : Nat) : State :=
  let m := PUTAN s.mem bp (GETL s.mem (NEXT_FRP s.heap_listp))
  let m := PUTAP m bp s.heap_listp
  let nextfblock := GETA m (NEXT_FRP s.heap_listp)
  let m := PUTAN m s.heap_listp bp
  let m := if nextfblock ≠ 0 then PUTAP m nextfblock bp else m
  { s with mem := m }

/-! ## Coalescer -/

/-- `coalesce(bp)`: boundary-tag coalescing; returns the merged block. -/
def coalesce (s : State) (bp : Nat) : State × Nat :=
  let prev_alloc := GET_ALLOC s.mem (FTRP s.mem (PREV_BLKP s.mem bp))
  let next_alloc := GET_ALLOC s.mem (HDRP (NEXT_BLKP s.mem bp))
  let size := GET_SIZE s.mem (HDRP bp)
  if prev_alloc ≠ 0 ∧ next_alloc ≠ 0 then
    (addfblock s bp, bp)
  else
    let r : State × Nat :=
      if prev_alloc ≠ 0 ∧ ¬ next_alloc ≠ 0 then
        let size := (size + GET_SIZE s.mem (HDRP (NEXT_BLKP s.mem bp))) % SZ
        let s := removefblock s (NEXT_BLKP s.mem bp)
        let s := { s with mem := PUT s.mem (HDRP bp) (PACK size 0) }
        let s := { s with mem := PUT s.mem (FTRP s.mem bp) (PACK size 0) }
        (addfblock s bp, bp)
      else if ¬ prev_alloc ≠ 0 ∧ next_alloc ≠ 0 then
        let size := (size + GET_SIZE s.mem (HDRP (PREV_BLKP s.mem bp))) % SZ
        let s := removefblock s (PREV_BLKP s.mem bp)
        let s := { s with mem := PUT s.mem (FTRP s.mem bp) (PACK size 0) }
        let s := { s with mem := PUT s.mem (HDRP (PREV_BLKP s.mem bp)) (PACK size 0) }
        let s := addfblock s (PREV_BLKP s.mem bp)
        (s, PREV_BLKP s.mem bp)
      else
        let size := (size + (GET_SIZE s.mem (HDRP (PREV_BLKP s.mem bp))
          + GET_SIZE s.mem (FTRP s.mem (NEXT_BLKP s.mem bp))) % WD) % SZ
        let s := removefblock s (PREV_BLKP s.mem bp)
        let s := removefblock s (NEXT_BLKP s.mem bp)
        let s := { s with mem := PUT s.mem (HDRP (PREV_BLKP s.mem bp)) (PACK size 0) }
        let s := { s with mem := PUT s.mem (FTRP s.mem (NEXT_BLKP s.mem bp)) (PACK size 0) }
        let s := addfblock s (PREV_BLKP s.mem bp)
        (s, PREV_BLKP s.mem bp)
    let s := r.1
    let bp := r.2
    if s.rover > bp ∧ s.rover < NEXT_BLKP s.mem bp then
      ({ s with rover := bp }, bp)
    else (s, bp)

/-! ## Heap growth, placement, fit search -/

/-- `extend_heap(words)`: returns `NULL` (0) when the provider fails. -/
def extend_heap (s : State) (words : Nat) : State × Nat :=
  let size := if words % 2 ≠ 0 then ((words + 1) * WSIZE) % SZ else (words * WSIZE) % SZ
  let r := mem_sbrk s size
  let s := r.1
  let bp := r.2
  if SZ / 2 ≤ bp then (s, 0)
  else
    let s := { s with mem := PUT s.mem (HDRP bp) (PACK size 0) }
    let s := { s with mem := PUT s.mem (FTRP s.mem bp) (PACK size 0) }
    let s := { s with mem := PUT s.mem (HDRP (NEXT_BLKP s.mem bp)) (PACK 0 1) }
    coalesce s bp

/-- `place(bp, asize)`. -/
def place (s : State) (bp asize : Nat) : State :=
  let csize := GET_SIZE s.mem (HDRP bp)
  if (csize + SZ - asize) % SZ ≥ MINIMUM then
    let s := { s with mem := PUT s.mem (HDRP bp) (PACK asize 1) }
    let s := { s with mem := PUT s.mem (FTRP s.mem bp) (PACK asize 1) }
    let s := removefblock s bp
    let bp := NEXT_BLKP s.mem bp
    let s := { s with mem := PUT s.mem (HDRP bp) (PACK ((csize + SZ - asize) % SZ) 0) }
    let s := { s with mem := PUT s.mem (FTRP s.mem bp) (PACK ((csize + SZ - asize) % SZ) 0) }
    addfblock s bp
  else
    let s := { s with mem := PUT s.mem (HDRP bp) (PACK csize 1) }
    let s := { s with mem := PUT s.mem (FTRP s.mem bp) (PACK csize 1) }
    removefblock s bp

/-- First loop of `find_fit`: from `bp` along the forward links to the end of
the list. `some 0` is "loop ended without a fit", `none` is out of fuel. -/
def find_fit_first (m : Mem) (asize : Nat) : Nat → Nat → Option Nat
  | 0, _ => none
  | fuel + 1, bp =>
    if bp = 0 then some 0
    else if GET_ALLOC m (HDRP bp) = 0 ∧ asize ≤ GET_SIZE m (HDRP bp) then some bp
    else find_fit_first m asize fuel (GETA m (NEXT_FRP bp))

/-- Second loop of `find_fit`: from `bp` up to, not including, `oldrover`. -/
def find_fit_second (m : Mem) (asize oldrover : Nat) : Nat → Nat → Option Nat
  | 0, _ => none
  | fuel + 1, bp =>
    if bp = 0 ∨ bp = oldrover then some 0
    else if GET_ALLOC m (HDRP bp) = 0 ∧ asize ≤ GET_SIZE m (HDRP bp) then some bp
    else find_fit_second m asize oldrover fuel (GETA m (NEXT_FRP bp))

/-- `find_fit(asize)`: next-fit search. The fuel of each loop is the break
address, more than the number of nodes a list inside the heap can have. -/
def find_fit (s : State) (asize : Nat) : Option (State × Nat) :=
  match find_fit_first s.mem asize s.mem_brk s.rover with
  | none => none
  | some 0 =>
    match find_fit_second s.mem asize s.rover s.mem_brk s.heap_listp with
    | none => none
    | some 0 => some (s, 0)
    | some bp => some ({ s with rover := bp }, bp)
  | some bp => some ({ s with rover := bp }, bp)

/-! ## Public operations -/

/-- `mm_init`: returns `-1` on failure and `0` on success. -/
def mm_init (s : State) : State × Int :=
  let r := mem_sbrk s (8 * WSIZE)
  let s := { r.1 with heap_listp := r.2 }
  if s.heap_listp = 0 then (s, -1)
  else
    let m := PUT s.mem s.heap_listp 0
    let m := PUT m (s.heap_listp + WSIZE) (PACK (OVERHEAD + DSIZE) 1)
    let m := PUTAP m (s.heap_listp + DSIZE) 0
    let m := PUTAN m (s.heap_listp + DSIZE) 0
    let m := PUT m (s.heap_listp + QSIZE + DSIZE) (PACK (OVERHEAD + DSIZE) 1)
    let m := PUT m (s.heap_listp + QSIZE + DSIZE + WSIZE) (PACK 0 1)
    let s := { s with mem := m, heap_listp := s.heap_listp + DSIZE }
    let s := { s with rover := s.heap_listp }
    let r := extend_heap s (CHUNKSIZE / WSIZE)
    if r.2 = 0 then (r.1, -1) else (r.1, 0)

/-- The adjusted block size computed by `mm_malloc` and `mm_realloc`. -/
def adjust (size : Nat) : Nat :=
  if size ≤ DSIZE then DSIZE + OVERHEAD
  else (DSIZE * (((size + OVERHEAD + (DSIZE - 1)) % SZ) / DSIZE)) % SZ

/-- `mm_malloc(size)`. -/
def mm_malloc (s : State) (size : Nat) : Option (State × Nat) :=
  let s := if s.heap_listp = 0 then (mm_init s).1 else s
  if size ≤ 0 then some (s, 0)
  else
    let asize := adjust size
    match find_fit s asize with
    | none => none
    | some (s, bp) =>
      if bp ≠ 0 then some (place s bp asize, bp)
      else
        let extendsize := MAX asize CHUNKSIZE
        let r := extend_heap s (extendsize / WSIZE)
        if r.2 = 0 then some (r.1, 0)
        else some (place r.1 r.2 asize, r.2)

/-- `mm_free(bp)`. -/
def mm_free (s : State) (bp : Nat) : State :=
  if bp = 0 then s
  else
    let size := GET_SIZE s.mem (HDRP bp)
    let s := if s.heap_listp = 0 then (mm_init s).1 else s
    let s := { s with mem := PUT s.mem (HDRP bp) (PACK size 0) }
    let s := { s with mem := PUT s.mem (FTRP s.mem bp) (PACK size 0) }
    (coalesce s bp).1

/-- `mm_realloc(ptr, size)`. -/
def mm_realloc (s : State) (ptr size : Nat) : Option (State × Nat) :=
  if size = 0 then some (mm_free s ptr, 0)
  else if ptr = 0 then mm_malloc s size
  else
    let oldsize := GET_SIZE s.mem (HDRP ptr)
    let asize := adjust size
    if asize ≤ oldsize ∧ (oldsize + SZ - size) % SZ ≤ MINIMUM then some (s, ptr)
    else if (asize + MINIMUM) % SZ ≤ oldsize then
      let s := { s with mem := PUT s.mem (HDRP ptr) (PACK asize 1) }
      let s := { s with mem := PUT s.mem (FTRP s.mem ptr) (PACK asize 1) }
      let bp := NEXT_BLKP s.mem ptr
      let s := { s with mem := PUT s.mem (HDRP bp) (PACK ((oldsize + SZ - asize) % SZ) 1) }
      let s := { s with mem := PUT s.mem (FTRP s.mem bp) (PACK ((oldsize + SZ - asize) % SZ) 1) }
      some (mm_free s bp, ptr)
    else
      match mm_malloc s size with
      | none => none
      | some (s, newptr) =>
        if newptr = 0 then some (s, 0)
        else
          let oldsize := if size < oldsize then size else oldsize
          let s := { s with mem := memcpy s.mem newptr ptr oldsize }
          some (mm_free s ptr, newptr)

/-- `mm_calloc(nmemb, size)`. -/
def mm_calloc (s : State) (nmemb size : Nat) : Option (State × Nat) :=
  let s := if s.heap_listp = 0 then (mm_init s).1 else s
  match mm_malloc s ((nmemb * size) % SZ) with
  | none => none
  | some (s, ptr) => some ({ s with mem := bzero s.mem ptr ((nmemb * size) % SZ) }, ptr)

/-! ## Consistency checker -/

/-- The diagnostics `mm_checkheap` and `checkblock` can print. -/
inductive Diag where
  | badPrologue
  | badEpilogue
  | notAligned (bp : Nat)
  | headerFooterMismatch (bp : Nat)
  deriving DecidableEq, Repr

/-- `checkblock(bp)`. -/
def checkblock (m : Mem) (bp : Nat) : List Diag :=
  (if bp % 8 ≠ 0 then [Diag.notAligned bp] else [])
    ++ (if GET m (HDRP bp) ≠ GET m (FTRP m bp) then [Diag.headerFooterMismatch bp] else [])

/-- The block loop of `mm_checkheap`: diagnostics printed and the block
pointer at which the loop stops. -/
def checkheap_loop (m : Mem) : Nat → Nat → Option (List Diag × Nat)
  | 0, _ => none
  | fuel + 1, bp =>
    if GET_SIZE m (HDRP bp) > 0 then
      match checkheap_loop m fuel (NEXT_BLKP m bp) with
      | none => none
      | some (ds, e) => some (checkblock m bp ++ ds, e)
    else some ([], bp)

/-- `mm_checkheap(verbose)`: the diagnostics printed (the verbose listing of
blocks is not a diagnostic and is left out). -/
def mm_checkheap (s : State) : Option (List Diag) :=
  let d1 := if GET_SIZE s.mem (HDRP s.heap_listp) ≠ DSIZE ∨ GET_ALLOC s.mem (HDRP s.heap_listp) = 0
    then [Diag.badPrologue] else []
  let d2 := checkblock s.mem s.heap_listp
  match checkheap_loop s.mem s.mem_brk s.heap_listp with
  | none => none
  | some (ds, bp) =>
    let d3 := if GET_SIZE s.mem (HDRP bp) ≠ 0 ∨ GET_ALLOC s.mem (HDRP bp) = 0
      then [Diag.badEpilogue] else []
    some (d1 ++ d2 ++ ds ++ d3)

/-! ## Observing the heap: the block chain and the free list -/

/-- A block of the chain: payload address, size field, allocation bit. -/
structure Blk where
  /-- payload address `bp` -/
  addr : Nat
  /-- size field of the header -/
  size : Nat
  /-- allocation bit of the header -/
  alloc : Bool
  deriving DecidableEq, Repr

/-- The blocks met walking the chain from `bp` with `NEXT_BLKP` until a header
of size 0 (the epilogue), as the loop of `mm_checkheap` walks it. -/
def blocksFrom (m : Mem) : Nat → Nat → List Blk
  | 0, _ => []
  | fuel + 1, bp =>
    if GET_SIZE m (HDRP bp) = 0 then []
    else ⟨bp, GET_SIZE m (HDRP bp), decide (GET_ALLOC m (HDRP bp) ≠ 0)⟩
      :: blocksFrom m fuel (NEXT_BLKP m bp)

/-- The block chain of a state, prologue first. -/
def heapBlocks (s : State) : List Blk := blocksFrom s.mem s.mem_brk s.heap_listp

/-- The nodes met following forward links from `bp` until `NULL`. -/
def listFrom (m : Mem) : Nat → Nat → List Nat
  | 0, _ => []
  | fuel + 1, bp => if bp = 0 then [] else bp :: listFrom m fuel (GETA m (NEXT_FRP bp))

/-- The free list of a state: the nodes after the sentinel. -/
def freeList (s : State) : List Nat :=
  listFrom s.mem s.mem_brk (GETA s.mem (NEXT_FRP s.heap_listp))

/-- Header word of a block. -/
def Blk.tag (b : Blk) : Nat := b.size + (if b.alloc then 1 else 0)

/-- Payload addresses of the free blocks of a chain. -/
def freeAddrs (L : List Blk) : List Nat := (L.filter (fun b => !b.alloc)).map Blk.addr

/-- Payload addresses of the allocated blocks of a chain. -/
def allocAddrs (L : List Blk) : List Nat := (L.filter (fun b => b.alloc)).map Blk.addr

/-- Two list nodes whose link fields (16 bytes each) do not overlap. -/
def Far (a b : Nat) : Prop := a + 16 ≤ b ∨ b + 16 ≤ a

/-- The memory effect of `removefblock` on a node with backward link `pv`
and forward link `nx`. -/
def unlink (m : Mem) (pv nx : Nat) : Mem :=
  if nx ≠ 0 then PUTAP (PUTAN m pv nx) nx pv else PUTAN m pv nx

/-- The memory `m'` differs from `m` at most in the link fields of `nodes`. -/
def LinkOnly (nodes : List Nat) (m m' : Mem) : Prop :=
  ∀ a, (∀ y ∈ nodes, a < y ∨ y + 16 ≤ a) → m' a = m a

/-! ## The representation invariant -/

/-- The blocks of `L` lie one after the other from `lo` to `hi`, each of a
size that is a multiple of 8 and at least 24. -/
def Layout : List Blk → Nat → Nat → Prop
  | [], lo, hi => lo = hi
  | b :: bs, lo, hi => b.addr = lo ∧ 24 ≤ b.size ∧ b.size % 8 = 0 ∧ Layout bs (lo + b.size) hi

/-- Header and footer of every block of `L` hold the block's tag. -/
def TagsOK (m : Mem) (L : List Blk) : Prop :=
  ∀ b ∈ L, GET m (b.addr - 4) = b.tag ∧ GET m (b.addr + b.size - 8) = b.tag

/-- The nodes `fl` form a doubly linked list hanging from `prev`:
forward links lead through `fl` to `NULL`, each backward link leads back. -/
def FList (m : Mem) : Nat → List Nat → Prop
  | prev, [] => GETA m (prev + 8) = 0
  | prev, a :: t => GETA m (prev + 8) = a ∧ GETA m a = prev ∧ FList m a t

/-- No two neighbours of the chain are both free. -/
def NoAdj (L : List Blk) : Prop := L.Chain' (fun a b => a.alloc = true ∨ b.alloc = true)

/-- The part of the invariant that holds also inside an operation: provider
bounds, the layout of the chain `L` (prologue first), the boundary tags, the
epilogue, and a well-linked list `fl` of distinct free blocks of `L`. -/
structure Pre (s : State) (L : List Blk) (fl : List Nat) : Prop where
  heap_pos : 0 < s.mem_heap
  brk_le : s.mem_brk ≤ s.mem_max_addr
  max_lt : s.mem_max_addr < s.mem_heap + WD
  max_half : s.mem_max_addr < SZ / 2
  fail_half : SZ / 2 ≤ s.mem_fail
  hl : s.heap_listp = s.mem_heap + 8
  head : ∃ L', L = ⟨s.heap_listp, 24, true⟩ :: L'
  layout : Layout L s.heap_listp s.mem_brk
  tags : TagsOK s.mem L
  epi : GET s.mem (s.mem_brk - 4) = 1
  flist : FList s.mem s.heap_listp fl
  nodup : fl.Nodup
  sub : ∀ y ∈ fl, ∃ b ∈ L, b.addr = y ∧ b.alloc = false

/-- The invariant between operations: `Pre`, the free list holds exactly the
free blocks, no two neighbours are free, and the rover is `NULL`, the
sentinel or a node of the free list. -/
structure Rep (s : State) (L : List Blk) (fl : List Nat) extends Pre s L fl : Prop where
  perm : fl.Perm (freeAddrs L)
  noadj : NoAdj L
  rov : s.rover = 0 ∨ s.rover = s.heap_listp ∨ s.rover ∈ fl

/-! ## Abstract effect of the operations on the chain -/

/-- Case 2 of `coalesce` after the successor was unlinked. -/
def co2b (s : State) (bp size : Nat) : State × Nat :=
  let s := { s with mem := PUT s.mem (HDRP bp) (PACK size 0) }
  let s := { s with mem := PUT s.mem (FTRP s.mem bp) (PACK size 0) }
  (addfblock s bp, bp)

/-- Case 2 of `coalesce` (only the successor is free), up to the rover repair. -/
def co2 (s : State) (bp : Nat) : State × Nat :=
  co2b (removefblock s (NEXT_BLKP s.mem bp)) bp
    ((GET_SIZE s.mem (HDRP bp) + GET_SIZE s.mem (HDRP (NEXT_BLKP s.mem bp))) % SZ)

/-- Case 3 of `coalesce` after the predecessor was unlinked. -/
def co3b (s : State) (bp size : Nat) : State × Nat :=
  let s := { s with mem := PUT s.mem (FTRP s.mem bp) (PACK size 0) }
  let s := { s with mem := PUT s.mem (HDRP (PREV_BLKP s.mem bp)) (PACK size 0) }
  let s := addfblock s (PREV_BLKP s.mem bp)
  (s, PREV_BLKP s.mem bp)

/-- Case 3 of `coalesce` (only the predecessor is free), up to the rover repair. -/
def co3 (s : State) (bp : Nat) : State × Nat :=
  co3b (removefblock s (PREV_BLKP s.mem bp)) bp
    ((GET_SIZE s.mem (HDRP bp) + GET_SIZE s.mem (HDRP (PREV_BLKP s.mem bp))) % SZ)

/-- Case 4 of `coalesce` after both neighbours were unlinked. -/
def co4b (s : State) (bp size : Nat) : State × Nat :=
  let s := { s with mem := PUT s.mem (HDRP (PREV_BLKP s.mem bp)) (PACK size 0) }
  let s := { s with mem := PUT s.mem (FTRP s.mem (NEXT_BLKP s.mem bp)) (PACK size 0) }
  let s := addfblock s (PREV_BLKP s.mem bp)
  (s, PREV_BLKP s.mem bp)

/-- The state of case 4 of `coalesce` after both neighbours were unlinked. -/
def co4a (s : State) (bp : Nat) : State :=
  let s := removefblock s (PREV_BLKP s.mem bp)
  removefblock s (NEXT_BLKP s.mem bp)

/-- Case 4 of `coalesce` (both neighbours free), up to the rover repair. -/
def co4 (s : State) (bp : Nat) : State × Nat :=
  co4b (co4a s bp) bp
    ((GET_SIZE s.mem (HDRP bp) + (GET_SIZE s.mem (HDRP (PREV_BLKP s.mem bp))
      + GET_SIZE s.mem (FTRP s.mem (NEXT_BLKP s.mem bp))) % WD) % SZ)

/-- The rover repair at the end of `coalesce`. -/
def roverFix (r : State × Nat) : State × Nat :=
  if r.1.rover > r.2 ∧ r.1.rover < NEXT_BLKP r.1.mem r.2 then ({ r.1 with rover := r.2 }, r.2)
  else (r.1, r.2)

/-- The allocation bit `coalesce` reads in the header after a block: that of
the next block `nb`, or of the epilogue when the chain ends. -/
def nextBit : List Blk → Nat
  | [] => 1
  | nb :: _ => if nb.alloc then 1 else 0

/-- The chain after `coalesce` ran on the free block `b`, whose predecessor is
`pb` (the four cases of the source). -/
def coalL (L1 : List Blk) (pb b : Blk) (L2 : List Blk) : List Blk :=
  match pb.alloc, L2 with
  | true, [] => L1 ++ [pb, b]
  | true, nb :: L2' =>
    if nb.alloc then L1 ++ pb :: b :: nb :: L2'
    else L1 ++ pb :: ⟨b.addr, b.size + nb.size, false⟩ :: L2'
  | false, [] => L1 ++ [⟨pb.addr, pb.size + b.size, false⟩]
  | false, nb :: L2' =>
    if nb.alloc then L1 ++ ⟨pb.addr, pb.size + b.size, false⟩ :: nb :: L2'
    else L1 ++ ⟨pb.addr, pb.size + b.size + nb.size, false⟩ :: L2'

/-- The test `find_fit` makes on a list node: its header is free and holds
at least `asize` bytes. -/
def fits (m : Mem) (asize bp : Nat) : Prop :=
  GET_ALLOC m (HDRP bp) = 0 ∧ asize ≤ GET_SIZE m (HDRP bp)

/-- The blocks `place` makes of the free block `b` for a request of `asize`
bytes: an allocated block and a free remainder, or `b` allocated whole. -/
def placeBlks (b : Blk) (asize : Nat) : List Blk :=
  if b.size - asize ≥ 24 then [⟨b.addr, asize, true⟩, ⟨b.addr + asize, b.size - asize, false⟩]
  else [⟨b.addr, b.size, true⟩]

/-- The payload bytes of the allocated blocks of `L` (the prologue apart) are
the same in `m'` as in `m`. -/
def Keeps (L : List Blk) (hl : Nat) (m m' : Mem) : Prop :=
  ∀ c ∈ L, c.alloc = true → c.addr ≠ hl →
    ∀ a, c.addr ≤ a → a < c.addr + c.size - 8 → m' a = m a

/-- The provider's bounds and `heap_listp` are the same in both states. -/
def SameEnv (s s' : State) : Prop :=
  s'.mem_heap = s.mem_heap ∧ s'.mem_max_addr = s.mem_max_addr ∧ s'.mem_fail = s.mem_fail
    ∧ s'.heap_listp = s.heap_listp

/-! ## Reachable states -/

/-- A provider that has handed out nothing yet, whose region starts at a
non-null address, spans less than 4 GiB (a block size is stored in 32 bits)
and lies in the lower half of the address space, and whose failure value
reads negative as a `long` (the test `extend_heap` makes). -/
def ProviderOK (s : State) : Prop :=
  0 < s.mem_heap ∧ s.mem_brk = s.mem_heap ∧ s.mem_max_addr < s.mem_heap + WD
    ∧ s.mem_max_addr < SZ / 2 ∧ SZ / 2 ≤ s.mem_fail

/-- A request size is valid when rounding it up to a block size and adding the
minimum block size (as `mm_realloc` does) stays below `2^64`. -/
def ValidSize (size : Nat) : Prop := size + 47 < SZ

/-- The live pointers after `mm_realloc(p, size)` returned `q`. -/
def reallocLive (live : List Nat) (p size q : Nat) : List Nat :=
  if size = 0 then live.erase p
  else if p = 0 then (if q = 0 then live else q :: live)
  else if q = 0 ∨ q = p then live
  else q :: live.erase p

/-- States reachable from a successful Initialize on a fresh provider through
public operations with valid arguments and through stores of the client into
the payload of a block it holds, together with the pointers handed out and
not yet released. A size is valid when `ValidSize` holds; a pointer is valid
when it is null or live; `mm_calloc` is a step when its allocation succeeded
or there is nothing to zero (the source zero-fills through the returned
pointer without testing it). -/
inductive Reachable : State → List Nat → Prop
  | init {s0 s : State} : ProviderOK s0 → mm_init s0 = (s, 0) → Reachable s []
  | malloc {s s' : State} {live : List Nat} {size p : Nat} :
      Reachable s live → ValidSize size → mm_malloc s size = some (s', p) →
      Reachable s' (if p = 0 then live else p :: live)
  | free {s : State} {live : List Nat} {p : Nat} :
      Reachable s live → (p = 0 ∨ p ∈ live) → Reachable (mm_free s p) (live.erase p)
  | realloc {s s' : State} {live : List Nat} {p size q : Nat} :
      Reachable s live → (p = 0 ∨ p ∈ live) → ValidSize size →
      mm_realloc s p size = some (s', q) → Reachable s' (reallocLive live p size q)
  | calloc {s s' : State} {live : List Nat} {nmemb size p : Nat} :
      Reachable s live → ValidSize ((nmemb * size) % SZ) →
      mm_calloc s nmemb size = some (s', p) → (p = 0 → (nmemb * size) % SZ = 0) →
      Reachable s' (if p = 0 then live else p :: live)
  | store {s : State} {live : List Nat} {p i v : Nat} :
      Reachable s live → p ∈ live → i + 8 < GET_SIZE s.mem (HDRP p) → v < 256 →
      Reachable { s with mem := fun a => if a = p + i then v else s.mem a } live

/-! ## Invariant of reachable states, sample states and the effect of releases -/

/-- The state `mm_init` builds before it extends the heap. -/
def initState (s0 : State) : State :=
  { s0 with
    mem := PUT (PUT (PUTA (PUTA (PUT (PUT s0.mem s0.mem_brk 0) (s0.mem_brk + 4) 25)
      (s0.mem_brk + 8) 0) (s0.mem_brk + 16) 0) (s0.mem_brk + 24) 25) (s0.mem_brk + 28) 1,
    mem_brk := s0.mem_brk + 32,
    heap_listp := s0.mem_brk + 8,
    rover := s0.mem_brk + 8 }

/-- The invariant of reachable states: the representation invariant holds for
some chain and list, and the live pointers are the allocated blocks other
than the prologue. -/
def Inv (s : State) (live : List Nat) : Prop :=
  ∃ L fl, Rep s L fl ∧ (s.heap_listp :: live).Perm (allocAddrs L)

/-- A provider that has handed out nothing: an empty region of 20 MiB at
address 4096, all bytes zero, failure value `(void *)-1`. -/
def fresh : State :=
  { mem := fun _ => 0, mem_heap := 4096, mem_brk := 4096, mem_max_addr := 4096 + 20971520,
    mem_fail := SZ - 1, heap_listp := 0, rover := 0 }

/-- The heap right after `mm_init` on the provider `fresh`. -/
def heap0 : State := (mm_init fresh).1

/-- A provider whose region holds exactly the 4128 bytes `mm_init` asks for. -/
def tight : State :=
  { mem := fun _ => 0, mem_heap := 4096, mem_brk := 4096, mem_max_addr := 4096 + 4128,
    mem_fail := SZ - 1, heap_listp := 0, rover := 0 }

/-- The heap right after `mm_init` on the provider `tight`. -/
def heapT : State := (mm_init tight).1

/-- The bytes a block released in front of the chain `Y` gains from its
successor: the size of the first block of `Y` when that block is free. -/
def mergeSize : List Blk → Nat
  | [] => 0
  | nb :: _ => if nb.alloc then 0 else nb.size

/-- The chain `Y` after a block released in front of it has absorbed its first
block, when that block is free. -/
def mergeRest : List Blk → List Blk
  | [] => []
  | nb :: Y => if nb.alloc then nb :: Y else Y

/-- Releasing three blocks one after the other. -/
def free3 (s : State) (x y z : Nat) : State := mm_free (mm_free (mm_free s x) y) z

/-- The chain after the three neighbours `A`, `B`, `C` were released. -/
def merged3 (L1 : List Blk) (pb A B C : Blk) (L2 : List Blk) : List Blk :=
  L1 ++ pb :: ⟨A.addr, A.size + B.size + C.size + mergeSize L2, false⟩ :: mergeRest L2

/-- The state an operation returned (the provider `fresh` when it did not return). -/
def stateOf (o : Option (State × Nat)) : State :=
  match o with
  | some r => r.1
  | none => fresh

/-- The heap after `mm_malloc(100)` on `heap0`. -/
def heap1 : State := stateOf (mm_malloc heap0 100)

/-- The heap after a second `mm_malloc(100)`. -/
def heap2 : State := stateOf (mm_malloc heap1 100)

/-- The heap after a third `mm_malloc(100)`. -/
def heap3 : State := stateOf (mm_malloc heap2 100)

/-! ## The needed size in the words of the spec; further sample states -/

/-- The needed block size as the spec words it: 24 for a request of at most 8
bytes, `8 * ceil((size + 16 + 7) / 8)` for a larger one. -/
def specNeeded (size : Nat) : Nat :=
  if size ≤ 8 then 24 else 8 * ((size + 16 + 7 + 7) / 8)

/-- A provider whose region has 16 bytes, fewer than the 32 the first request
of `mm_init` asks for; failure value `(void *)-1`. -/
def tiny : State :=
  { mem := fun _ => 0, mem_heap := 4096, mem_brk := 4096, mem_max_addr := 4096 + 16,
    mem_fail := SZ - 1, heap_listp := 0, rover := 0 }

/-- The heap after `mm_realloc(4128, 200)` on `heap1`. -/
def heapR : State := stateOf (mm_realloc heap1 4128 200)

/-! ## Initialisation with checked stores

`mm_init` and `extend_heap` once more, with every store they make tested
against the bytes the provider has handed out. The definitions above give
every store an effect; these tell a store through the provider's failure value
apart from a store into the heap. -/

/-- A word store of `mm.c` through a pointer that has to point into the bytes
the provider has handed out, `[mem_heap, mem_brk)`. A store through any other
pointer (the provider's failure value, `NULL - 4`) is undefined behaviour in C
and a fault in practice: `none`. -/
def PUT_checked (s : State) (p val : Nat) : Option State :=
  if s.mem_heap ≤ p ∧ p + 4 ≤ s.mem_brk then some { s with mem := PUT s.mem p val } else none

/-- The same for the 8-byte store of `PUTAP` and `PUTAN`. -/
def PUTA_checked (s : State) (p val : Nat) : Option State :=
  if s.mem_heap ≤ p ∧ p + 8 ≤ s.mem_brk then some { s with mem := PUTA s.mem p val } else none

/-- `extend_heap(words)` with its three stores checked. `FTRP` and `NEXT_BLKP`
read the header that has just been stored; `coalesce` is the function defined
above. -/
def extend_heap_checked (s : State) (words : Nat) : Option (State × Nat) :=
  let size := if words % 2 ≠ 0 then ((words + 1) * WSIZE) % SZ else (words * WSIZE) % SZ
  let r := mem_sbrk s size
  let s := r.1
  let bp := r.2
  if SZ / 2 ≤ bp then some (s, 0)
  else
    (PUT_checked s (HDRP bp) (PACK size 0)).bind fun s =>
    (PUT_checked s (FTRP s.mem bp) (PACK size 0)).bind fun s =>
    (PUT_checked s (HDRP (NEXT_BLKP s.mem bp)) (PACK 0 1)).bind fun s =>
    some (coalesce s bp)

/-- `mm_init` with its six stores and those of `extend_heap` checked: `none`
when a store goes outside the bytes obtained from the provider, otherwise the
state and the return value. -/
def mm_init_checked (s : State) : Option (State × Int) :=
  let r := mem_sbrk s (8 * WSIZE)
  let s := { r.1 with heap_listp := r.2 }
  if s.heap_listp = 0 then some (s, -1)
  else
    (PUT_checked s s.heap_listp 0).bind fun s =>
    (PUT_checked s (s.heap_listp + WSIZE) (PACK (OVERHEAD + DSIZE) 1)).bind fun s =>
    (PUTA_checked s (PREV_FRP (s.heap_listp + DSIZE)) 0).bind fun s =>
    (PUTA_checked s (NEXT_FRP (s.heap_listp + DSIZE)) 0).bind fun s =>
    (PUT_checked s (s.heap_listp + QSIZE + DSIZE) (PACK (OVERHEAD + DSIZE) 1)).bind fun s =>
    (PUT_checked s (s.heap_listp + QSIZE + DSIZE + WSIZE) (PACK 0 1)).bind fun s =>
    let s := { s with heap_listp := s.heap_listp + DSIZE }
    let s := { s with rover := s.heap_listp }
    (extend_heap_checked s (CHUNKSIZE / WSIZE)).map fun r =>
      if r.2 = 0 then (r.1, -1) else (r.1, 0)

/-- A provider with room for the first 32 bytes of `mm_init` but not for the
4096 bytes of the seeding request; failure value `NULL`. -/
def tinyNull : State :=
  { mem := fun _ => 0, mem_heap := 4096, mem_brk := 4096, mem_max_addr := 4096 + 32,
    mem_fail := 0, heap_listp := 0, rover := 0 }

/-! ## Theorems -/

set_option linter.all false

/-! ### Bit operations and memory reads over writes -/

theorem and_one_eq (x : Nat) : x &&& 1 = x % 2 := Nat.and_one_is_mod x

theorem and_mask_eq (x : Nat) (h : x < WD) : x &&& 4294967288 = x / 8 * 8 := by
  apply Nat.eq_of_testBit_eq
  intro i
  have hm : (4294967288 : Nat) = (2 ^ 29 - 1) <<< 3 := by decide
  have hx : x / 8 * 8 = (x >>> 3) <<< 3 := by
    rw [Nat.shiftLeft_eq, Nat.shiftRight_eq_div_pow]
  rw [hx, Nat.testBit_and, hm, Nat.testBit_shiftLeft, Nat.testBit_shiftLeft, Nat.testBit_two_pow_sub_one,
    Nat.testBit_shiftRight]
  by_cases h3 : 3 ≤ i
  · have e : 3 + (i - 3) = i := by omega
    simp only [ge_iff_le, h3, decide_True, Bool.true_and, e]
    by_cases h32 : i - 3 < 29
    · simp [h32]
    · simp only [h32, decide_False, Bool.and_false]
      symm
      apply Nat.testBit_lt_two_pow
      calc x < 2 ^ 32 := by simpa [WD] using h
        _ ≤ 2 ^ i := Nat.pow_le_pow_right (by decide) (by omega)
  · simp [h3]

theorem or_one_eq (sz : Nat) (h : sz % 8 = 0) : sz ||| 1 = sz + 1 := by
  obtain ⟨k, rfl⟩ : ∃ k, sz = 2 ^ 3 * k := ⟨sz / 8, by omega⟩
  exact (Nat.mul_add_lt_is_or (by decide) k).symm

theorem PACK_zero (sz : Nat) : PACK sz 0 = sz := by simp [PACK]
theorem PACK_one (sz : Nat) (h : sz % 8 = 0) : PACK sz 1 = sz + 1 := or_one_eq sz h

theorem GET_lt (m : Mem) (p : Nat) : GET m p < WD := by
  simp only [GET, WD]; omega

theorem GET_PUT_same (m : Mem) (p v : Nat) : GET (PUT m p v) p = v % WD := by
  have e1 : PUT m p v p = v % 256 := by simp [PUT]
  have e2 : PUT m p v (p + 1) = v / 256 % 256 := by simp [PUT]
  have e3 : PUT m p v (p + 2) = v / 65536 % 256 := by simp [PUT]
  have e4 : PUT m p v (p + 3) = v / 16777216 % 256 := by simp [PUT]
  simp only [GET, e1, e2, e3, e4, WD]
  omega

theorem PUT_byte_ne (m : Mem) (p v a : Nat) (h : a < p ∨ p + 4 ≤ a) : PUT m p v a = m a := by
  unfold PUT
  rw [if_neg (by omega), if_neg (by omega), if_neg (by omega), if_neg (by omega)]

theorem GET_congr (m m' : Mem) (q : Nat) (h : ∀ a, q ≤ a → a < q + 4 → m' a = m a) : GET m' q = GET m q := by
  unfold GET
  rw [h q (by omega) (by omega), h (q+1) (by omega) (by omega), h (q+2) (by omega) (by omega), h (q+3) (by omega) (by omega)]

theorem GET_PUT_ne (m : Mem) (p v q : Nat) (h : p + 4 ≤ q ∨ q + 4 ≤ p) : GET (PUT m p v) q = GET m q :=
  GET_congr _ _ _ (fun a h1 h2 => PUT_byte_ne m p v a (by omega))

theorem PUTA_byte_ne (m : Mem) (p v a : Nat) (h : a < p ∨ p + 8 ≤ a) : PUTA m p v a = m a := by
  unfold PUTA
  rw [PUT_byte_ne _ _ _ _ (by omega), PUT_byte_ne _ _ _ _ (by omega)]

theorem GET_PUTA_ne (m : Mem) (p v q : Nat) (h : p + 8 ≤ q ∨ q + 4 ≤ p) : GET (PUTA m p v) q = GET m q :=
  GET_congr _ _ _ (fun a h1 h2 => PUTA_byte_ne m p v a (by omega))

theorem GETA_congr (m m' : Mem) (q : Nat) (h : ∀ a, q ≤ a → a < q + 8 → m' a = m a) : GETA m' q = GETA m q := by
  unfold GETA GETL
  rw [GET_congr m m' q (fun a h1 h2 => h a (by omega) (by omega)), GET_congr m m' (q+4) (fun a h1 h2 => h a (by omega) (by omega))]

theorem GETA_PUT_ne (m : Mem) (p v q : Nat) (h : p + 4 ≤ q ∨ q + 8 ≤ p) : GETA (PUT m p v) q = GETA m q :=
  GETA_congr _ _ _ (fun a h1 h2 => PUT_byte_ne m p v a (by omega))

theorem GETA_PUTA_ne (m : Mem) (p v q : Nat) (h : p + 8 ≤ q ∨ q + 8 ≤ p) : GETA (PUTA m p v) q = GETA m q :=
  GETA_congr _ _ _ (fun a h1 h2 => PUTA_byte_ne m p v a (by omega))

theorem GETA_PUTA_same (m : Mem) (p v : Nat) (h : v < SZ) : GETA (PUTA m p v) p = v := by
  unfold GETA GETL PUTA
  rw [GET_PUT_same, GET_PUT_ne _ _ _ _ (by omega), GET_PUT_same]
  simp only [WD, SZ] at *
  omega

theorem GETA_lt (m : Mem) (p : Nat) : GETA m p < SZ := by
  unfold GETA GETL
  have := GET_lt m p
  have := GET_lt m (p+4)
  simp only [WD, SZ] at *
  omega

/-! ### Block tags and the layout of a chain -/

/-! ## Decoding a tag word -/

theorem tag_size (m : Mem) (p : Nat) (b : Blk) (h : GET m p = b.tag) (h8 : b.size % 8 = 0) :
    GET_SIZE m p = b.size := by
  have hlt := GET_lt m p
  unfold GET_SIZE
  rw [and_mask_eq _ hlt, h]
  unfold Blk.tag
  split <;> omega

theorem tag_alloc (m : Mem) (p : Nat) (b : Blk) (h : GET m p = b.tag) (h8 : b.size % 8 = 0) :
    GET_ALLOC m p = if b.alloc then 1 else 0 := by
  unfold GET_ALLOC
  rw [and_one_eq, h]
  unfold Blk.tag
  split <;> omega

theorem tag_lt (m : Mem) (p : Nat) (b : Blk) (h : GET m p = b.tag) : b.size < WD := by
  have hlt := GET_lt m p
  rw [h] at hlt
  unfold Blk.tag at hlt
  omega

theorem PACK_tag (sz : Nat) (a : Bool) (h8 : sz % 8 = 0) :
    PACK sz (if a then 1 else 0) = Blk.tag ⟨0, sz, a⟩ := by
  cases a
  · simp [PACK, Blk.tag]
  · simp only [if_true, Blk.tag]
    exact or_one_eq sz h8

/-! ## Geometry of a layout -/

theorem Layout_append (L1 L2 : List Blk) (lo hi : Nat) :
    Layout (L1 ++ L2) lo hi ↔ ∃ mid, Layout L1 lo mid ∧ Layout L2 mid hi := by
  induction L1 generalizing lo with
  | nil => simp [Layout]
  | cons b t ih =>
    show (b.addr = lo ∧ 24 ≤ b.size ∧ b.size % 8 = 0 ∧ Layout (t ++ L2) (lo + b.size) hi) ↔
      ∃ mid, (b.addr = lo ∧ 24 ≤ b.size ∧ b.size % 8 = 0 ∧ Layout t (lo + b.size) mid) ∧ Layout L2 mid hi
    rw [ih]
    constructor
    · rintro ⟨h1, h2, h3, mid, h4, h5⟩
      exact ⟨mid, ⟨h1, h2, h3, h4⟩, h5⟩
    · rintro ⟨mid, ⟨h1, h2, h3, h4⟩, h5⟩
      exact ⟨h1, h2, h3, mid, h4, h5⟩

theorem Layout_le (L : List Blk) (lo hi : Nat) (h : Layout L lo hi) : lo ≤ hi := by
  induction L generalizing lo with
  | nil => simp [Layout] at h; omega
  | cons b t ih =>
    obtain ⟨_, _, _, h4⟩ := h
    have := ih _ h4
    omega

theorem Layout_mem (L : List Blk) (lo hi : Nat) (h : Layout L lo hi) (b : Blk) (hb : b ∈ L) :
    lo ≤ b.addr ∧ b.addr + b.size ≤ hi ∧ 24 ≤ b.size ∧ b.size % 8 = 0 := by
  induction L generalizing lo with
  | nil => simp at hb
  | cons c t ih =>
    obtain ⟨h1, h2, h3, h4⟩ := h
    have hle := Layout_le _ _ _ h4
    rcases List.mem_cons.mp hb with rfl | hb'
    · omega
    · have := ih _ h4 hb'
      omega

theorem Layout_length (L : List Blk) (lo hi : Nat) (h : Layout L lo hi) :
    lo + 24 * L.length ≤ hi := by
  induction L generalizing lo with
  | nil => simp [Layout] at h; simp; omega
  | cons b t ih =>
    obtain ⟨_, h2, _, h4⟩ := h
    have := ih _ h4
    simp only [List.length_cons]
    omega

theorem Layout_sum (L : List Blk) (lo hi : Nat) (h : Layout L lo hi) :
    lo + (L.map Blk.size).sum = hi := by
  induction L generalizing lo with
  | nil => simpa [Layout] using h
  | cons b t ih =>
    obtain ⟨_, _, _, h4⟩ := h
    have := ih _ h4
    simp only [List.map_cons, List.sum_cons]
    omega

/-- Around a block of the chain: the blocks before end at it, the blocks after
start at its end. -/
theorem Layout_split (L1 L2 : List Blk) (b : Blk) (lo hi : Nat)
    (h : Layout (L1 ++ b :: L2) lo hi) :
    Layout L1 lo b.addr ∧ 24 ≤ b.size ∧ b.size % 8 = 0 ∧ Layout L2 (b.addr + b.size) hi := by
  obtain ⟨mid, h1, h2, h3, h4, h5⟩ := (Layout_append _ _ _ _).mp h
  subst h2
  exact ⟨h1, h3, h4, h5⟩

theorem Layout_addr_inj (L : List Blk) (lo hi : Nat) (h : Layout L lo hi) (b c : Blk)
    (hb : b ∈ L) (hc : c ∈ L) (e : b.addr = c.addr) : b = c := by
  obtain ⟨L1, L2, rfl⟩ := List.append_of_mem hb
  obtain ⟨h1, h2, h3, h4⟩ := Layout_split _ _ _ _ _ h
  rcases List.mem_append.mp hc with hc | hc
  · have := Layout_mem _ _ _ h1 c hc
    omega
  · rcases List.mem_cons.mp hc with rfl | hc
    · rfl
    · have := Layout_mem _ _ _ h4 c hc
      omega

/-! ### Walking the chain and the free list -/

/-! ## Reading the chain and the list back from memory -/

theorem blocksFrom_eq (m : Mem) (L : List Blk) (lo hi : Nat) (hL : Layout L lo hi)
    (ht : TagsOK m L) (he : GET m (hi - 4) = 1) (fuel : Nat) (hf : L.length < fuel) :
    blocksFrom m fuel lo = L := by
  induction L generalizing lo fuel with
  | nil =>
    simp only [Layout] at hL
    subst hL
    cases fuel with
    | zero => simp at hf
    | succ n =>
      have : GET_SIZE m (HDRP lo) = 0 := by
        simp only [GET_SIZE, HDRP, he]; decide
      simp [blocksFrom, this]
  | cons b t ih =>
    obtain ⟨h1, h2, h3, h4⟩ := hL
    cases fuel with
    | zero => simp at hf
    | succ n =>
      have hb := ht b (List.mem_cons_self _ _)
      rw [h1] at hb
      have hs : GET_SIZE m (HDRP lo) = b.size := tag_size m _ b hb.1 h3
      have ha : GET_ALLOC m (HDRP lo) = if b.alloc then 1 else 0 := tag_alloc m _ b hb.1 h3
      have hn : NEXT_BLKP m lo = lo + b.size := by
        simp only [NEXT_BLKP]; rw [show lo - WSIZE = HDRP lo from rfl, hs]
      have ih' := ih (lo + b.size) h4 (fun c hc => ht c (List.mem_cons_of_mem _ hc)) n
        (by simp only [List.length_cons] at hf; omega)
      simp only [blocksFrom, hs, ha, hn, ih']
      rw [if_neg (by omega)]
      congr 1
      cases b with
      | mk a sz al =>
        simp only at h1
        subst h1
        cases al <;> simp

theorem listFrom_eq (m : Mem) (fl : List Nat) (prev : Nat) (h : FList m prev fl)
    (hnz : ∀ y ∈ fl, y ≠ 0) (fuel : Nat) (hf : fl.length < fuel) :
    listFrom m fuel (GETA m (prev + 8)) = fl := by
  induction fl generalizing prev fuel with
  | nil =>
    simp only [FList] at h
    cases fuel with
    | zero => simp at hf
    | succ n => simp [listFrom, h]
  | cons a t ih =>
    obtain ⟨h1, h2, h3⟩ := h
    cases fuel with
    | zero => simp at hf
    | succ n =>
      have := ih a h3 (fun y hy => hnz y (List.mem_cons_of_mem _ hy)) n
        (by simp only [List.length_cons] at hf; omega)
      simp only [listFrom, h1, NEXT_FRP]
      rw [if_neg (hnz a (List.mem_cons_self _ _)), this]

/-! ## Frame lemmas -/

theorem TagsOK_congr (m m' : Mem) (L : List Blk)
    (h : ∀ b ∈ L, ∀ a, (b.addr - 4 ≤ a ∧ a < b.addr - 4 + 4) ∨
      (b.addr + b.size - 8 ≤ a ∧ a < b.addr + b.size - 8 + 4) → m' a = m a)
    (ht : TagsOK m L) : TagsOK m' L := by
  intro b hb
  obtain ⟨h1, h2⟩ := ht b hb
  constructor
  · rw [GET_congr m m' _ (fun a ha1 ha2 => h b hb a (Or.inl ⟨ha1, ha2⟩))]; exact h1
  · rw [GET_congr m m' _ (fun a ha1 ha2 => h b hb a (Or.inr ⟨ha1, ha2⟩))]; exact h2

theorem FList_congr (m m' : Mem) (prev : Nat) (fl : List Nat)
    (h0 : ∀ a, prev + 8 ≤ a → a < prev + 16 → m' a = m a)
    (h : ∀ y ∈ fl, ∀ a, y ≤ a → a < y + 16 → m' a = m a)
    (hf : FList m prev fl) : FList m' prev fl := by
  induction fl generalizing prev with
  | nil =>
    simp only [FList] at hf ⊢
    rw [GETA_congr m m' _ (fun a h1 h2 => h0 a h1 (by omega))]; exact hf
  | cons x t ih =>
    obtain ⟨h1, h2, h3⟩ := hf
    refine ⟨?_, ?_, ?_⟩
    · rw [GETA_congr m m' _ (fun a h1 h2 => h0 a h1 (by omega))]; exact h1
    · rw [GETA_congr m m' _ (fun a h1 h2 => h x (List.mem_cons_self _ _) a h1 (by omega))]; exact h2
    · exact ih x (fun a h1 h2 => h x (List.mem_cons_self _ _) a (by omega) h2)
        (fun y hy => h y (List.mem_cons_of_mem _ hy)) h3

/-- Backward and forward link of a node in the middle of the list. -/
theorem FList_links (m : Mem) (prev : Nat) (l1 l2 : List Nat) (x : Nat)
    (h : FList m prev (l1 ++ x :: l2)) :
    GETA m x = l1.getLastD prev ∧ GETA m (x + 8) = l2.headD 0 := by
  induction l1 generalizing prev with
  | nil =>
    obtain ⟨h1, h2, h3⟩ := h
    refine ⟨by simpa using h2, ?_⟩
    cases l2 with
    | nil => simpa [FList] using h3
    | cons y t => exact h3.1
  | cons a t ih =>
    obtain ⟨h1, h2, h3⟩ := h
    have := ih a h3
    rw [List.getLastD_cons]
    exact this

/-! ### The free-list manager -/

theorem removefblock_eq (s : State) (x : Nat) :
    removefblock s x = { s with
      mem := unlink s.mem (GETA s.mem x) (GETA s.mem (x + 8)),
      rover := if s.rover = x then GETA s.mem (x + 8) else s.rover } := by
  simp only [removefblock, unlink, NEXT_FRP, PREV_FRP, DSIZE]

theorem unlink_byte (m : Mem) (pv nx a : Nat) (h1 : a < pv + 8 ∨ pv + 16 ≤ a)
    (h2 : nx = 0 ∨ a < nx ∨ nx + 8 ≤ a) : unlink m pv nx a = m a := by
  simp only [unlink, PUTAP, PUTAN, NEXT_FRP, PREV_FRP, DSIZE]
  split
  · rw [PUTA_byte_ne _ _ _ _ (by omega), PUTA_byte_ne _ _ _ _ (by omega)]
  · rw [PUTA_byte_ne _ _ _ _ (by omega)]

theorem Far_symm {a b : Nat} (h : Far a b) : Far b a := Or.symm h

/-- Unlinking a node of a well-linked list leaves the list without it. -/
theorem unlink_flist (m : Mem) (prev : Nat) (l1 l2 : List Nat) (x : Nat)
    (hf : FList m prev (l1 ++ x :: l2))
    (hsep : List.Pairwise Far (prev :: (l1 ++ x :: l2)))
    (hrng : ∀ y ∈ prev :: (l1 ++ x :: l2), 0 < y ∧ y < SZ) :
    FList (unlink m (l1.getLastD prev) (l2.headD 0)) prev (l1 ++ l2) := by
  induction l1 generalizing prev with
  | nil =>
    obtain ⟨h1, h2, h3⟩ := hf
    simp only [List.nil_append, List.pairwise_cons, List.mem_cons, forall_eq_or_imp] at hsep hrng
    obtain ⟨⟨hpx, hpl⟩, ⟨hxl, hl2⟩⟩ := hsep
    obtain ⟨hp, hx, hl⟩ := hrng
    cases l2 with
    | nil =>
      simp only [List.getLastD_nil, List.headD_nil, unlink, ne_eq, not_true_eq_false, if_false,
        List.append_nil, FList, PUTAN, NEXT_FRP, DSIZE]
      exact GETA_PUTA_same _ _ _ (by decide)
    | cons y t =>
      obtain ⟨h4, h5, h6⟩ := h3
      have hy := hl y (List.mem_cons_self _ _)
      have hpy : Far prev y := hpl y (List.mem_cons_self _ _)
      have hxy : Far x y := hxl y (List.mem_cons_self _ _)
      unfold Far at hpy hxy
      simp only [List.pairwise_cons] at hl2
      simp only [List.getLastD_nil, List.headD_cons, unlink, List.nil_append, PUTAN, PUTAP,
        NEXT_FRP, PREV_FRP, DSIZE]
      rw [if_pos (by omega)]
      refine ⟨?_, ?_, ?_⟩
      · rw [GETA_PUTA_ne _ _ _ _ (by omega), GETA_PUTA_same _ _ _ hy.2]
      · rw [GETA_PUTA_same _ _ _ hp.2]
      · apply FList_congr m _ y t _ _ h6
        · intro a ha1 ha2
          rw [PUTA_byte_ne _ _ _ _ (by omega), PUTA_byte_ne _ _ _ _ (by omega)]
        · intro z hz a ha1 ha2
          have hpz : Far prev z := hpl z (List.mem_cons_of_mem _ hz)
          have hyz : Far y z := hl2.1 z hz
          unfold Far at hpz hyz
          rw [PUTA_byte_ne _ _ _ _ (by omega), PUTA_byte_ne _ _ _ _ (by omega)]
  | cons a t ih =>
    obtain ⟨h1, h2, h3⟩ := hf
    simp only [List.cons_append, List.pairwise_cons] at hsep
    obtain ⟨hp, ha, hrest⟩ := hsep
    have hsep' : List.Pairwise Far (a :: (t ++ x :: l2)) := List.pairwise_cons.mpr ⟨ha, hrest⟩
    have ih' := ih a h3 hsep' (fun y hy => hrng y (List.mem_cons_of_mem _ hy))
    rw [List.getLastD_cons]
    have hpvmem : t.getLastD a ∈ a :: t := by
      rw [List.getLastD_eq_getLast?]
      cases hgl : t.getLast? with
      | none => simp
      | some z => simp only [Option.getD_some]; exact List.mem_cons_of_mem _ (List.mem_of_getLast?_eq_some hgl)
    have hnx : l2.headD 0 = 0 ∨ l2.headD 0 ∈ l2 := by
      cases l2 with
      | nil => left; rfl
      | cons y t' => right; simp
    -- the two written areas avoid the head anchor and the backward link of `a`
    have hpv_far : Far prev (t.getLastD a) := by
      apply hp
      rcases List.mem_cons.mp hpvmem with e | e
      · rw [e]; exact List.mem_cons_self _ _
      · exact List.mem_cons_of_mem _ (List.mem_append_left _ e)
    have hnx_far_prev : l2.headD 0 = 0 ∨ Far prev (l2.headD 0) := by
      rcases hnx with e | e
      · left; exact e
      · right; apply hp
        exact List.mem_cons_of_mem _ (List.mem_append_right _ (List.mem_cons_of_mem _ e))
    have hnx_far_a : l2.headD 0 = 0 ∨ Far a (l2.headD 0) := by
      rcases hnx with e | e
      · left; exact e
      · right; apply ha
        exact List.mem_append_right _ (List.mem_cons_of_mem _ e)
    have hpv_a : t.getLastD a = a ∨ Far a (t.getLastD a) := by
      rcases List.mem_cons.mp hpvmem with e | e
      · left; exact e
      · right; exact ha _ (List.mem_append_left _ e)
    generalize t.getLastD a = pv at *
    generalize l2.headD 0 = nx at *
    unfold Far at hpv_far hnx_far_prev hnx_far_a hpv_a
    refine ⟨?_, ?_, ih'⟩
    · rw [GETA_congr m _ _ (fun b hb1 hb2 => unlink_byte m pv nx b (by omega) (by omega))]
      exact h1
    · rw [GETA_congr m _ _ (fun b hb1 hb2 => unlink_byte m pv nx b (by omega) (by omega))]
      exact h2

/-- Pushing a fresh node at the head of a well-linked list. -/
theorem addfblock_flist (s : State) (fl : List Nat) (x : Nat)
    (hf : FList s.mem s.heap_listp fl)
    (hsep : List.Pairwise Far (x :: s.heap_listp :: fl))
    (hrng : ∀ y ∈ x :: s.heap_listp :: fl, 0 < y ∧ y < SZ) :
    FList (addfblock s x).mem s.heap_listp (x :: fl) := by
  simp only [List.pairwise_cons, List.mem_cons, forall_eq_or_imp] at hsep hrng
  obtain ⟨⟨hxh, hxl⟩, ⟨hhl, hl⟩⟩ := hsep
  obtain ⟨hx, hh, hr⟩ := hrng
  unfold Far at hxh
  have hnext : GETA (PUTAP (PUTAN s.mem x (GETL s.mem (NEXT_FRP s.heap_listp))) x s.heap_listp)
      (NEXT_FRP s.heap_listp) = GETA s.mem (s.heap_listp + 8) := by
    simp only [PUTAP, PUTAN, NEXT_FRP, PREV_FRP, DSIZE]
    rw [GETA_PUTA_ne _ _ _ _ (by omega), GETA_PUTA_ne _ _ _ _ (by omega)]
  simp only [addfblock, hnext]
  cases fl with
  | nil =>
    simp only [FList] at hf
    simp only [hf, ne_eq, not_true_eq_false, if_false, FList, PUTAP, PUTAN, NEXT_FRP, PREV_FRP, DSIZE]
    have hz : GETL s.mem (s.heap_listp + 8) = 0 := hf
    refine ⟨?_, ?_, ?_⟩
    · rw [GETA_PUTA_same _ _ _ hx.2]
    · rw [GETA_PUTA_ne _ _ _ _ (by omega), GETA_PUTA_same _ _ _ hh.2]
    · rw [GETA_PUTA_ne _ _ _ _ (by omega), GETA_PUTA_ne _ _ _ _ (by omega), hz,
        GETA_PUTA_same _ _ _ (by decide)]
  | cons y t =>
    obtain ⟨h1, h2, h3⟩ := hf
    have hy := hr y (List.mem_cons_self _ _)
    have hxy : Far x y := hxl y (List.mem_cons_self _ _)
    have hhy : Far s.heap_listp y := hhl y (List.mem_cons_self _ _)
    unfold Far at hxy hhy
    simp only [List.pairwise_cons] at hl
    have hz : GETL s.mem (s.heap_listp + 8) = y := h1
    simp only [h1, PUTAP, PUTAN, NEXT_FRP, PREV_FRP, DSIZE, hz]
    rw [if_pos (by omega)]
    refine ⟨?_, ?_, ?_, ?_, ?_⟩
    · rw [GETA_PUTA_ne _ _ _ _ (by omega), GETA_PUTA_same _ _ _ hx.2]
    · rw [GETA_PUTA_ne _ _ _ _ (by omega), GETA_PUTA_ne _ _ _ _ (by omega),
        GETA_PUTA_same _ _ _ hh.2]
    · rw [GETA_PUTA_ne _ _ _ _ (by omega), GETA_PUTA_ne _ _ _ _ (by omega),
        GETA_PUTA_ne _ _ _ _ (by omega), GETA_PUTA_same _ _ _ hy.2]
    · rw [GETA_PUTA_same _ _ _ hx.2]
    · apply FList_congr s.mem _ y t _ _ h3
      · intro a ha1 ha2
        rw [PUTA_byte_ne _ _ _ _ (by omega), PUTA_byte_ne _ _ _ _ (by omega),
          PUTA_byte_ne _ _ _ _ (by omega), PUTA_byte_ne _ _ _ _ (by omega)]
      · intro z hz a ha1 ha2
        have hxz : Far x z := hxl z (List.mem_cons_of_mem _ hz)
        have hhz : Far s.heap_listp z := hhl z (List.mem_cons_of_mem _ hz)
        have hyz : Far y z := hl.1 z hz
        unfold Far at hxz hhz hyz
        rw [PUTA_byte_ne _ _ _ _ (by omega), PUTA_byte_ne _ _ _ _ (by omega),
          PUTA_byte_ne _ _ _ _ (by omega), PUTA_byte_ne _ _ _ _ (by omega)]

/-- Bytes outside the link fields of the new node, the sentinel and the old
head are untouched by `addfblock`. -/
theorem addfblock_byte (s : State) (x a : Nat)
    (h1 : a < x ∨ x + 16 ≤ a) (h2 : a < s.heap_listp + 8 ∨ s.heap_listp + 16 ≤ a)
    (h3 : GETA s.mem (s.heap_listp + 8) = 0 ∨ a < GETA s.mem (s.heap_listp + 8) ∨
      GETA s.mem (s.heap_listp + 8) + 8 ≤ a)
    (hxh : Far x s.heap_listp) :
    (addfblock s x).mem a = s.mem a := by
  unfold Far at hxh
  have hnext : GETA (PUTAP (PUTAN s.mem x (GETL s.mem (NEXT_FRP s.heap_listp))) x s.heap_listp)
      (NEXT_FRP s.heap_listp) = GETA s.mem (s.heap_listp + 8) := by
    simp only [PUTAP, PUTAN, NEXT_FRP, PREV_FRP, DSIZE]
    rw [GETA_PUTA_ne _ _ _ _ (by omega), GETA_PUTA_ne _ _ _ _ (by omega)]
  simp only [addfblock, hnext]
  simp only [PUTAP, PUTAN, NEXT_FRP, PREV_FRP, DSIZE]
  split
  · rw [PUTA_byte_ne _ _ _ _ (by omega), PUTA_byte_ne _ _ _ _ (by omega),
      PUTA_byte_ne _ _ _ _ (by omega), PUTA_byte_ne _ _ _ _ (by omega)]
  · rw [PUTA_byte_ne _ _ _ _ (by omega), PUTA_byte_ne _ _ _ _ (by omega),
      PUTA_byte_ne _ _ _ _ (by omega)]

/-! ### Consequences of the invariant -/

/-! ## Facts read off `Pre` -/

theorem Pre.blk {s : State} {L : List Blk} {fl : List Nat} (h : Pre s L fl) {b : Blk}
    (hb : b ∈ L) :
    s.heap_listp ≤ b.addr ∧ b.addr + b.size ≤ s.mem_brk ∧ 24 ≤ b.size ∧ b.size % 8 = 0
      ∧ b.size < WD := by
  have := Layout_mem _ _ _ h.layout b hb
  have h1 := h.brk_le
  have h2 := h.max_lt
  have h3 := h.hl
  omega

theorem Pre.hdr_size {s : State} {L : List Blk} {fl : List Nat} (h : Pre s L fl) {b : Blk}
    (hb : b ∈ L) : GET_SIZE s.mem (b.addr - 4) = b.size :=
  tag_size _ _ b (h.tags b hb).1 (h.blk hb).2.2.2.1

theorem Pre.hdr_alloc {s : State} {L : List Blk} {fl : List Nat} (h : Pre s L fl) {b : Blk}
    (hb : b ∈ L) : GET_ALLOC s.mem (b.addr - 4) = if b.alloc then 1 else 0 :=
  tag_alloc _ _ b (h.tags b hb).1 (h.blk hb).2.2.2.1

theorem Pre.ftr_size {s : State} {L : List Blk} {fl : List Nat} (h : Pre s L fl) {b : Blk}
    (hb : b ∈ L) : GET_SIZE s.mem (b.addr + b.size - 8) = b.size :=
  tag_size _ _ b (h.tags b hb).2 (h.blk hb).2.2.2.1

theorem Pre.ftr_alloc {s : State} {L : List Blk} {fl : List Nat} (h : Pre s L fl) {b : Blk}
    (hb : b ∈ L) : GET_ALLOC s.mem (b.addr + b.size - 8) = if b.alloc then 1 else 0 :=
  tag_alloc _ _ b (h.tags b hb).2 (h.blk hb).2.2.2.1

theorem Pre.pro_mem {s : State} {L : List Blk} {fl : List Nat} (h : Pre s L fl) :
    (⟨s.heap_listp, 24, true⟩ : Blk) ∈ L := by
  obtain ⟨L', e⟩ := h.head
  rw [e]; exact List.mem_cons_self _ _

theorem Pre.free_ge {s : State} {L : List Blk} {fl : List Nat} (h : Pre s L fl) {b : Blk}
    (hb : b ∈ L) (hf : b.alloc = false) : s.heap_listp + 24 ≤ b.addr := by
  obtain ⟨L', e⟩ := h.head
  have hl := h.layout
  rw [e] at hb hl
  obtain ⟨_, _, _, h4⟩ := hl
  rcases List.mem_cons.mp hb with rfl | hb'
  · simp at hf
  · exact (Layout_mem _ _ _ h4 b hb').1

theorem Pre.node_ge {s : State} {L : List Blk} {fl : List Nat} (h : Pre s L fl) {y : Nat}
    (hy : y ∈ fl) : s.heap_listp + 24 ≤ y := by
  obtain ⟨b, hb, rfl, hf⟩ := h.sub y hy
  exact h.free_ge hb hf

theorem Pre.brk_lt {s : State} {L : List Blk} {fl : List Nat} (h : Pre s L fl) :
    s.mem_brk < 9223372036854775808 ∧ 8 < s.heap_listp := by
  have h1 := h.brk_le
  have h2 := h.max_half
  have h3 := h.hl
  have h4 := h.heap_pos
  simp only [SZ] at h2
  omega

/-- Distinct blocks of the chain are at least a block apart. -/
theorem Layout_far (L : List Blk) (lo hi : Nat) (h : Layout L lo hi) (b c : Blk)
    (hb : b ∈ L) (hc : c ∈ L) (hne : b.addr ≠ c.addr) :
    b.addr + b.size ≤ c.addr ∨ c.addr + c.size ≤ b.addr := by
  obtain ⟨L1, L2, rfl⟩ := List.append_of_mem hb
  obtain ⟨h1, h2, h3, h4⟩ := Layout_split _ _ _ _ _ h
  rcases List.mem_append.mp hc with hc | hc
  · have := Layout_mem _ _ _ h1 c hc
    omega
  · rcases List.mem_cons.mp hc with rfl | hc
    · exact absurd rfl hne
    · have := Layout_mem _ _ _ h4 c hc
      omega

theorem Pre.nodes_far {s : State} {L : List Blk} {fl : List Nat} (h : Pre s L fl) :
    List.Pairwise Far (s.heap_listp :: fl) := by
  rw [List.pairwise_cons]
  constructor
  · intro y hy
    have := h.node_ge hy
    unfold Far; omega
  · apply h.nodup.pairwise_of_forall_ne
    intro y hy z hz hne
    obtain ⟨b, hb, rfl, _⟩ := h.sub y hy
    obtain ⟨c, hc, rfl, _⟩ := h.sub z hz
    have := Layout_far _ _ _ h.layout b c hb hc hne
    have hb' := h.blk hb
    have hc' := h.blk hc
    unfold Far; omega

theorem Pre.nodes_rng {s : State} {L : List Blk} {fl : List Nat} (h : Pre s L fl) :
    ∀ y ∈ s.heap_listp :: fl, 0 < y ∧ y < SZ := by
  intro y hy
  have hb := h.brk_lt
  rcases List.mem_cons.mp hy with rfl | hy
  · have := h.blk h.pro_mem
    simp only [SZ] at *
    omega
  · obtain ⟨b, hb', rfl, _⟩ := h.sub y hy
    have := h.blk hb'
    simp only [SZ] at *
    omega

/-- A change confined to link fields of blocks of the chain keeps all boundary
tags and the epilogue. -/
theorem LinkOnly_tags {s : State} {L : List Blk} {fl : List Nat} (h : Pre s L fl)
    (nodes : List Nat) (hn : ∀ y ∈ nodes, ∃ c ∈ L, c.addr = y) (m' : Mem)
    (hm : LinkOnly nodes s.mem m') :
    TagsOK m' L ∧ GET m' (s.mem_brk - 4) = 1 := by
  constructor
  · apply TagsOK_congr s.mem m' L _ h.tags
    intro b hb a ha
    apply hm
    intro y hy
    obtain ⟨c, hc, rfl⟩ := hn y hy
    have hb' := h.blk hb
    have hc' := h.blk hc
    have hl := h.brk_lt
    by_cases e : b.addr = c.addr
    · have := Layout_addr_inj _ _ _ h.layout b c hb hc e
      subst this
      omega
    · have := Layout_far _ _ _ h.layout b c hb hc e
      omega
  · rw [GET_congr s.mem m' _ _]
    · exact h.epi
    · intro a ha1 ha2
      apply hm
      intro y hy
      obtain ⟨c, hc, rfl⟩ := hn y hy
      have hc' := h.blk hc
      omega

theorem Pre.nodes_blk {s : State} {L : List Blk} {fl : List Nat} (h : Pre s L fl) :
    ∀ y ∈ s.heap_listp :: fl, ∃ c ∈ L, c.addr = y := by
  intro y hy
  rcases List.mem_cons.mp hy with rfl | hy
  · exact ⟨_, h.pro_mem, rfl⟩
  · obtain ⟨b, hb, e, _⟩ := h.sub y hy
    exact ⟨b, hb, e⟩

/-! ## `removefblock` and `addfblock` on `Pre` -/

theorem Pre_remove {s : State} {L : List Blk} {fl : List Nat} (h : Pre s L fl) (x : Nat)
    (hx : x ∈ fl) :
    Pre (removefblock s x) L (fl.erase x)
      ∧ LinkOnly (s.heap_listp :: fl.erase x) s.mem (removefblock s x).mem
      ∧ ((removefblock s x).rover = s.rover ∧ s.rover ≠ x
          ∨ s.rover = x ∧ ((removefblock s x).rover = 0 ∨ (removefblock s x).rover ∈ fl.erase x)) := by
  obtain ⟨l1, l2, rfl⟩ := List.append_of_mem hx
  have hnd := h.nodup
  have hx1 : x ∉ l1 := by
    intro hx1
    have := (List.nodup_append.mp hnd).2.2
    exact this hx1 (List.mem_cons_self _ _) 
  have hx2 : x ∉ l2 := by
    have := (List.nodup_append.mp hnd).2.1
    exact (List.nodup_cons.mp this).1
  have he : (l1 ++ x :: l2).erase x = l1 ++ l2 := by
    rw [List.erase_append_right _ hx1, List.erase_cons_head]
  rw [he]
  obtain ⟨hpv, hnx⟩ := FList_links _ _ _ _ _ h.flist
  have hfl := unlink_flist _ _ _ _ _ h.flist h.nodes_far h.nodes_rng
  have hpvmem : l1.getLastD s.heap_listp ∈ s.heap_listp :: l1 := by
    rw [List.getLastD_eq_getLast?]
    cases hgl : l1.getLast? with
    | none => simp
    | some z => simp only [Option.getD_some]; exact List.mem_cons_of_mem _ (List.mem_of_getLast?_eq_some hgl)
  have hnxmem : l2.headD 0 = 0 ∨ l2.headD 0 ∈ l2 := by
    cases l2 with
    | nil => left; rfl
    | cons y t' => right; simp
  have hlink : LinkOnly (s.heap_listp :: (l1 ++ l2)) s.mem
      (unlink s.mem (l1.getLastD s.heap_listp) (l2.headD 0)) := by
    intro a ha
    apply unlink_byte
    · have := ha (l1.getLastD s.heap_listp) (by
        rcases List.mem_cons.mp hpvmem with e | e
        · rw [e]; exact List.mem_cons_self _ _
        · exact List.mem_cons_of_mem _ (List.mem_append_left _ e))
      omega
    · rcases hnxmem with e | e
      · left; exact e
      · right
        have := ha (l2.headD 0) (List.mem_cons_of_mem _ (List.mem_append_right _ e))
        omega
  have hsubset : ∀ y ∈ l1 ++ l2, y ∈ l1 ++ x :: l2 := by
    intro y hy
    rcases List.mem_append.mp hy with e | e
    · exact List.mem_append_left _ e
    · exact List.mem_append_right _ (List.mem_cons_of_mem _ e)
  have htags := LinkOnly_tags h (s.heap_listp :: (l1 ++ l2))
    (fun y hy => h.nodes_blk y (by
      rcases List.mem_cons.mp hy with e | e
      · rw [e]; exact List.mem_cons_self _ _
      · exact List.mem_cons_of_mem _ (hsubset y e))) _ hlink
  rw [removefblock_eq, hpv, hnx]
  refine ⟨?_, hlink, ?_⟩
  · exact {
      heap_pos := h.heap_pos
      brk_le := h.brk_le
      max_lt := h.max_lt
      max_half := h.max_half
      fail_half := h.fail_half
      hl := h.hl
      head := h.head
      layout := h.layout
      tags := htags.1
      epi := htags.2
      flist := hfl
      nodup := by
        have := List.nodup_append.mp hnd
        refine List.nodup_append.mpr ⟨this.1, (List.nodup_cons.mp this.2.1).2, ?_⟩
        intro a ha1 ha2
        exact this.2.2 ha1 (List.mem_cons_of_mem _ ha2)
      sub := fun y hy => h.sub y (hsubset y hy) }
  · by_cases hr : s.rover = x
    · right
      refine ⟨hr, ?_⟩
      simp only [hr, if_true]
      rcases hnxmem with e | e
      · left; exact e
      · right; exact List.mem_append_right _ e
    · left
      simp only [hr, if_false]
      exact ⟨trivial, hr⟩

theorem Pre_add {s : State} {L : List Blk} {fl : List Nat} (h : Pre s L fl) (b : Blk)
    (hb : b ∈ L) (hf : b.alloc = false) (hx : b.addr ∉ fl) :
    Pre (addfblock s b.addr) L (b.addr :: fl)
      ∧ LinkOnly (b.addr :: s.heap_listp :: fl) s.mem (addfblock s b.addr).mem
      ∧ (addfblock s b.addr).rover = s.rover := by
  have hge := h.free_ge hb hf
  have hbb := h.blk hb
  have hbrk := h.brk_lt
  have hfar : List.Pairwise Far (b.addr :: s.heap_listp :: fl) := by
    rw [List.pairwise_cons]
    refine ⟨?_, h.nodes_far⟩
    intro y hy
    rcases List.mem_cons.mp hy with rfl | hy
    · unfold Far; omega
    · obtain ⟨c, hc, rfl, _⟩ := h.sub y hy
      have hc' := h.blk hc
      have hne : b.addr ≠ c.addr := fun e => hx (e ▸ hy)
      have := Layout_far _ _ _ h.layout b c hb hc hne
      unfold Far; omega
  have hrng : ∀ y ∈ b.addr :: s.heap_listp :: fl, 0 < y ∧ y < SZ := by
    intro y hy
    rcases List.mem_cons.mp hy with rfl | hy
    · simp only [SZ]; omega
    · exact h.nodes_rng y hy
  have hfl := addfblock_flist s fl b.addr h.flist hfar hrng
  have hlink : LinkOnly (b.addr :: s.heap_listp :: fl) s.mem (addfblock s b.addr).mem := by
    intro a ha
    have h1 := ha b.addr (List.mem_cons_self _ _)
    have h2 := ha s.heap_listp (List.mem_cons_of_mem _ (List.mem_cons_self _ _))
    apply addfblock_byte s b.addr a h1 (by omega)
    · cases fl with
      | nil => left; exact h.flist
      | cons y t =>
        right
        rw [h.flist.1]
        have := ha y (List.mem_cons_of_mem _ (List.mem_cons_of_mem _ (List.mem_cons_self _ _)))
        omega
    · unfold Far; omega
  have htags := LinkOnly_tags h (b.addr :: s.heap_listp :: fl)
    (fun y hy => by
      rcases List.mem_cons.mp hy with e | e
      · exact ⟨b, hb, e.symm⟩
      · exact h.nodes_blk y e) _ hlink
  refine ⟨?_, hlink, rfl⟩
  exact {
    heap_pos := h.heap_pos
    brk_le := h.brk_le
    max_lt := h.max_lt
    max_half := h.max_half
    fail_half := h.fail_half
    hl := h.hl
    head := h.head
    layout := h.layout
    tags := htags.1
    epi := htags.2
    flist := hfl
    nodup := List.nodup_cons.mpr ⟨hx, h.nodup⟩
    sub := fun y hy => by
      rcases List.mem_cons.mp hy with e | e
      · exact ⟨b, hb, e.symm, hf⟩
      · exact h.sub y e }

/-! ### Rewriting the tags of a run of blocks -/

/-- Rewriting the boundary tags inside the extent of a run `mid` of blocks
that holds no list node: the run may be replaced by any run `mid'` with the
same extent whose tags the new memory holds. -/
theorem Pre_retag {s : State} {L1 mid L2 : List Blk} {fl : List Nat}
    (h : Pre s (L1 ++ mid ++ L2) fl) (hne : L1 ≠ []) (mid' : List Blk) (lo hi : Nat)
    (h1 : Layout L1 s.heap_listp lo) (h2 : Layout L2 hi s.mem_brk)
    (hmid' : Layout mid' lo hi) (m' : Mem)
    (hfr : ∀ a, (a < lo - 4 ∨ hi - 4 ≤ a) → m' a = s.mem a)
    (ht : TagsOK m' mid')
    (hnode : ∀ y ∈ fl, ∀ c ∈ mid, c.addr ≠ y) :
    Pre { s with mem := m' } (L1 ++ mid' ++ L2) fl := by
  obtain ⟨L', e⟩ := h.head
  have hbrk := h.brk_lt
  obtain ⟨p, L1', rfl⟩ : ∃ p L1', L1 = p :: L1' := by
    cases L1 with
    | nil => exact absurd rfl hne
    | cons p t => exact ⟨p, t, rfl⟩
  have hp : p = ⟨s.heap_listp, 24, true⟩ := by
    simp only [List.cons_append] at e
    exact (List.cons.inj e).1
  have hlo : s.heap_listp + 24 ≤ lo := by
    obtain ⟨_, _, _, h4⟩ := h1
    have := Layout_le _ _ _ h4
    rw [hp] at this
    simpa using this
  have hhi : hi ≤ s.mem_brk := Layout_le _ _ _ h2
  have hlohi : lo ≤ hi := Layout_le _ _ _ hmid'
  have hin1 : ∀ c ∈ p :: L1', c ∈ (p :: L1') ++ mid ++ L2 := fun c hc =>
    List.mem_append_left _ (List.mem_append_left _ hc)
  have hin2 : ∀ c ∈ L2, c ∈ (p :: L1') ++ mid ++ L2 := fun c hc => List.mem_append_right _ hc
  have hnode' : ∀ y ∈ fl, ∃ c, (c ∈ p :: L1' ∨ c ∈ L2) ∧ c.addr = y ∧ c.alloc = false := by
    intro y hy
    obtain ⟨c, hc, e1, e2⟩ := h.sub y hy
    rcases List.mem_append.mp hc with hc | hc
    · rcases List.mem_append.mp hc with hc | hc
      · exact ⟨c, Or.inl hc, e1, e2⟩
      · exact absurd e1 (hnode y hy c hc)
    · exact ⟨c, Or.inr hc, e1, e2⟩
  exact {
    heap_pos := h.heap_pos
    brk_le := h.brk_le
    max_lt := h.max_lt
    max_half := h.max_half
    fail_half := h.fail_half
    hl := h.hl
    head := ⟨L1' ++ mid' ++ L2, by rw [hp]; rfl⟩
    layout := by
      rw [Layout_append]
      refine ⟨hi, ?_, h2⟩
      rw [Layout_append]
      exact ⟨lo, h1, hmid'⟩
    tags := by
      intro c hc
      rcases List.mem_append.mp hc with hc | hc
      · rcases List.mem_append.mp hc with hc | hc
        · have hb := Layout_mem _ _ _ h1 c hc
          have := h.tags c (hin1 c hc)
          rw [GET_congr s.mem m' _ (fun a ha1 ha2 => hfr a (by omega)),
            GET_congr s.mem m' _ (fun a ha1 ha2 => hfr a (by omega))]
          exact this
        · exact ht c hc
      · have hb := Layout_mem _ _ _ h2 c hc
        have := h.tags c (hin2 c hc)
        rw [GET_congr s.mem m' _ (fun a ha1 ha2 => hfr a (by omega)),
          GET_congr s.mem m' _ (fun a ha1 ha2 => hfr a (by omega))]
        exact this
    epi := by
      show GET m' (s.mem_brk - 4) = 1
      rw [GET_congr s.mem m' _ (fun a ha1 ha2 => hfr a (by omega))]
      exact h.epi
    flist := by
      apply FList_congr s.mem m' _ _ _ _ h.flist
      · intro a ha1 ha2
        exact hfr a (by omega)
      · intro y hy a ha1 ha2
        obtain ⟨c, hc, rfl, _⟩ := hnode' y hy
        rcases hc with hc | hc
        · have hb := Layout_mem _ _ _ h1 c hc
          exact hfr a (by omega)
        · have hb := Layout_mem _ _ _ h2 c hc
          exact hfr a (by omega)
    nodup := h.nodup
    sub := by
      intro y hy
      obtain ⟨c, hc, e1, e2⟩ := hnode' y hy
      refine ⟨c, ?_, e1, e2⟩
      rcases hc with hc | hc
      · exact List.mem_append_left _ (List.mem_append_left _ hc)
      · exact List.mem_append_right _ hc }

/-! ### Free addresses, adjacency, frames -/

/-! ## Small facts on lists of blocks -/

theorem freeAddrs_append (A B : List Blk) : freeAddrs (A ++ B) = freeAddrs A ++ freeAddrs B := by
  simp [freeAddrs]

theorem freeAddrs_cons_free (b : Blk) (L : List Blk) (h : b.alloc = false) :
    freeAddrs (b :: L) = b.addr :: freeAddrs L := by
  simp [freeAddrs, h]

theorem freeAddrs_cons_alloc (b : Blk) (L : List Blk) (h : b.alloc = true) :
    freeAddrs (b :: L) = freeAddrs L := by
  simp [freeAddrs, h]

theorem freeAddrs_nil : freeAddrs [] = [] := rfl

theorem mem_freeAddrs {L : List Blk} {y : Nat} :
    y ∈ freeAddrs L ↔ ∃ b ∈ L, b.addr = y ∧ b.alloc = false := by
  simp only [freeAddrs, List.mem_map, List.mem_filter, Bool.not_eq_true']
  constructor
  · rintro ⟨b, ⟨h1, h2⟩, h3⟩; exact ⟨b, h1, h3, h2⟩
  · rintro ⟨b, h1, h3, h2⟩; exact ⟨b, ⟨h1, h2⟩, h3⟩

theorem NoAdj_glue (L1 L2 : List Blk) (p q : Blk) (h1 : NoAdj (L1 ++ [p])) (h2 : NoAdj (q :: L2))
    (h : p.alloc = true ∨ q.alloc = true) : NoAdj (L1 ++ p :: q :: L2) := by
  unfold NoAdj at *
  have : L1 ++ p :: q :: L2 = (L1 ++ [p]) ++ (q :: L2) := by simp
  rw [this, List.chain'_append]
  refine ⟨h1, h2, ?_⟩
  intro x hx y hy
  simp at hx hy
  subst hx; subst hy
  exact h

theorem NoAdj_last (L1 : List Blk) (p p' : Blk) (h1 : NoAdj (L1 ++ [p])) (e : p'.alloc = p.alloc) :
    NoAdj (L1 ++ [p']) := by
  unfold NoAdj at *
  rw [List.chain'_append] at *
  refine ⟨h1.1, List.chain'_singleton _, ?_⟩
  intro x hx y hy
  have := h1.2.2 x hx p (by simp)
  simp at hy
  subst hy
  rw [e]; exact this

theorem NoAdj_head (L2 : List Blk) (q q' : Blk) (h2 : NoAdj (q :: L2)) (e : q'.alloc = q.alloc) :
    NoAdj (q' :: L2) := by
  unfold NoAdj at *
  cases L2 with
  | nil => exact List.chain'_singleton _
  | cons r t =>
    rw [List.chain'_cons] at *
    rw [e]; exact h2

theorem NoAdj_mid (L1 L2 : List Blk) (M : Blk) (h1 : NoAdj (L1 ++ [M])) (h2 : NoAdj (M :: L2)) :
    NoAdj (L1 ++ M :: L2) := by
  unfold NoAdj at *
  have := List.Chain'.append_overlap h1 h2 (by simp)
  simpa using this

theorem NoAdj_left {L1 L2 : List Blk} (h : NoAdj (L1 ++ L2)) : NoAdj L1 :=
  List.Chain'.left_of_append h

theorem NoAdj_right {L1 L2 : List Blk} (h : NoAdj (L1 ++ L2)) : NoAdj L2 :=
  List.Chain'.right_of_append h

theorem NoAdj_tail {b : Blk} {L : List Blk} (h : NoAdj (b :: L)) : NoAdj L :=
  List.Chain'.tail h

theorem NoAdj_nil : NoAdj [] := List.chain'_nil

/-! ## Frames -/

theorem Keeps_refl (L : List Blk) (hl : Nat) (m : Mem) : Keeps L hl m m :=
  fun _ _ _ _ _ _ _ => rfl

theorem Keeps_trans {L : List Blk} {hl : Nat} {m0 m1 m2 : Mem} (h1 : Keeps L hl m0 m1)
    (h2 : Keeps L hl m1 m2) : Keeps L hl m0 m2 :=
  fun c hc ha hne a ha1 ha2 => (h2 c hc ha hne a ha1 ha2).trans (h1 c hc ha hne a ha1 ha2)

theorem Keeps_mono {L L' : List Blk} {hl : Nat} {m m' : Mem}
    (hsub : ∀ c ∈ L, c.alloc = true → c.addr ≠ hl → c ∈ L') (h : Keeps L' hl m m') :
    Keeps L hl m m' :=
  fun c hc ha hne a ha1 ha2 => h c (hsub c hc ha hne) ha hne a ha1 ha2

/-- A change confined to link fields of the sentinel and of free blocks keeps
every allocated payload. -/
theorem LinkOnly_keeps {s : State} {L : List Blk} {fl : List Nat} (h : Pre s L fl)
    (nodes : List Nat)
    (hn : ∀ y ∈ nodes, y = s.heap_listp ∨ ∃ c ∈ L, c.addr = y ∧ c.alloc = false) (m' : Mem)
    (hm : LinkOnly nodes s.mem m') : Keeps L s.heap_listp s.mem m' := by
  intro c hc hca hne a ha1 ha2
  apply hm
  intro y hy
  have hc' := h.blk hc
  rcases hn y hy with rfl | ⟨d, hd, rfl, hda⟩
  · have hp := h.blk h.pro_mem
    have := Layout_far _ _ _ h.layout c _ hc h.pro_mem hne
    simp only at this hp
    omega
  · have hd' := h.blk hd
    have hne' : c.addr ≠ d.addr := by
      intro e
      have := Layout_addr_inj _ _ _ h.layout c d hc hd e
      subst this
      rw [hca] at hda
      exact Bool.noConfusion hda
    have := Layout_far _ _ _ h.layout c d hc hd hne'
    omega

theorem Pre.nodes_free {s : State} {L : List Blk} {fl : List Nat} (h : Pre s L fl) :
    ∀ y ∈ s.heap_listp :: fl, y = s.heap_listp ∨ ∃ c ∈ L, c.addr = y ∧ c.alloc = false := by
  intro y hy
  rcases List.mem_cons.mp hy with e | hy
  · left; exact e
  · right; exact h.sub y hy

theorem Pre_remove_keeps {s : State} {L : List Blk} {fl : List Nat} (h : Pre s L fl) (x : Nat)
    (hx : x ∈ fl) : Keeps L s.heap_listp s.mem (removefblock s x).mem := by
  apply LinkOnly_keeps h _ _ _ (Pre_remove h x hx).2.1
  intro y hy
  apply h.nodes_free
  rcases List.mem_cons.mp hy with e | hy
  · rw [e]; exact List.mem_cons_self _ _
  · exact List.mem_cons_of_mem _ (List.mem_of_mem_erase hy)

theorem Pre_add_keeps {s : State} {L : List Blk} {fl : List Nat} (h : Pre s L fl) (b : Blk)
    (hb : b ∈ L) (hf : b.alloc = false) (hx : b.addr ∉ fl) :
    Keeps L s.heap_listp s.mem (addfblock s b.addr).mem := by
  apply LinkOnly_keeps h _ _ _ (Pre_add h b hb hf hx).2.1
  intro y hy
  rcases List.mem_cons.mp hy with e | hy
  · right; exact ⟨b, hb, e.symm, hf⟩
  · exact h.nodes_free y hy

/-! ### The coalescer: reads and case 1 -/

theorem Pre_rover {s : State} {L : List Blk} {fl : List Nat} (h : Pre s L fl) (r : Nat) :
    Pre { s with rover := r } L fl :=
  { heap_pos := h.heap_pos, brk_le := h.brk_le, max_lt := h.max_lt, max_half := h.max_half,
    fail_half := h.fail_half, hl := h.hl, head := h.head, layout := h.layout, tags := h.tags,
    epi := h.epi, flist := h.flist, nodup := h.nodup, sub := h.sub }

/-- What `coalesce` reads around a block `b` with predecessor `pb`. -/
theorem coalesce_reads {s : State} {L1 L2 : List Blk} {pb b : Blk} {fl : List Nat}
    (h : Pre s (L1 ++ pb :: b :: L2) fl) :
    Layout L1 s.heap_listp pb.addr ∧ pb.addr + pb.size = b.addr
      ∧ Layout L2 (b.addr + b.size) s.mem_brk
      ∧ PREV_BLKP s.mem b.addr = pb.addr
      ∧ FTRP s.mem pb.addr = pb.addr + pb.size - 8
      ∧ NEXT_BLKP s.mem b.addr = b.addr + b.size
      ∧ GET_SIZE s.mem (b.addr - 4) = b.size
      ∧ GET_ALLOC s.mem (pb.addr + pb.size - 8) = (if pb.alloc then 1 else 0)
      ∧ GET_ALLOC s.mem (b.addr + b.size - 4) = nextBit L2 := by
  have hpb : pb ∈ L1 ++ pb :: b :: L2 := List.mem_append_right _ (List.mem_cons_self _ _)
  have hb : b ∈ L1 ++ pb :: b :: L2 :=
    List.mem_append_right _ (List.mem_cons_of_mem _ (List.mem_cons_self _ _))
  obtain ⟨hL1, _, _, hrest⟩ := Layout_split _ _ _ _ _ h.layout
  obtain ⟨hadj, _, _, hL2⟩ := hrest
  have hadj' : pb.addr + pb.size = b.addr := hadj.symm
  rw [← hadj] at hL2
  have hsz := h.hdr_size hb
  have hpf := h.ftr_size hpb
  have hph := h.hdr_size hpb
  have hbb := h.blk hb
  have hpp := h.blk hpb
  have hprev : PREV_BLKP s.mem b.addr = pb.addr := by
    simp only [PREV_BLKP, DSIZE]
    rw [show b.addr - 8 = pb.addr + pb.size - 8 by omega, hpf]
    omega
  refine ⟨hL1, hadj', hL2, hprev, ?_, ?_, ?_, h.ftr_alloc hpb, ?_⟩
  · simp only [FTRP, HDRP, WSIZE, DSIZE, hph]
  · simp only [NEXT_BLKP, WSIZE, hsz]
  · exact hsz
  · cases L2 with
    | nil =>
      simp only [Layout] at hL2
      have := h.epi
      rw [← hL2] at this
      simp only [GET_ALLOC, this, nextBit]
      decide
    | cons nb t =>
      have hnb : nb ∈ L1 ++ pb :: b :: nb :: t :=
        List.mem_append_right _ (List.mem_cons_of_mem _ (List.mem_cons_of_mem _ (List.mem_cons_self _ _)))
      have := h.hdr_alloc hnb
      rw [hL2.1] at this
      simpa only [nextBit] using this

theorem coalesce_eq (s : State) (bp : Nat) :
    coalesce s bp =
      if GET_ALLOC s.mem (FTRP s.mem (PREV_BLKP s.mem bp)) ≠ 0
          ∧ GET_ALLOC s.mem (HDRP (NEXT_BLKP s.mem bp)) ≠ 0 then (addfblock s bp, bp)
      else roverFix (
        if GET_ALLOC s.mem (FTRP s.mem (PREV_BLKP s.mem bp)) ≠ 0
          ∧ ¬ GET_ALLOC s.mem (HDRP (NEXT_BLKP s.mem bp)) ≠ 0 then co2 s bp
        else if ¬ GET_ALLOC s.mem (FTRP s.mem (PREV_BLKP s.mem bp)) ≠ 0
          ∧ GET_ALLOC s.mem (HDRP (NEXT_BLKP s.mem bp)) ≠ 0 then co3 s bp
        else co4 s bp) := rfl

theorem GET_SIZE_PUT_same (m : Mem) (p sz a : Nat) (h8 : sz % 8 = 0) (hlt : sz < WD)
    (ha : a ≤ 1) : GET_SIZE (PUT m p (PACK sz a)) p = sz := by
  have e : PACK sz a = Blk.tag ⟨0, sz, decide (a = 1)⟩ := by
    have : a = 0 ∨ a = 1 := by omega
    rcases this with rfl | rfl
    · simp [PACK, Blk.tag]
    · simpa using PACK_tag sz true h8
  have hg : GET (PUT m p (PACK sz a)) p = Blk.tag ⟨0, sz, decide (a = 1)⟩ := by
    rw [GET_PUT_same, e]
    apply Nat.mod_eq_of_lt
    simp only [Blk.tag, WD] at *
    split <;> omega
  exact tag_size _ _ _ hg h8

theorem GET_SIZE_congr (m m' : Mem) (q : Nat) (h : ∀ a, q ≤ a → a < q + 4 → m' a = m a) :
    GET_SIZE m' q = GET_SIZE m q := by
  unfold GET_SIZE; rw [GET_congr m m' q h]

theorem SameEnv_refl (s : State) : SameEnv s s := ⟨rfl, rfl, rfl, rfl⟩

/-- Case 1 of `coalesce`: both neighbours allocated. -/
theorem coalesce_case1 {s : State} {L1 L2 : List Blk} {pb b : Blk} {fl : List Nat}
    (h : Pre s (L1 ++ pb :: b :: L2) fl) (hb : b.alloc = false) (hx : b.addr ∉ fl)
    (hperm : fl.Perm (freeAddrs (L1 ++ [pb]) ++ freeAddrs L2))
    (hna1 : NoAdj (L1 ++ [pb])) (hna2 : NoAdj L2)
    (hrov : s.rover = 0 ∨ s.rover = s.heap_listp ∨ s.rover ∈ fl)
    (hpa : pb.alloc = true) (hnext : ∀ nb ∈ L2.head?, nb.alloc = true) :
    ∃ fl', Rep (coalesce s b.addr).1 (L1 ++ pb :: b :: L2) fl'
      ∧ (coalesce s b.addr).2 = b.addr
      ∧ Keeps (L1 ++ pb :: b :: L2) s.heap_listp s.mem (coalesce s b.addr).1.mem
      ∧ SameEnv s (coalesce s b.addr).1 ∧ (coalesce s b.addr).1.mem_brk = s.mem_brk := by
  obtain ⟨_, _, _, r1, r2, r3, r4, r5, r6⟩ := coalesce_reads h
  have hbm : b ∈ L1 ++ pb :: b :: L2 :=
    List.mem_append_right _ (List.mem_cons_of_mem _ (List.mem_cons_self _ _))
  have hn : GET_ALLOC s.mem (b.addr + b.size - 4) = 1 := by
    rw [r6]
    cases L2 with
    | nil => rfl
    | cons nb t => simp [nextBit, hnext nb (by simp)]
  have hc : coalesce s b.addr = (addfblock s b.addr, b.addr) := by
    rw [coalesce_eq]
    simp only [r1, r2, r3, r5, hn, hpa, if_true, HDRP, WSIZE]
    simp
  rw [hc]
  obtain ⟨hpre, hlink, hrv⟩ := Pre_add h b hbm hb hx
  refine ⟨b.addr :: fl, ?_, rfl, Pre_add_keeps h b hbm hb hx, ⟨rfl, rfl, rfl, rfl⟩, rfl⟩
  exact {
    toPre := hpre
    perm := by
      have e : freeAddrs (L1 ++ pb :: b :: L2) = freeAddrs (L1 ++ [pb]) ++ b.addr :: freeAddrs L2 := by
        rw [show L1 ++ pb :: b :: L2 = (L1 ++ [pb]) ++ b :: L2 by simp, freeAddrs_append,
          freeAddrs_cons_free b L2 hb]
      rw [e]
      exact (List.Perm.cons _ hperm).trans List.perm_middle.symm
    noadj := by
      apply NoAdj_glue _ _ _ _ hna1 _ (Or.inl hpa)
      unfold NoAdj
      cases L2 with
      | nil => exact List.chain'_singleton _
      | cons nb t =>
        rw [List.chain'_cons]
        exact ⟨Or.inr (hnext nb (by simp)), hna2⟩
    rov := by
      show (addfblock s b.addr).rover = 0 ∨ (addfblock s b.addr).rover = s.heap_listp ∨ _
      rw [hrv]
      rcases hrov with e | e | e
      · exact Or.inl e
      · exact Or.inr (Or.inl e)
      · exact Or.inr (Or.inr (List.mem_cons_of_mem _ e)) }

/-! ### The coalescer: inserting the merged block -/

theorem Layout_mod (L : List Blk) (lo hi : Nat) (h : Layout L lo hi) : hi % 8 = lo % 8 := by
  induction L generalizing lo with
  | nil => simp [Layout] at h; rw [h]
  | cons b t ih =>
    obtain ⟨_, _, h3, h4⟩ := h
    have := ih _ h4
    omega

/-- The rover repair keeps the invariant when the merged block is in the list. -/
theorem roverFix_spec {s : State} {L : List Blk} {fl : List Nat} {bp : Nat}
    (hpre : Pre s L fl) (hperm : fl.Perm (freeAddrs L)) (hna : NoAdj L)
    (hrov : s.rover = 0 ∨ s.rover = s.heap_listp ∨ s.rover ∈ fl) (hbp : bp ∈ fl) :
    Rep (roverFix (s, bp)).1 L fl ∧ (roverFix (s, bp)).2 = bp
      ∧ (roverFix (s, bp)).1.mem = s.mem ∧ SameEnv s (roverFix (s, bp)).1
      ∧ (roverFix (s, bp)).1.mem_brk = s.mem_brk := by
  unfold roverFix
  split
  · refine ⟨?_, rfl, rfl, ⟨rfl, rfl, rfl, rfl⟩, rfl⟩
    exact { toPre := Pre_rover hpre bp, perm := hperm, noadj := hna,
            rov := Or.inr (Or.inr hbp) }
  · refine ⟨?_, rfl, rfl, ⟨rfl, rfl, rfl, rfl⟩, rfl⟩
    exact { toPre := hpre, perm := hperm, noadj := hna, rov := hrov }

/-- The common end of cases 2 to 4 of `coalesce`: the free neighbours are
already unlinked, the run `mid` of free blocks gets the tags of one block
and that block is pushed on the list. -/
theorem merge_add {s1 : State} {La mid Lb : List Blk} {fl1 : List Nat}
    (h1 : Pre s1 (La ++ mid ++ Lb) fl1) (hLa : La ≠ []) (lo hi : Nat)
    (hla : Layout La s1.heap_listp lo) (hmid : Layout mid lo hi)
    (hlb : Layout Lb hi s1.mem_brk) (hmne : mid ≠ [])
    (hfree : ∀ c ∈ mid, c.alloc = false ∧ c.addr ∉ fl1)
    (m3 : Mem) (hfr : ∀ a, (a < lo - 4 ∨ hi - 4 ≤ a) → m3 a = s1.mem a)
    (hh : GET m3 (lo - 4) = hi - lo) (hf : GET m3 (hi - 8) = hi - lo)
    (hperm : fl1.Perm (freeAddrs La ++ freeAddrs Lb))
    (hna1 : NoAdj (La ++ [⟨lo, hi - lo, false⟩])) (hna2 : NoAdj (⟨lo, hi - lo, false⟩ :: Lb))
    (hrov : s1.rover = 0 ∨ s1.rover = s1.heap_listp ∨ s1.rover ∈ fl1)
    (s4 : State) (hs4 : s4 = addfblock { s1 with mem := m3 } lo) :
    Pre s4 (La ++ ⟨lo, hi - lo, false⟩ :: Lb) (lo :: fl1)
      ∧ (lo :: fl1).Perm (freeAddrs (La ++ ⟨lo, hi - lo, false⟩ :: Lb))
      ∧ NoAdj (La ++ ⟨lo, hi - lo, false⟩ :: Lb)
      ∧ (s4.rover = 0 ∨ s4.rover = s4.heap_listp ∨ s4.rover ∈ lo :: fl1)
      ∧ Keeps (La ++ mid ++ Lb) s1.heap_listp s1.mem s4.mem
      ∧ SameEnv s1 s4 ∧ s4.mem_brk = s1.mem_brk
      ∧ LinkOnly (lo :: s1.heap_listp :: fl1) m3 s4.mem := by
  subst hs4
  have hlen := Layout_length _ _ _ hmid
  have hmod := Layout_mod _ _ _ hmid
  have hlenpos : 0 < mid.length := List.length_pos.mpr hmne
  have hsz : 24 ≤ hi - lo ∧ (hi - lo) % 8 = 0 ∧ lo + (hi - lo) = hi := by omega
  have hfirst : ∃ c ∈ mid, c.addr = lo := by
    cases mid with
    | nil => exact absurd rfl hmne
    | cons c t => exact ⟨c, List.mem_cons_self _ _, hmid.1⟩
  have hlo : lo ∉ fl1 := by
    obtain ⟨c, hc, e⟩ := hfirst
    rw [← e]; exact (hfree c hc).2
  have hML : Layout [(⟨lo, hi - lo, false⟩ : Blk)] lo hi := by
    refine ⟨rfl, hsz.1, hsz.2.1, ?_⟩
    show lo + (hi - lo) = hi
    exact hsz.2.2
  have hMT : TagsOK m3 [(⟨lo, hi - lo, false⟩ : Blk)] := by
    intro c hc
    rw [List.mem_singleton] at hc
    subst hc
    simp only [Blk.tag, Bool.false_eq_true, if_false, Nat.add_zero]
    refine ⟨hh, ?_⟩
    rw [show lo + (hi - lo) - 8 = hi - 8 by omega]
    exact hf
  have hpre3 := Pre_retag h1 hLa [⟨lo, hi - lo, false⟩] lo hi hla hlb hML m3 hfr hMT
    (fun y hy c hc e => (hfree c hc).2 (e ▸ hy))
  have hMmem : (⟨lo, hi - lo, false⟩ : Blk) ∈ La ++ [⟨lo, hi - lo, false⟩] ++ Lb := by simp
  obtain ⟨hpre4, hlink4, hrv4⟩ := Pre_add hpre3 ⟨lo, hi - lo, false⟩ hMmem rfl hlo
  have hk4 := Pre_add_keeps hpre3 ⟨lo, hi - lo, false⟩ hMmem rfl hlo
  have hLeq : La ++ [(⟨lo, hi - lo, false⟩ : Blk)] ++ Lb = La ++ ⟨lo, hi - lo, false⟩ :: Lb := by simp
  rw [hLeq] at hpre4 hk4
  have hperm4 : (lo :: fl1).Perm (freeAddrs (La ++ ⟨lo, hi - lo, false⟩ :: Lb)) := by
    rw [freeAddrs_append, freeAddrs_cons_free _ _ rfl]
    exact (List.Perm.cons _ hperm).trans List.perm_middle.symm
  have hrov4 : (addfblock { s1 with mem := m3 } lo).rover = 0
      ∨ (addfblock { s1 with mem := m3 } lo).rover = (addfblock { s1 with mem := m3 } lo).heap_listp
      ∨ (addfblock { s1 with mem := m3 } lo).rover ∈ lo :: fl1 := by
    rw [hrv4]
    rcases hrov with e | e | e
    · exact Or.inl e
    · exact Or.inr (Or.inl e)
    · exact Or.inr (Or.inr (List.mem_cons_of_mem _ e))
  refine ⟨hpre4, hperm4, NoAdj_mid _ _ _ hna1 hna2, hrov4, ?_, ⟨rfl, rfl, rfl, rfl⟩, rfl, hlink4⟩
  -- payloads of allocated blocks
  intro c hc hca hne a ha1 ha2
  have hcin : c ∈ La ∨ c ∈ Lb := by
    rcases List.mem_append.mp hc with hc | hc
    · rcases List.mem_append.mp hc with hc | hc
      · exact Or.inl hc
      · have := (hfree c hc).1
        rw [hca] at this
        exact Bool.noConfusion this
    · exact Or.inr hc
  have hc' : c ∈ La ++ ⟨lo, hi - lo, false⟩ :: Lb := by
    rcases hcin with e | e
    · exact List.mem_append_left _ e
    · exact List.mem_append_right _ (List.mem_cons_of_mem _ e)
  have e1 := hk4 c hc' hca hne a ha1 ha2
  have e2 : m3 a = s1.mem a := by
    apply hfr
    rcases hcin with e | e
    · have := Layout_mem _ _ _ hla c e
      omega
    · have := Layout_mem _ _ _ hlb c e
      omega
  exact e1.trans e2

/-- The result of a case of `coalesce` once its state `s4` before the rover
repair is known to satisfy everything but the rover clause. -/
theorem merge_finish {s1 s4 : State} {L L' : List Blk} {fl' : List Nat} {bp : Nat}
    (r : State × Nat) (hr : r = roverFix (s4, bp))
    (hpre : Pre s4 L' fl') (hperm : fl'.Perm (freeAddrs L')) (hna : NoAdj L')
    (hrov : s4.rover = 0 ∨ s4.rover = s4.heap_listp ∨ s4.rover ∈ fl') (hbp : bp ∈ fl')
    (hk : Keeps L s1.heap_listp s1.mem s4.mem) (henv : SameEnv s1 s4)
    (hbrk : s4.mem_brk = s1.mem_brk) :
    Rep r.1 L' fl' ∧ r.2 = bp ∧ Keeps L s1.heap_listp s1.mem r.1.mem ∧ SameEnv s1 r.1
      ∧ r.1.mem_brk = s1.mem_brk := by
  subst hr
  obtain ⟨g1, g2, g3, g4, g5⟩ := roverFix_spec hpre hperm hna hrov hbp
  refine ⟨g1, g2, ?_, ?_, ?_⟩
  · rw [g3]; exact hk
  · obtain ⟨a1, a2, a3, a4⟩ := henv
    obtain ⟨b1, b2, b3, b4⟩ := g4
    exact ⟨b1.trans a1, b2.trans a2, b3.trans a3, b4.trans a4⟩
  · rw [g5]; exact hbrk

/-! ### The coalescer: cases 2, 3 and 4 -/

theorem GET_SIZE_PUT_same0 (m : Mem) (p sz : Nat) (h8 : sz % 8 = 0) (hlt : sz < WD) :
    GET_SIZE (PUT m p sz) p = sz := by
  have := GET_SIZE_PUT_same m p sz 0 h8 hlt (by omega)
  rwa [PACK_zero] at this

theorem GET_SIZE_PUT_ne (m : Mem) (p v q : Nat) (h : p + 4 ≤ q ∨ q + 4 ≤ p) :
    GET_SIZE (PUT m p v) q = GET_SIZE m q := by
  unfold GET_SIZE; rw [GET_PUT_ne _ _ _ _ h]

theorem perm_erase_mid {fl A B : List Nat} {x : Nat} (h : fl.Perm (A ++ x :: B)) :
    (fl.erase x).Perm (A ++ B) := by
  have h1 : fl.Perm (x :: (A ++ B)) := h.trans List.perm_middle
  have h2 := h1.erase x
  rwa [List.erase_cons_head] at h2

theorem Pre.L1_ne {s : State} {L1 L2 : List Blk} {pb : Blk} {fl : List Nat}
    (h : Pre s (L1 ++ pb :: L2) fl) (hpf : pb.alloc = false) : L1 ≠ [] := by
  rintro rfl
  obtain ⟨L', e⟩ := h.head
  simp only [List.nil_append] at e
  have := (List.cons.inj e).1
  rw [this] at hpf
  exact Bool.noConfusion hpf

theorem rover_after_remove {s : State} {fl : List Nat} {x : Nat}
    (hrov : s.rover = 0 ∨ s.rover = s.heap_listp ∨ s.rover ∈ fl)
    (hrov1 : (removefblock s x).rover = s.rover ∧ s.rover ≠ x
      ∨ s.rover = x ∧ ((removefblock s x).rover = 0 ∨ (removefblock s x).rover ∈ fl.erase x)) :
    (removefblock s x).rover = 0 ∨ (removefblock s x).rover = (removefblock s x).heap_listp
      ∨ (removefblock s x).rover ∈ fl.erase x := by
  rcases hrov1 with ⟨e1, e2⟩ | ⟨e1, e2⟩
  · rw [e1]
    rcases hrov with e | e | e
    · exact Or.inl e
    · exact Or.inr (Or.inl e)
    · exact Or.inr (Or.inr ((List.mem_erase_of_ne e2).mpr e))
  · rcases e2 with e | e
    · exact Or.inl e
    · exact Or.inr (Or.inr e)

/-- Case 2 of `coalesce`, after the successor was unlinked. -/
theorem co2b_spec {s : State} {L1 L2 : List Blk} {pb b nb : Blk} {fl : List Nat}
    (h : Pre s (L1 ++ pb :: b :: nb :: L2) fl) (hb : b.alloc = false) (hnb : nb.alloc = false)
    (hpa : pb.alloc = true) (hx : b.addr ∉ fl) (hxn : nb.addr ∉ fl)
    (hperm : fl.Perm (freeAddrs (L1 ++ [pb]) ++ freeAddrs L2))
    (hna1 : NoAdj (L1 ++ [pb])) (hna2 : NoAdj (nb :: L2))
    (hrov : s.rover = 0 ∨ s.rover = s.heap_listp ∨ s.rover ∈ fl)
    (r : State × Nat) (hr : r = roverFix (co2b s b.addr (b.size + nb.size))) :
    Rep r.1 (L1 ++ pb :: ⟨b.addr, b.size + nb.size, false⟩ :: L2) (b.addr :: fl)
      ∧ r.2 = b.addr
      ∧ Keeps (L1 ++ pb :: b :: nb :: L2) s.heap_listp s.mem r.1.mem
      ∧ SameEnv s r.1 ∧ r.1.mem_brk = s.mem_brk := by
  have hbm : b ∈ L1 ++ pb :: b :: nb :: L2 := by simp
  have hnbm : nb ∈ L1 ++ pb :: b :: nb :: L2 := by simp
  have hpbm : pb ∈ L1 ++ pb :: b :: nb :: L2 := by simp
  have hbb := h.blk hbm
  have hnn := h.blk hnbm
  have hpp := h.blk hpbm
  have hbrk := h.brk_lt
  have hmax := h.max_lt
  have hble := h.brk_le
  have hhl := h.hl
  have hadj : pb.addr + pb.size = b.addr := (coalesce_reads h).2.1
  have hna : nb.addr = b.addr + b.size := (coalesce_reads h).2.2.1.1
  have hszlt : b.size + nb.size < WD := by simp only [WD] at *; omega
  have hsz8 : (b.size + nb.size) % 8 = 0 := by omega
  have hhi : nb.addr + nb.size - b.addr = b.size + nb.size := by omega
  have a2 : ∀ a, (a < b.addr - 4 ∨ nb.addr + nb.size - 4 ≤ a) →
      PUT (PUT s.mem (b.addr - 4) (b.size + nb.size))
        (b.addr + (b.size + nb.size) - 8) (b.size + nb.size) a = s.mem a := by
    intro a ha
    rw [PUT_byte_ne _ _ _ _ (by omega), PUT_byte_ne _ _ _ _ (by omega)]
  have a3 : GET (PUT (PUT s.mem (b.addr - 4) (b.size + nb.size))
      (b.addr + (b.size + nb.size) - 8) (b.size + nb.size)) (b.addr - 4)
      = nb.addr + nb.size - b.addr := by
    rw [GET_PUT_ne _ _ _ _ (by omega), GET_PUT_same, hhi]
    exact Nat.mod_eq_of_lt hszlt
  have a4 : GET (PUT (PUT s.mem (b.addr - 4) (b.size + nb.size))
      (b.addr + (b.size + nb.size) - 8) (b.size + nb.size)) (nb.addr + nb.size - 8)
      = nb.addr + nb.size - b.addr := by
    rw [show nb.addr + nb.size - 8 = b.addr + (b.size + nb.size) - 8 by omega, GET_PUT_same, hhi]
    exact Nat.mod_eq_of_lt hszlt
  have hmid : Layout [b, nb] b.addr (nb.addr + nb.size) :=
    ⟨rfl, hbb.2.2.1, hbb.2.2.2.1, hna, hnn.2.2.1, hnn.2.2.2.1, by show _ = _; omega⟩
  have hpsz := hpp.2.2
  clear hbb hpp hnn hbrk hmax hble hhl
  obtain ⟨hL1, _, hL2, r1, r2, r3, r4, r5, r6⟩ := coalesce_reads h
  have hL2' := hL2.2.2.2
  have hLeq : L1 ++ pb :: b :: nb :: L2 = (L1 ++ [pb]) ++ [b, nb] ++ L2 := by simp
  have h' := h
  rw [hLeq] at h'
  have hla : Layout (L1 ++ [pb]) s.heap_listp b.addr := by
    rw [Layout_append]
    exact ⟨pb.addr, hL1, rfl, hpsz.1, hpsz.2.1, hadj⟩
  have hlb : Layout L2 (nb.addr + nb.size) s.mem_brk := by
    rw [hna]; exact hL2'
  obtain ⟨s4, hs4⟩ : ∃ s4 : State, s4 = addfblock { s with
      mem := PUT (PUT s.mem (b.addr - 4) (b.size + nb.size))
        (b.addr + (b.size + nb.size) - 8) (b.size + nb.size) } b.addr := ⟨_, rfl⟩
  have a0 : [b, nb] ≠ [] := by simp
  have a00 : L1 ++ [pb] ≠ [] := by simp
  have a1 : ∀ c ∈ [b, nb], c.alloc = false ∧ c.addr ∉ fl := by
    intro c hc
    simp only [List.mem_cons, List.mem_singleton, List.not_mem_nil, or_false] at hc
    rcases hc with rfl | rfl
    · exact ⟨hb, hx⟩
    · exact ⟨hnb, hxn⟩
  have a5 : NoAdj ((L1 ++ [pb]) ++ [⟨b.addr, nb.addr + nb.size - b.addr, false⟩]) := by
    rw [hhi]
    have := NoAdj_glue L1 [] pb ⟨b.addr, b.size + nb.size, false⟩ hna1
      (List.chain'_singleton _) (Or.inl hpa)
    simpa using this
  have a6 : NoAdj (⟨b.addr, nb.addr + nb.size - b.addr, false⟩ :: L2) := by
    rw [hhi]; exact NoAdj_head _ nb _ hna2 (by simp [hnb])
  have hM := merge_add h' a00 b.addr (nb.addr + nb.size) hla hmid hlb a0 a1
    (PUT (PUT s.mem (b.addr - 4) (b.size + nb.size))
      (b.addr + (b.size + nb.size) - 8) (b.size + nb.size))
    a2 a3 a4 hperm a5 a6 hrov s4 hs4
  rw [hhi] at hM
  obtain ⟨p1, p2, p3, p4, p5, p6, p7, p8⟩ := hM
  have hco : co2b s b.addr (b.size + nb.size) = (s4, b.addr) := by
    rw [hs4]
    simp only [co2b, HDRP, WSIZE, PACK_zero, FTRP, DSIZE, GET_SIZE_PUT_same0 _ _ _ hsz8 hszlt]
  have hLeq2 : L1 ++ pb :: ⟨b.addr, b.size + nb.size, false⟩ :: L2
      = (L1 ++ [pb]) ++ ⟨b.addr, b.size + nb.size, false⟩ :: L2 := by simp
  rw [hLeq, hLeq2]
  exact merge_finish r (by rw [hr, hco]) p1 p2 p3 p4 (List.mem_cons_self _ _) p5 p6 p7

/-- Case 3 of `coalesce`, after the predecessor was unlinked. -/
theorem co3b_spec {s : State} {L1 L2 : List Blk} {pb b : Blk} {fl : List Nat}
    (h : Pre s (L1 ++ pb :: b :: L2) fl) (hb : b.alloc = false) (hpa : pb.alloc = false)
    (hx : b.addr ∉ fl) (hxp : pb.addr ∉ fl)
    (hperm : fl.Perm (freeAddrs L1 ++ freeAddrs L2))
    (hna1 : NoAdj (L1 ++ [pb])) (hna2 : NoAdj L2) (hnext : ∀ nb ∈ L2.head?, nb.alloc = true)
    (hrov : s.rover = 0 ∨ s.rover = s.heap_listp ∨ s.rover ∈ fl)
    (r : State × Nat) (hr : r = roverFix (co3b s b.addr (pb.size + b.size))) :
    Rep r.1 (L1 ++ ⟨pb.addr, pb.size + b.size, false⟩ :: L2) (pb.addr :: fl)
      ∧ r.2 = pb.addr
      ∧ Keeps (L1 ++ pb :: b :: L2) s.heap_listp s.mem r.1.mem
      ∧ SameEnv s r.1 ∧ r.1.mem_brk = s.mem_brk := by
  have hbm : b ∈ L1 ++ pb :: b :: L2 := by simp
  have hpbm : pb ∈ L1 ++ pb :: b :: L2 := by simp
  have hbb := h.blk hbm
  have hpp := h.blk hpbm
  have hbrk := h.brk_lt
  have hmax := h.max_lt
  have hble := h.brk_le
  have hhl := h.hl
  have hL1ne : L1 ≠ [] := h.L1_ne hpa
  have hadj : pb.addr + pb.size = b.addr := (coalesce_reads h).2.1
  have hszlt : pb.size + b.size < WD := by simp only [WD] at *; omega
  have hhi : b.addr + b.size - pb.addr = pb.size + b.size := by omega
  -- arithmetic of the two stores
  have a2 : ∀ a, (a < pb.addr - 4 ∨ b.addr + b.size - 4 ≤ a) →
      PUT (PUT s.mem (b.addr + b.size - 8) (pb.size + b.size)) (pb.addr - 4) (pb.size + b.size) a
        = s.mem a := by
    intro a ha
    rw [PUT_byte_ne _ _ _ _ (by omega), PUT_byte_ne _ _ _ _ (by omega)]
  have a3 : GET (PUT (PUT s.mem (b.addr + b.size - 8) (pb.size + b.size)) (pb.addr - 4)
      (pb.size + b.size)) (pb.addr - 4) = b.addr + b.size - pb.addr := by
    rw [GET_PUT_same, hhi]
    exact Nat.mod_eq_of_lt hszlt
  have a4 : GET (PUT (PUT s.mem (b.addr + b.size - 8) (pb.size + b.size)) (pb.addr - 4)
      (pb.size + b.size)) (b.addr + b.size - 8) = b.addr + b.size - pb.addr := by
    rw [GET_PUT_ne _ _ _ _ (by omega), GET_PUT_same, hhi]
    exact Nat.mod_eq_of_lt hszlt
  have d1 : b.addr + b.size - 8 + 4 ≤ b.addr - 8 ∨ b.addr - 8 + 4 ≤ b.addr + b.size - 8 := by omega
  have d2 : pb.addr - 4 + 4 ≤ b.addr - 8 ∨ b.addr - 8 + 4 ≤ pb.addr - 4 := by omega
  have d3 : b.addr - pb.size = pb.addr := by omega
  have d4 : pb.addr + pb.size - 8 = b.addr - 8 := by omega
  have d5 : ∀ a y, b.addr - 8 ≤ a → a < b.addr - 8 + 4 →
      (y = pb.addr ∨ y = s.heap_listp ∨ y + 24 ≤ pb.addr ∨ b.addr + b.size ≤ y) →
      a < y ∨ y + 16 ≤ a := by
    intro a y h1 h2 h3
    omega
  have hfar : ∀ y ∈ fl, y + 24 ≤ pb.addr ∨ b.addr + b.size ≤ y := by
    intro y hy
    obtain ⟨c, hc, rfl, _⟩ := h.sub y hy
    have hc' := h.blk hc
    have hne : c.addr ≠ pb.addr := fun e => hxp (e ▸ hy)
    have hne2 : c.addr ≠ b.addr := fun e => hx (e ▸ hy)
    have q1 := Layout_far _ _ _ h.layout c pb hc hpbm hne
    have q2 := Layout_far _ _ _ h.layout c b hc hbm hne2
    omega
  have hmid : Layout [pb, b] pb.addr (b.addr + b.size) :=
    ⟨rfl, hpp.2.2.1, hpp.2.2.2.1, hadj.symm, hbb.2.2.1, hbb.2.2.2.1, by show _ = _; omega⟩
  clear hbb hpp hbrk hmax hble hhl
  -- the reads
  obtain ⟨hL1, _, hL2, r1, r2, r3, r4, r5, r6⟩ := coalesce_reads h
  have hpf1 : GET_SIZE s.mem (b.addr - 8) = pb.size := by
    have := h.ftr_size hpbm
    rwa [d4] at this
  have hLeq : L1 ++ pb :: b :: L2 = L1 ++ [pb, b] ++ L2 := by simp
  have h' := h
  rw [hLeq] at h'
  have e1 : PREV_BLKP (PUT s.mem (b.addr + b.size - 8) (pb.size + b.size)) b.addr = pb.addr := by
    simp only [PREV_BLKP, DSIZE]
    rw [GET_SIZE_PUT_ne _ _ _ _ d1, hpf1, d3]
  have e2 : PREV_BLKP (PUT (PUT s.mem (b.addr + b.size - 8) (pb.size + b.size))
      (pb.addr - 4) (pb.size + b.size)) b.addr = pb.addr := by
    simp only [PREV_BLKP, DSIZE]
    rw [GET_SIZE_PUT_ne _ _ _ _ d2, GET_SIZE_PUT_ne _ _ _ _ d1, hpf1, d3]
  obtain ⟨s4, hs4⟩ : ∃ s4 : State, s4 = addfblock { s with
      mem := PUT (PUT s.mem (b.addr + b.size - 8) (pb.size + b.size))
        (pb.addr - 4) (pb.size + b.size) } pb.addr := ⟨_, rfl⟩
  have a1 : ∀ c ∈ [pb, b], c.alloc = false ∧ c.addr ∉ fl := by
    intro c hc
    simp only [List.mem_cons, List.mem_singleton, List.not_mem_nil, or_false] at hc
    rcases hc with rfl | rfl
    · exact ⟨hpa, hxp⟩
    · exact ⟨hb, hx⟩
  have a5 : NoAdj (L1 ++ [⟨pb.addr, b.addr + b.size - pb.addr, false⟩]) := by
    rw [hhi]; exact NoAdj_last _ pb _ hna1 (by simp [hpa])
  have a6 : NoAdj (⟨pb.addr, b.addr + b.size - pb.addr, false⟩ :: L2) := by
    rw [hhi]
    unfold NoAdj
    cases L2 with
    | nil => exact List.chain'_singleton _
    | cons nb t =>
      rw [List.chain'_cons]
      exact ⟨Or.inr (hnext nb (by simp)), hna2⟩
  have a0 : [pb, b] ≠ [] := by simp
  have hM := merge_add h' hL1ne pb.addr (b.addr + b.size) hL1 hmid hL2 a0 a1
    (PUT (PUT s.mem (b.addr + b.size - 8) (pb.size + b.size)) (pb.addr - 4) (pb.size + b.size))
    a2 a3 a4 hperm a5 a6 hrov s4 hs4
  rw [hhi] at hM
  obtain ⟨p1, p2, p3, p4, p5, p6, p7, p8⟩ := hM
  have hfin : PREV_BLKP s4.mem b.addr = pb.addr := by
    simp only [PREV_BLKP, DSIZE]
    rw [GET_SIZE_congr _ _ _ (fun a ha1 ha2 => p8 a (by
      intro y hy
      apply d5 a y ha1 ha2
      rcases List.mem_cons.mp hy with e | hy
      · exact Or.inl e
      · rcases List.mem_cons.mp hy with e | hy
        · exact Or.inr (Or.inl e)
        · exact Or.inr (Or.inr (hfar y hy)))),
      GET_SIZE_PUT_ne _ _ _ _ d2, GET_SIZE_PUT_ne _ _ _ _ d1, hpf1, d3]
  have hco : co3b s b.addr (pb.size + b.size) = (s4, pb.addr) := by
    rw [hs4] at hfin ⊢
    simp only [co3b, HDRP, WSIZE, r4, PACK_zero, FTRP, DSIZE, e1, e2, hfin]
  rw [hLeq]
  exact merge_finish r (by rw [hr, hco]) p1 p2 p3 p4 (List.mem_cons_self _ _) p5 p6 p7

/-- Case 4 of `coalesce`, after both neighbours were unlinked. -/
theorem co4b_spec {s : State} {L1 L2 : List Blk} {pb b nb : Blk} {fl : List Nat}
    (h : Pre s (L1 ++ pb :: b :: nb :: L2) fl) (hb : b.alloc = false) (hpa : pb.alloc = false)
    (hnb : nb.alloc = false) (hx : b.addr ∉ fl) (hxp : pb.addr ∉ fl) (hxn : nb.addr ∉ fl)
    (hperm : fl.Perm (freeAddrs L1 ++ freeAddrs L2))
    (hna1 : NoAdj (L1 ++ [pb])) (hna2 : NoAdj (nb :: L2))
    (hrov : s.rover = 0 ∨ s.rover = s.heap_listp ∨ s.rover ∈ fl)
    (r : State × Nat) (hr : r = roverFix (co4b s b.addr (pb.size + b.size + nb.size))) :
    Rep r.1 (L1 ++ ⟨pb.addr, pb.size + b.size + nb.size, false⟩ :: L2) (pb.addr :: fl)
      ∧ r.2 = pb.addr
      ∧ Keeps (L1 ++ pb :: b :: nb :: L2) s.heap_listp s.mem r.1.mem
      ∧ SameEnv s r.1 ∧ r.1.mem_brk = s.mem_brk := by
  have hbm : b ∈ L1 ++ pb :: b :: nb :: L2 := by simp
  have hnbm : nb ∈ L1 ++ pb :: b :: nb :: L2 := by simp
  have hpbm : pb ∈ L1 ++ pb :: b :: nb :: L2 := by simp
  have hbb := h.blk hbm
  have hnn := h.blk hnbm
  have hpp := h.blk hpbm
  have hbrk := h.brk_lt
  have hmax := h.max_lt
  have hble := h.brk_le
  have hhl := h.hl
  have hL1ne : L1 ≠ [] := h.L1_ne hpa
  have hadj : pb.addr + pb.size = b.addr := (coalesce_reads h).2.1
  have hna : nb.addr = b.addr + b.size := (coalesce_reads h).2.2.1.1
  have hszlt : pb.size + b.size + nb.size < WD := by simp only [WD] at *; omega
  have hhi : nb.addr + nb.size - pb.addr = pb.size + b.size + nb.size := by omega
  have a2 : ∀ a, (a < pb.addr - 4 ∨ nb.addr + nb.size - 4 ≤ a) →
      PUT (PUT s.mem (pb.addr - 4) (pb.size + b.size + nb.size))
        (b.addr + b.size + nb.size - 8) (pb.size + b.size + nb.size) a = s.mem a := by
    intro a ha
    rw [PUT_byte_ne _ _ _ _ (by omega), PUT_byte_ne _ _ _ _ (by omega)]
  have a3 : GET (PUT (PUT s.mem (pb.addr - 4) (pb.size + b.size + nb.size))
      (b.addr + b.size + nb.size - 8) (pb.size + b.size + nb.size)) (pb.addr - 4)
      = nb.addr + nb.size - pb.addr := by
    rw [GET_PUT_ne _ _ _ _ (by omega), GET_PUT_same, hhi]
    exact Nat.mod_eq_of_lt hszlt
  have a4 : GET (PUT (PUT s.mem (pb.addr - 4) (pb.size + b.size + nb.size))
      (b.addr + b.size + nb.size - 8) (pb.size + b.size + nb.size)) (nb.addr + nb.size - 8)
      = nb.addr + nb.size - pb.addr := by
    rw [show nb.addr + nb.size - 8 = b.addr + b.size + nb.size - 8 by omega, GET_PUT_same, hhi]
    exact Nat.mod_eq_of_lt hszlt
  have d0 : pb.addr - 4 + 4 ≤ b.addr - 4 ∨ b.addr - 4 + 4 ≤ pb.addr - 4 := by omega
  have d0' : pb.addr - 4 + 4 ≤ b.addr + b.size - 4 ∨ b.addr + b.size - 4 + 4 ≤ pb.addr - 4 := by
    omega
  have d1 : b.addr + b.size + nb.size - 8 + 4 ≤ b.addr - 8
      ∨ b.addr - 8 + 4 ≤ b.addr + b.size + nb.size - 8 := by omega
  have d2 : pb.addr - 4 + 4 ≤ b.addr - 8 ∨ b.addr - 8 + 4 ≤ pb.addr - 4 := by omega
  have d3 : b.addr - pb.size = pb.addr := by omega
  have d4 : pb.addr + pb.size - 8 = b.addr - 8 := by omega
  have d5 : ∀ a y, b.addr - 8 ≤ a → a < b.addr - 8 + 4 →
      (y = pb.addr ∨ y = s.heap_listp ∨ y + 24 ≤ pb.addr ∨ b.addr + b.size ≤ y) →
      a < y ∨ y + 16 ≤ a := by
    intro a y h1 h2 h3
    omega
  have d6 : b.addr + b.size + nb.size - 8 = b.addr + b.size + nb.size - 8 := rfl
  have hfar : ∀ y ∈ fl, y + 24 ≤ pb.addr ∨ b.addr + b.size ≤ y := by
    intro y hy
    obtain ⟨c, hc, rfl, _⟩ := h.sub y hy
    have hc' := h.blk hc
    have hne : c.addr ≠ pb.addr := fun e => hxp (e ▸ hy)
    have hne2 : c.addr ≠ b.addr := fun e => hx (e ▸ hy)
    have q1 := Layout_far _ _ _ h.layout c pb hc hpbm hne
    have q2 := Layout_far _ _ _ h.layout c b hc hbm hne2
    omega
  have hmid : Layout [pb, b, nb] pb.addr (nb.addr + nb.size) :=
    ⟨rfl, hpp.2.2.1, hpp.2.2.2.1, hadj.symm, hbb.2.2.1, hbb.2.2.2.1, by rw [hadj]; exact hna,
      hnn.2.2.1, hnn.2.2.2.1, by show _ = _; omega⟩
  clear hbb hpp hnn hbrk hmax hble hhl
  obtain ⟨hL1, _, hL2, r1, r2, r3, r4, r5, r6⟩ := coalesce_reads h
  have hL2' := hL2.2.2.2
  have hnh : GET_SIZE s.mem (b.addr + b.size - 4) = nb.size := by
    have := h.hdr_size hnbm
    rwa [hna] at this
  have hpf : GET_SIZE s.mem (b.addr - 8) = pb.size := by
    have := h.ftr_size hpbm
    rwa [d4] at this
  have hLeq : L1 ++ pb :: b :: nb :: L2 = L1 ++ [pb, b, nb] ++ L2 := by simp
  have h' := h
  rw [hLeq] at h'
  have hlb : Layout L2 (nb.addr + nb.size) s.mem_brk := by
    rw [hna]; exact hL2'
  have e1 : PREV_BLKP s.mem b.addr = pb.addr := r1
  have e2 : NEXT_BLKP (PUT s.mem (pb.addr - 4) (pb.size + b.size + nb.size)) b.addr
      = b.addr + b.size := by
    simp only [NEXT_BLKP, WSIZE]
    rw [GET_SIZE_PUT_ne _ _ _ _ d0, r4]
  have e3 : GET_SIZE (PUT s.mem (pb.addr - 4) (pb.size + b.size + nb.size))
      (b.addr + b.size - 4) = nb.size := by
    rw [GET_SIZE_PUT_ne _ _ _ _ d0', hnh]
  have e4 : PREV_BLKP (PUT (PUT s.mem (pb.addr - 4) (pb.size + b.size + nb.size))
      (b.addr + b.size + nb.size - 8) (pb.size + b.size + nb.size)) b.addr = pb.addr := by
    simp only [PREV_BLKP, DSIZE]
    rw [GET_SIZE_PUT_ne _ _ _ _ d1, GET_SIZE_PUT_ne _ _ _ _ d2, hpf, d3]
  obtain ⟨s4, hs4⟩ : ∃ s4 : State, s4 = addfblock { s with
      mem := PUT (PUT s.mem (pb.addr - 4) (pb.size + b.size + nb.size))
        (b.addr + b.size + nb.size - 8) (pb.size + b.size + nb.size) } pb.addr := ⟨_, rfl⟩
  have a0 : [pb, b, nb] ≠ [] := by simp
  have a1 : ∀ c ∈ [pb, b, nb], c.alloc = false ∧ c.addr ∉ fl := by
    intro c hc
    simp only [List.mem_cons, List.mem_singleton, List.not_mem_nil, or_false] at hc
    rcases hc with rfl | rfl | rfl
    · exact ⟨hpa, hxp⟩
    · exact ⟨hb, hx⟩
    · exact ⟨hnb, hxn⟩
  have a5 : NoAdj (L1 ++ [⟨pb.addr, nb.addr + nb.size - pb.addr, false⟩]) := by
    rw [hhi]; exact NoAdj_last _ pb _ hna1 (by simp [hpa])
  have a6 : NoAdj (⟨pb.addr, nb.addr + nb.size - pb.addr, false⟩ :: L2) := by
    rw [hhi]; exact NoAdj_head _ nb _ hna2 (by simp [hnb])
  have hM := merge_add h' hL1ne pb.addr (nb.addr + nb.size) hL1 hmid hlb a0 a1
    (PUT (PUT s.mem (pb.addr - 4) (pb.size + b.size + nb.size))
      (b.addr + b.size + nb.size - 8) (pb.size + b.size + nb.size))
    a2 a3 a4 hperm a5 a6 hrov s4 hs4
  rw [hhi] at hM
  obtain ⟨p1, p2, p3, p4, p5, p6, p7, p8⟩ := hM
  have hfin : PREV_BLKP s4.mem b.addr = pb.addr := by
    simp only [PREV_BLKP, DSIZE]
    rw [GET_SIZE_congr _ _ _ (fun a ha1 ha2 => p8 a (by
      intro y hy
      apply d5 a y ha1 ha2
      rcases List.mem_cons.mp hy with e | hy
      · exact Or.inl e
      · rcases List.mem_cons.mp hy with e | hy
        · exact Or.inr (Or.inl e)
        · exact Or.inr (Or.inr (hfar y hy)))),
      GET_SIZE_PUT_ne _ _ _ _ d1, GET_SIZE_PUT_ne _ _ _ _ d2, hpf, d3]
  have hco : co4b s b.addr (pb.size + b.size + nb.size) = (s4, pb.addr) := by
    rw [hs4] at hfin ⊢
    simp only [co4b, HDRP, WSIZE, PACK_zero, FTRP, DSIZE, e1, e2, e3, e4, hfin]
  rw [hLeq]
  exact merge_finish r (by rw [hr, hco]) p1 p2 p3 p4 (List.mem_cons_self _ _) p5 p6 p7

/-! ### The coalescer: specification -/

/-- `removefblock` on a state satisfying `Pre`, stated for a named result. -/
theorem Pre_remove_var {s : State} {L : List Blk} {fl : List Nat} (h : Pre s L fl) (x : Nat)
    (hx : x ∈ fl) (hrov : s.rover = 0 ∨ s.rover = s.heap_listp ∨ s.rover ∈ fl)
    (s1 : State) (hs1 : s1 = removefblock s x) :
    Pre s1 L (fl.erase x) ∧ x ∉ fl.erase x
      ∧ (s1.rover = 0 ∨ s1.rover = s1.heap_listp ∨ s1.rover ∈ fl.erase x)
      ∧ Keeps L s.heap_listp s.mem s1.mem ∧ SameEnv s s1 ∧ s1.mem_brk = s.mem_brk := by
  subst hs1
  obtain ⟨h1, h2, h3⟩ := Pre_remove h x hx
  refine ⟨h1, ?_, rover_after_remove hrov h3, Pre_remove_keeps h x hx, ⟨rfl, rfl, rfl, rfl⟩, rfl⟩
  intro hm
  exact ((List.Nodup.mem_erase_iff h.nodup).mp hm).1 rfl

theorem SameEnv_trans {s1 s2 s3 : State} (h1 : SameEnv s1 s2) (h2 : SameEnv s2 s3) :
    SameEnv s1 s3 := by
  obtain ⟨a1, a2, a3, a4⟩ := h1
  obtain ⟨b1, b2, b3, b4⟩ := h2
  exact ⟨b1.trans a1, b2.trans a2, b3.trans a3, b4.trans a4⟩

/-- `coalesce` on a free block that is not yet in the list: the result
satisfies the invariant for the merged chain `coalL`. -/
theorem coalesce_spec {s : State} {L1 L2 : List Blk} {pb b : Blk} {fl : List Nat}
    (h : Pre s (L1 ++ pb :: b :: L2) fl) (hb : b.alloc = false) (hx : b.addr ∉ fl)
    (hperm : fl.Perm (freeAddrs (L1 ++ [pb]) ++ freeAddrs L2))
    (hna1 : NoAdj (L1 ++ [pb])) (hna2 : NoAdj L2)
    (hrov : s.rover = 0 ∨ s.rover = s.heap_listp ∨ s.rover ∈ fl)
    (r : State × Nat) (hr : r = coalesce s b.addr) :
    ∃ fl', Rep r.1 (coalL L1 pb b L2) fl'
      ∧ r.2 = (if pb.alloc then b.addr else pb.addr)
      ∧ Keeps (L1 ++ pb :: b :: L2) s.heap_listp s.mem r.1.mem
      ∧ SameEnv s r.1 ∧ r.1.mem_brk = s.mem_brk := by
  have hbm : b ∈ L1 ++ pb :: b :: L2 := by simp
  have hpbm : pb ∈ L1 ++ pb :: b :: L2 := by simp
  have hbb := h.blk hbm
  have hpp := h.blk hpbm
  have hbrk := h.brk_lt
  have hmax := h.max_lt
  have hble := h.brk_le
  have hhl := h.hl
  have hadj : pb.addr + pb.size = b.addr := (coalesce_reads h).2.1
  have hszlt : pb.size + b.size < WD := by simp only [WD] at *; omega
  have hmod3 : (b.size + pb.size) % SZ = pb.size + b.size := by
    rw [Nat.add_comm]; apply Nat.mod_eq_of_lt; simp only [WD, SZ] at *; omega
  have hnsz : ∀ nb : Blk, nb.addr = b.addr + b.size → nb.addr + nb.size ≤ s.mem_brk →
      (b.size + nb.size) % SZ = b.size + nb.size
      ∧ (pb.size + nb.size) % WD = pb.size + nb.size
      ∧ (b.size + (pb.size + nb.size)) % SZ = pb.size + b.size + nb.size
      ∧ nb.addr ≠ pb.addr := by
    intro nb h1 h2
    simp only [WD, SZ] at *
    refine ⟨Nat.mod_eq_of_lt (by omega), Nat.mod_eq_of_lt (by omega), ?_, by omega⟩
    rw [show b.size + (pb.size + nb.size) = pb.size + b.size + nb.size by omega]
    exact Nat.mod_eq_of_lt (by omega)
  clear hbb hpp hbrk hmax hble hhl
  obtain ⟨hL1, _, hL2, r1, r2, r3, r4, r5, r6⟩ := coalesce_reads h
  have hph : GET_SIZE s.mem (pb.addr - 4) = pb.size := h.hdr_size hpbm
  have hceq := coalesce_eq s b.addr
  simp only [r1, r2, r3, r5, r6, HDRP, WSIZE] at hceq
  rw [← hr] at hceq
  cases hpa : pb.alloc
  · -- predecessor free: cases 3 and 4
    have hpbfl : pb.addr ∈ fl := by
      apply hperm.mem_iff.mpr
      rw [freeAddrs_append, freeAddrs_cons_free pb [] hpa]
      exact List.mem_append_left _ (List.mem_append_right _ (List.mem_cons_self _ _))
    have hp2 : fl.Perm (freeAddrs L1 ++ pb.addr :: freeAddrs L2) := by
      rw [freeAddrs_append, freeAddrs_cons_free pb [] hpa, freeAddrs_nil] at hperm
      simpa using hperm
    obtain ⟨s1, hs1⟩ : ∃ s1 : State, s1 = removefblock s pb.addr := ⟨_, rfl⟩
    obtain ⟨q1, q2, q3, q4, q5, q6⟩ := Pre_remove_var h pb.addr hpbfl hrov s1 hs1
    have hx1 : b.addr ∉ fl.erase pb.addr := fun hm => hx (List.mem_of_mem_erase hm)
    have hnextcase : (∀ nb ∈ L2.head?, nb.alloc = true) ∨
        ∃ nb L2', L2 = nb :: L2' ∧ nb.alloc = false := by
      cases L2 with
      | nil => left; simp
      | cons nb t =>
        cases hnb : nb.alloc
        · right; exact ⟨nb, t, rfl, hnb⟩
        · left; simp [hnb]
    rcases hnextcase with hnext | ⟨nb, L2', rfl, hnb⟩
    · have hn : nextBit L2 = 1 := by
        cases L2 with
        | nil => rfl
        | cons nb t => simp [nextBit, hnext nb (by simp)]
      have hr3 : r = roverFix (co3b s1 b.addr (pb.size + b.size)) := by
        rw [hceq, hs1]
        simp only [hpa, hn, co3, r1, r4, hph, hmod3, HDRP, WSIZE]
        simp
      obtain ⟨g1, g2, g3, g4, g5⟩ := co3b_spec q1 hb hpa hx1 q2 (perm_erase_mid hp2) hna1 hna2
        hnext q3 r hr3
      refine ⟨pb.addr :: fl.erase pb.addr, ?_, by simpa using g2, ?_, SameEnv_trans q5 g4,
        g5.trans q6⟩
      · have : coalL L1 pb b L2 = L1 ++ ⟨pb.addr, pb.size + b.size, false⟩ :: L2 := by
          cases L2 with
          | nil => simp [coalL, hpa]
          | cons nb t => simp [coalL, hpa, hnext nb (by simp)]
        rw [this]; exact g1
      · rw [q5.2.2.2] at g3
        exact Keeps_trans q4 g3
    · have hna : nb.addr = b.addr + b.size := hL2.1
      have hnbm : nb ∈ L1 ++ pb :: b :: nb :: L2' := by simp
      have hnle : nb.addr + nb.size ≤ s.mem_brk := (h.blk hnbm).2.1
      obtain ⟨m1, m2, m3, m4⟩ := hnsz nb hna hnle
      have hnf : GET_SIZE s.mem (b.addr + b.size + nb.size - 8) = nb.size := by
        have := h.ftr_size hnbm
        rwa [hna] at this
      have hnh : GET_SIZE s.mem (b.addr + b.size - 4) = nb.size := by
        have := h.hdr_size hnbm
        rwa [hna] at this
      have hp3 : (fl.erase pb.addr).Perm (freeAddrs L1 ++ nb.addr :: freeAddrs L2') := by
        have := perm_erase_mid hp2
        rwa [freeAddrs_cons_free nb L2' hnb] at this
      have hnbfl1 : nb.addr ∈ fl.erase pb.addr := hp3.mem_iff.mpr (by simp)
      obtain ⟨s2, hs2⟩ : ∃ s2 : State, s2 = removefblock s1 nb.addr := ⟨_, rfl⟩
      obtain ⟨t1, t2, t3, t4, t5, t6⟩ := Pre_remove_var q1 nb.addr hnbfl1 q3 s2 hs2
      have hbh1 : GET_SIZE s1.mem (b.addr - 4) = b.size := q1.hdr_size hbm
      have hr4 : r = roverFix (co4b s2 b.addr (pb.size + b.size + nb.size)) := by
        rw [hceq, hs2, hs1]
        have e0 : NEXT_BLKP (removefblock s pb.addr).mem b.addr = b.addr + b.size := by
          rw [← hs1]; simp only [NEXT_BLKP, WSIZE, hbh1]
        simp only [hpa, hnb, nextBit, co4, co4a, r1, r3, r4, hph, hnf, hnh, m2, m3, HDRP, WSIZE,
          FTRP, DSIZE, e0, hna]
        simp
      obtain ⟨g1, g2, g3, g4, g5⟩ := co4b_spec t1 hb hpa hnb
        (fun hm => hx1 (List.mem_of_mem_erase hm))
        (fun hm => q2 (List.mem_of_mem_erase hm)) t2 (perm_erase_mid hp3) hna1 hna2 t3 r hr4
      refine ⟨pb.addr :: (fl.erase pb.addr).erase nb.addr, ?_, by simpa using g2, ?_,
        SameEnv_trans (SameEnv_trans q5 t5) g4, g5.trans (t6.trans q6)⟩
      · have : coalL L1 pb b (nb :: L2')
            = L1 ++ ⟨pb.addr, pb.size + b.size + nb.size, false⟩ :: L2' := by
          simp [coalL, hpa, hnb]
        rw [this]; exact g1
      · rw [q5.2.2.2] at t4
        rw [t5.2.2.2, q5.2.2.2] at g3
        exact Keeps_trans (Keeps_trans q4 t4) g3
  · -- predecessor allocated: cases 1 and 2
    have hnextcase : (∀ nb ∈ L2.head?, nb.alloc = true) ∨
        ∃ nb L2', L2 = nb :: L2' ∧ nb.alloc = false := by
      cases L2 with
      | nil => left; simp
      | cons nb t =>
        cases hnb : nb.alloc
        · right; exact ⟨nb, t, rfl, hnb⟩
        · left; simp [hnb]
    rcases hnextcase with hnext | ⟨nb, L2', rfl, hnb⟩
    · obtain ⟨fl', g1, g2, g3, g4, g5⟩ := coalesce_case1 h hb hx hperm hna1 hna2 hrov hpa hnext
      rw [← hr] at g1 g2 g3 g4 g5
      refine ⟨fl', ?_, by simpa using g2, g3, g4, g5⟩
      have : coalL L1 pb b L2 = L1 ++ pb :: b :: L2 := by
        cases L2 with
        | nil => simp [coalL, hpa]
        | cons nb t => simp [coalL, hpa, hnext nb (by simp)]
      rw [this]; exact g1
    · have hna : nb.addr = b.addr + b.size := hL2.1
      have hnbm : nb ∈ L1 ++ pb :: b :: nb :: L2' := by simp
      have hnle : nb.addr + nb.size ≤ s.mem_brk := (h.blk hnbm).2.1
      obtain ⟨m1, m2, m3, m4⟩ := hnsz nb hna hnle
      have hnh : GET_SIZE s.mem (b.addr + b.size - 4) = nb.size := by
        have := h.hdr_size hnbm
        rwa [hna] at this
      have hp2 : fl.Perm (freeAddrs (L1 ++ [pb]) ++ nb.addr :: freeAddrs L2') := by
        rwa [freeAddrs_cons_free nb L2' hnb] at hperm
      have hnbfl : nb.addr ∈ fl := hp2.mem_iff.mpr (by simp)
      obtain ⟨s1, hs1⟩ : ∃ s1 : State, s1 = removefblock s nb.addr := ⟨_, rfl⟩
      obtain ⟨q1, q2, q3, q4, q5, q6⟩ := Pre_remove_var h nb.addr hnbfl hrov s1 hs1
      have hr2 : r = roverFix (co2b s1 b.addr (b.size + nb.size)) := by
        rw [hceq, hs1]
        simp only [hpa, hnb, nextBit, co2, r3, r4, hnh, m1, HDRP, WSIZE, hna]
        simp
      obtain ⟨g1, g2, g3, g4, g5⟩ := co2b_spec q1 hb hnb hpa
        (fun hm => hx (List.mem_of_mem_erase hm)) q2 (perm_erase_mid hp2) hna1 hna2 q3 r hr2
      refine ⟨b.addr :: fl.erase nb.addr, ?_, by simpa using g2, ?_, SameEnv_trans q5 g4,
        g5.trans q6⟩
      · have : coalL L1 pb b (nb :: L2')
            = L1 ++ pb :: ⟨b.addr, b.size + nb.size, false⟩ :: L2' := by
          simp [coalL, hpa, hnb]
        rw [this]; exact g1
      · rw [q5.2.2.2] at g3
        exact Keeps_trans q4 g3

/-! ### Placement: the memory after the stores -/

theorem PUT_congr_byte (m m' : Mem) (p v a : Nat) (h : m a = m' a) :
    PUT m p v a = PUT m' p v a := by
  unfold PUT
  split
  · rfl
  · split
    · rfl
    · split
      · rfl
      · split
        · rfl
        · exact h

theorem PUTA_congr_byte (m m' : Mem) (p v a : Nat) (h : m a = m' a) :
    PUTA m p v a = PUTA m' p v a := by
  unfold PUTA
  exact PUT_congr_byte _ _ _ _ _ (PUT_congr_byte _ _ _ _ _ h)

theorem unlink_congr_byte (m m' : Mem) (pv nx a : Nat) (h : m a = m' a) :
    unlink m pv nx a = unlink m' pv nx a := by
  unfold unlink PUTAP PUTAN
  split
  · exact PUTA_congr_byte _ _ _ _ _ (PUTA_congr_byte _ _ _ _ _ h)
  · exact PUTA_congr_byte _ _ _ _ _ h

theorem GET_SIZE_PUT_same1 (m : Mem) (p sz : Nat) (h8 : sz % 8 = 0) (hlt : sz < WD) :
    GET_SIZE (PUT m p (sz + 1)) p = sz := by
  have := GET_SIZE_PUT_same m p sz 1 h8 hlt (by omega)
  rwa [PACK_one sz h8] at this

/-- The memory after the stores of `place` when it splits. -/
theorem place_mem_split (m : Mem) (x A c pv nx : Nat) (hA : 24 ≤ A) (hc : A + 24 ≤ c)
    (h4 : 4 ≤ x) (hA8 : A % 8 = 0) (hc8 : c % 8 = 0) (hlt : c < WD)
    (hout : ∀ a, x - 4 ≤ a → a < x + c - 4 →
      (a < pv + 8 ∨ pv + 16 ≤ a) ∧ (nx = 0 ∨ a < nx ∨ nx + 8 ≤ a))
    (m2 m3 m5 : Mem) (hm2 : m2 = PUT (PUT m (x - 4) (A + 1)) (x + A - 8) (A + 1))
    (hm3 : m3 = unlink m2 pv nx)
    (hm5 : m5 = PUT (PUT m3 (x + A - 4) (c - A)) (x + A + (c - A) - 8) (c - A)) :
    (∀ a, (a < x - 4 ∨ x + c - 4 ≤ a) → m5 a = unlink m pv nx a)
      ∧ GET m5 (x - 4) = A + 1 ∧ GET m5 (x + A - 8) = A + 1
      ∧ GET m5 (x + A - 4) = c - A ∧ GET m5 (x + A + (c - A) - 8) = c - A
      ∧ GETA m2 x = GETA m x ∧ GETA m2 (x + 8) = GETA m (x + 8)
      ∧ GET_SIZE m3 (x - 4) = A
      ∧ GET_SIZE (PUT m (x - 4) (A + 1)) (x - 4) = A
      ∧ GET_SIZE (PUT m3 (x + A - 4) (c - A)) (x + A - 4) = c - A := by
  have hAlt : A < WD := by omega
  have hAmod : (A + 1) % WD = A + 1 := Nat.mod_eq_of_lt (by simp only [WD] at *; omega)
  have hRmod : (c - A) % WD = c - A := Nat.mod_eq_of_lt (by omega)
  have hR8 : (c - A) % 8 = 0 := by omega
  have hRlt : c - A < WD := by omega
  have o1 : ∀ a, x - 4 ≤ a → a < x - 4 + 4 → a < pv + 8 ∨ pv + 16 ≤ a :=
    fun a h1 h2 => (hout a h1 (by omega)).1
  have o2 : ∀ a, x - 4 ≤ a → a < x - 4 + 4 → nx = 0 ∨ a < nx ∨ nx + 8 ≤ a :=
    fun a h1 h2 => (hout a h1 (by omega)).2
  have o3 : ∀ a, x + A - 8 ≤ a → a < x + A - 8 + 4 → a < pv + 8 ∨ pv + 16 ≤ a :=
    fun a h1 h2 => (hout a (by omega) (by omega)).1
  have o4 : ∀ a, x + A - 8 ≤ a → a < x + A - 8 + 4 → nx = 0 ∨ a < nx ∨ nx + 8 ≤ a :=
    fun a h1 h2 => (hout a (by omega) (by omega)).2
  have d1 : x + A - 4 + 4 ≤ x - 4 ∨ x - 4 + 4 ≤ x + A - 4 := by omega
  have d2 : x + A + (c - A) - 8 + 4 ≤ x - 4 ∨ x - 4 + 4 ≤ x + A + (c - A) - 8 := by omega
  have d3 : x + A - 8 + 4 ≤ x - 4 ∨ x - 4 + 4 ≤ x + A - 8 := by omega
  have d4 : x + A - 4 + 4 ≤ x + A - 8 ∨ x + A - 8 + 4 ≤ x + A - 4 := by omega
  have d5 : x + A + (c - A) - 8 + 4 ≤ x + A - 8 ∨ x + A - 8 + 4 ≤ x + A + (c - A) - 8 := by omega
  have d6 : x + A + (c - A) - 8 + 4 ≤ x + A - 4 ∨ x + A - 4 + 4 ≤ x + A + (c - A) - 8 := by omega
  have d7 : x - 4 + 4 ≤ x ∨ x + 8 ≤ x - 4 := by omega
  have d8 : x + A - 8 + 4 ≤ x ∨ x + 8 ≤ x + A - 8 := by omega
  have d9 : x - 4 + 4 ≤ x + 8 ∨ x + 8 + 8 ≤ x - 4 := by omega
  have d10 : x + A - 8 + 4 ≤ x + 8 ∨ x + 8 + 8 ≤ x + A - 8 := by omega
  have f1 : ∀ a, (a < x - 4 ∨ x + c - 4 ≤ a) →
      (a < x + A + (c - A) - 8 ∨ x + A + (c - A) - 8 + 4 ≤ a)
      ∧ (a < x + A - 4 ∨ x + A - 4 + 4 ≤ a) ∧ (a < x + A - 8 ∨ x + A - 8 + 4 ≤ a)
      ∧ (a < x - 4 ∨ x - 4 + 4 ≤ a) := by
    intro a ha; omega
  subst hm2 hm3 hm5
  refine ⟨?_, ?_, ?_, ?_, ?_, ?_, ?_, ?_, ?_, ?_⟩
  · intro a ha
    obtain ⟨g1, g2, g3, g4⟩ := f1 a ha
    rw [PUT_byte_ne _ _ _ _ g1, PUT_byte_ne _ _ _ _ g2]
    apply unlink_congr_byte
    rw [PUT_byte_ne _ _ _ _ g3, PUT_byte_ne _ _ _ _ g4]
  · rw [GET_PUT_ne _ _ _ _ d2, GET_PUT_ne _ _ _ _ d1,
      GET_congr _ _ _ (fun a h1 h2 => unlink_byte _ pv nx a (o1 a h1 h2) (o2 a h1 h2)),
      GET_PUT_ne _ _ _ _ d3, GET_PUT_same, hAmod]
  · rw [GET_PUT_ne _ _ _ _ d5, GET_PUT_ne _ _ _ _ d4,
      GET_congr _ _ _ (fun a h1 h2 => unlink_byte _ pv nx a (o3 a h1 h2) (o4 a h1 h2)),
      GET_PUT_same, hAmod]
  · rw [GET_PUT_ne _ _ _ _ d6, GET_PUT_same, hRmod]
  · rw [GET_PUT_same, hRmod]
  · rw [GETA_PUT_ne _ _ _ _ d8, GETA_PUT_ne _ _ _ _ d7]
  · rw [GETA_PUT_ne _ _ _ _ d10, GETA_PUT_ne _ _ _ _ d9]
  · rw [GET_SIZE_congr _ _ _ (fun a h1 h2 => unlink_byte _ pv nx a (o1 a h1 h2) (o2 a h1 h2)),
      GET_SIZE_PUT_ne _ _ _ _ d3, GET_SIZE_PUT_same1 _ _ _ hA8 hAlt]
  · exact GET_SIZE_PUT_same1 _ _ _ hA8 hAlt
  · exact GET_SIZE_PUT_same0 _ _ _ hR8 hRlt

/-- The memory after the stores of `place` when it does not split. -/
theorem place_mem_whole (m : Mem) (x c pv nx : Nat) (hc : 24 ≤ c)
    (h4 : 4 ≤ x) (hc8 : c % 8 = 0) (hlt : c < WD)
    (hout : ∀ a, x - 4 ≤ a → a < x + c - 4 →
      (a < pv + 8 ∨ pv + 16 ≤ a) ∧ (nx = 0 ∨ a < nx ∨ nx + 8 ≤ a))
    (m2 m3 : Mem) (hm2 : m2 = PUT (PUT m (x - 4) (c + 1)) (x + c - 8) (c + 1))
    (hm3 : m3 = unlink m2 pv nx) :
    (∀ a, (a < x - 4 ∨ x + c - 4 ≤ a) → m3 a = unlink m pv nx a)
      ∧ GET m3 (x - 4) = c + 1 ∧ GET m3 (x + c - 8) = c + 1
      ∧ GETA m2 x = GETA m x ∧ GETA m2 (x + 8) = GETA m (x + 8)
      ∧ GET_SIZE (PUT m (x - 4) (c + 1)) (x - 4) = c := by
  have hAmod : (c + 1) % WD = c + 1 := Nat.mod_eq_of_lt (by simp only [WD] at *; omega)
  have o1 : ∀ a, x - 4 ≤ a → a < x - 4 + 4 → a < pv + 8 ∨ pv + 16 ≤ a :=
    fun a h1 h2 => (hout a h1 (by omega)).1
  have o2 : ∀ a, x - 4 ≤ a → a < x - 4 + 4 → nx = 0 ∨ a < nx ∨ nx + 8 ≤ a :=
    fun a h1 h2 => (hout a h1 (by omega)).2
  have o3 : ∀ a, x + c - 8 ≤ a → a < x + c - 8 + 4 → a < pv + 8 ∨ pv + 16 ≤ a :=
    fun a h1 h2 => (hout a (by omega) (by omega)).1
  have o4 : ∀ a, x + c - 8 ≤ a → a < x + c - 8 + 4 → nx = 0 ∨ a < nx ∨ nx + 8 ≤ a :=
    fun a h1 h2 => (hout a (by omega) (by omega)).2
  have d3 : x + c - 8 + 4 ≤ x - 4 ∨ x - 4 + 4 ≤ x + c - 8 := by omega
  have d7 : x - 4 + 4 ≤ x ∨ x + 8 ≤ x - 4 := by omega
  have d8 : x + c - 8 + 4 ≤ x ∨ x + 8 ≤ x + c - 8 := by omega
  have d9 : x - 4 + 4 ≤ x + 8 ∨ x + 8 + 8 ≤ x - 4 := by omega
  have d10 : x + c - 8 + 4 ≤ x + 8 ∨ x + 8 + 8 ≤ x + c - 8 := by omega
  have f1 : ∀ a, (a < x - 4 ∨ x + c - 4 ≤ a) →
      (a < x + c - 8 ∨ x + c - 8 + 4 ≤ a) ∧ (a < x - 4 ∨ x - 4 + 4 ≤ a) := by
    intro a ha; omega
  subst hm2 hm3
  refine ⟨?_, ?_, ?_, ?_, ?_, ?_⟩
  · intro a ha
    obtain ⟨g3, g4⟩ := f1 a ha
    apply unlink_congr_byte
    rw [PUT_byte_ne _ _ _ _ g3, PUT_byte_ne _ _ _ _ g4]
  · rw [GET_congr _ _ _ (fun a h1 h2 => unlink_byte _ pv nx a (o1 a h1 h2) (o2 a h1 h2)),
      GET_PUT_ne _ _ _ _ d3, GET_PUT_same, hAmod]
  · rw [GET_congr _ _ _ (fun a h1 h2 => unlink_byte _ pv nx a (o3 a h1 h2) (o4 a h1 h2)),
      GET_PUT_same, hAmod]
  · rw [GETA_PUT_ne _ _ _ _ d8, GETA_PUT_ne _ _ _ _ d7]
  · rw [GETA_PUT_ne _ _ _ _ d10, GETA_PUT_ne _ _ _ _ d9]
  · exact GET_SIZE_PUT_same1 _ _ _ hc8 hlt

/-- The link fields a node's neighbours in the list keep lie outside the
node's own block. -/
theorem Pre.links_outside {s : State} {L : List Blk} {fl : List Nat} (h : Pre s L fl) {b : Blk}
    (hb : b ∈ L) (hx : b.addr ∈ fl) :
    ∀ a, b.addr - 4 ≤ a → a < b.addr + b.size - 4 →
      (a < GETA s.mem b.addr + 8 ∨ GETA s.mem b.addr + 16 ≤ a)
      ∧ (GETA s.mem (b.addr + 8) = 0 ∨ a < GETA s.mem (b.addr + 8)
          ∨ GETA s.mem (b.addr + 8) + 8 ≤ a) := by
  obtain ⟨l1, l2, rfl⟩ := List.append_of_mem hx
  obtain ⟨hpv, hnx⟩ := FList_links _ _ _ _ _ h.flist
  have hnd := h.nodup
  have hx1 : b.addr ∉ l1 := fun hx1 =>
    (List.nodup_append.mp hnd).2.2 hx1 (List.mem_cons_self _ _)
  have hx2 : b.addr ∉ l2 := (List.nodup_cons.mp (List.nodup_append.mp hnd).2.1).1
  have hbb := h.blk hb
  have hbrk := h.brk_lt
  have hge := h.node_ge hx
  have key : ∀ y, y ∈ l1 ∨ y ∈ l2 → y + 24 ≤ b.addr ∨ b.addr + b.size ≤ y := by
    intro y hy
    have hyfl : y ∈ l1 ++ b.addr :: l2 := by
      rcases hy with e | e
      · exact List.mem_append_left _ e
      · exact List.mem_append_right _ (List.mem_cons_of_mem _ e)
    obtain ⟨c, hc, rfl, _⟩ := h.sub y hyfl
    have hc' := h.blk hc
    have hne : c.addr ≠ b.addr := by
      intro e
      rcases hy with e1 | e1
      · exact hx1 (e ▸ e1)
      · exact hx2 (e ▸ e1)
    have := Layout_far _ _ _ h.layout c b hc hb hne
    omega
  have hpvc : l1.getLastD s.heap_listp = s.heap_listp ∨ l1.getLastD s.heap_listp ∈ l1 := by
    rw [List.getLastD_eq_getLast?]
    cases hgl : l1.getLast? with
    | none => left; rfl
    | some z => right; simp only [Option.getD_some]; exact List.mem_of_getLast?_eq_some hgl
  have hnxc : l2.headD 0 = 0 ∨ l2.headD 0 ∈ l2 := by
    cases l2 with
    | nil => left; rfl
    | cons y t' => right; simp
  have k1 : l1.getLastD s.heap_listp + 24 ≤ b.addr ∨ b.addr + b.size ≤ l1.getLastD s.heap_listp := by
    rcases hpvc with e | e
    · rw [e]; left; exact hge
    · exact key _ (Or.inl e)
  have k2 : l2.headD 0 = 0 ∨ l2.headD 0 + 24 ≤ b.addr ∨ b.addr + b.size ≤ l2.headD 0 := by
    rcases hnxc with e | e
    · left; exact e
    · right; exact key _ (Or.inr e)
  rw [hpv, hnx]
  generalize l1.getLastD s.heap_listp = pv at k1
  generalize l2.headD 0 = nx at k2
  clear hpv hnx key hpvc hnxc
  intro a h1 h2
  omega

/-! ### Placement: specification -/

theorem placeBlks_split (b : Blk) (asize : Nat) (h : 24 ≤ b.size - asize) :
    placeBlks b asize = [⟨b.addr, asize, true⟩, ⟨b.addr + asize, b.size - asize, false⟩] := by
  simp [placeBlks, h]

theorem placeBlks_whole (b : Blk) (asize : Nat) (h : ¬ 24 ≤ b.size - asize) :
    placeBlks b asize = [⟨b.addr, b.size, true⟩] := by
  simp [placeBlks, h]

theorem addfblock_env (s : State) (x : Nat) :
    (addfblock s x).mem_heap = s.mem_heap ∧ (addfblock s x).mem_max_addr = s.mem_max_addr
      ∧ (addfblock s x).mem_fail = s.mem_fail ∧ (addfblock s x).heap_listp = s.heap_listp
      ∧ (addfblock s x).mem_brk = s.mem_brk := ⟨rfl, rfl, rfl, rfl, rfl⟩

set_option maxHeartbeats 400000 in
/-- `place` when the remainder is large enough to be split off. -/
theorem place_spec_split {s : State} {L1 L2 : List Blk} {b : Blk} {fl : List Nat}
    (h : Rep s (L1 ++ b :: L2) fl) (hb : b.alloc = false) (asize : Nat)
    (h24 : 24 ≤ asize) (h8 : asize % 8 = 0) (hle : asize ≤ b.size)
    (hsplit : 24 ≤ b.size - asize) (s' : State) (hs' : s' = place s b.addr asize) :
    ∃ fl', Rep s' (L1 ++ placeBlks b asize ++ L2) fl'
      ∧ Keeps (L1 ++ b :: L2) s.heap_listp s.mem s'.mem ∧ SameEnv s s'
      ∧ s'.mem_brk = s.mem_brk := by
  have hbm : b ∈ L1 ++ b :: L2 := by simp
  have hbb := h.blk hbm
  have hbrk := h.brk_lt
  have hL1ne : L1 ≠ [] := h.toPre.L1_ne hb
  obtain ⟨hL1, hb24, hb8, hL2⟩ := Layout_split _ _ _ _ _ h.layout
  have hp2 : fl.Perm (freeAddrs L1 ++ b.addr :: freeAddrs L2) := by
    have := h.perm
    rwa [freeAddrs_append, freeAddrs_cons_free b L2 hb] at this
  have hx : b.addr ∈ fl := hp2.mem_iff.mpr (by simp)
  have hout := h.toPre.links_outside hbm hx
  have hcond : (b.size + SZ - asize) % SZ = b.size - asize := by
    have : b.size + SZ - asize = SZ + (b.size - asize) := by simp only [SZ]; omega
    rw [this, Nat.add_mod_left]
    exact Nat.mod_eq_of_lt (by simp only [SZ, WD] at *; omega)
  have h4 : 4 ≤ b.addr := by omega
  have hclt := hbb.2.2.2.2
  have hinner : 24 ≤ b.size - asize → ∀ y ∈ fl, y ≠ b.addr + asize := by
    intro hsp y hy e
    obtain ⟨c, hc, rfl, _⟩ := h.sub y hy
    have hc' := h.blk hc
    by_cases hne : c.addr = b.addr
    · omega
    · have := Layout_far _ _ _ h.layout c b hc hbm hne
      omega
  have hnext_alloc : ∀ nb ∈ L2.head?, nb.alloc = true := by
    intro nb hnb
    cases L2 with
    | nil => simp at hnb
    | cons c t =>
      simp at hnb
      subst hnb
      have := NoAdj_right h.noadj
      unfold NoAdj at this
      rw [List.chain'_cons] at this
      rcases this.1 with e | e
      · rw [hb] at e; exact Bool.noConfusion e
      · exact e
  have hsz := h.toPre.hdr_size hbm
  clear hbb hbrk
  obtain ⟨s1, hs1⟩ : ∃ s1 : State, s1 = removefblock s b.addr := ⟨_, rfl⟩
  obtain ⟨q1, q2, q3, q4, q5, q6⟩ := Pre_remove_var h.toPre b.addr hx h.rov s1 hs1
  have hs1mem : s1.mem = unlink s.mem (GETA s.mem b.addr) (GETA s.mem (b.addr + 8)) := by
    rw [hs1, removefblock_eq]
  have hLeq : L1 ++ b :: L2 = L1 ++ [b] ++ L2 := by simp
  rw [hLeq] at q1
  have hnode : ∀ y ∈ fl.erase b.addr, ∀ c ∈ [b], c.addr ≠ y := by
    intro y hy c hc e
    rw [List.mem_singleton] at hc
    subst hc
    exact q2 (e ▸ hy)
  have hL2' : Layout L2 (b.addr + b.size) s1.mem_brk := by rw [q6]; exact hL2
  have hL1' : Layout L1 s1.heap_listp b.addr := by rw [q5.2.2.2]; exact hL1
  rw [placeBlks_split b asize hsplit]
  obtain ⟨k1, k2, k3, k4, k5, k6, k7, k8, k9, k10⟩ := place_mem_split s.mem b.addr asize b.size
    (GETA s.mem b.addr) (GETA s.mem (b.addr + 8)) h24 (by omega) h4 h8 hb8 hclt hout _ _ _
    rfl rfl rfl
  have hmidL : Layout [(⟨b.addr, asize, true⟩ : Blk), ⟨b.addr + asize, b.size - asize, false⟩]
      b.addr (b.addr + b.size) :=
    ⟨rfl, h24, h8, rfl, hsplit, by show (b.size - asize) % 8 = 0; omega,
      by show b.addr + asize + (b.size - asize) = b.addr + b.size; omega⟩
  obtain ⟨m5, hm5⟩ : ∃ m5 : Mem, m5 = PUT (PUT (unlink (PUT (PUT s.mem (b.addr - 4) (asize + 1))
      (b.addr + asize - 8) (asize + 1)) (GETA s.mem b.addr) (GETA s.mem (b.addr + 8)))
      (b.addr + asize - 4) (b.size - asize)) (b.addr + asize + (b.size - asize) - 8)
      (b.size - asize) := ⟨_, rfl⟩
  rw [← hm5] at k1 k2 k3 k4 k5
  have hT : TagsOK m5 [(⟨b.addr, asize, true⟩ : Blk), ⟨b.addr + asize, b.size - asize, false⟩] := by
    intro c hc
    simp only [List.mem_cons, List.mem_singleton, List.not_mem_nil, or_false] at hc
    rcases hc with rfl | rfl
    · exact ⟨k2, k3⟩
    · exact ⟨by simpa [Blk.tag] using k4, by simpa [Blk.tag] using k5⟩
  have hpre5 := Pre_retag q1 hL1ne _ b.addr (b.addr + b.size) hL1' hL2' hmidL m5
    (fun a ha => by rw [hs1mem]; exact k1 a ha) hT hnode
  have hRm : (⟨b.addr + asize, b.size - asize, false⟩ : Blk) ∈
      L1 ++ [(⟨b.addr, asize, true⟩ : Blk), ⟨b.addr + asize, b.size - asize, false⟩] ++ L2 := by
    simp
  have hRn : (⟨b.addr + asize, b.size - asize, false⟩ : Blk).addr ∉ fl.erase b.addr :=
    fun hm => hinner hsplit _ (List.mem_of_mem_erase hm) rfl
  obtain ⟨p1, p2, p3⟩ := Pre_add hpre5 _ hRm rfl hRn
  have pk := Pre_add_keeps hpre5 _ hRm rfl hRn
  have hplace : s' = addfblock { s1 with mem := m5 } (b.addr + asize) := by
    rw [hs', hs1, hm5]
    simp only [place, removefblock_eq, HDRP, WSIZE, FTRP, DSIZE, NEXT_BLKP, hsz, hcond, MINIMUM,
      ge_iff_le, hsplit, if_true, PACK_one asize h8, PACK_zero, k6, k7, k8, k9, k10]
  rw [hplace]
  refine ⟨(b.addr + asize) :: fl.erase b.addr, ?_, ?_, ?_, ?_⟩
  · exact {
      toPre := by simpa using p1
      perm := by
        have e1 := perm_erase_mid hp2
        simp only [List.append_assoc, List.cons_append, List.nil_append, freeAddrs_append]
        rw [freeAddrs_cons_alloc _ _ rfl, freeAddrs_cons_free _ _ rfl]
        exact (List.Perm.cons _ e1).trans List.perm_middle.symm
      noadj := by
        have n1 : NoAdj (L1 ++ [(⟨b.addr, asize, true⟩ : Blk)]) := by
          have := @NoAdj_left (L1 ++ [b]) L2 (by simpa using h.noadj)
          unfold NoAdj at this ⊢
          rw [List.chain'_append] at this ⊢
          refine ⟨this.1, List.chain'_singleton _, ?_⟩
          intro u hu v hv
          simp at hv
          subst hv
          exact Or.inr rfl
        have n2 : NoAdj ((⟨b.addr + asize, b.size - asize, false⟩ : Blk) :: L2) := by
          unfold NoAdj
          cases L2 with
          | nil => exact List.chain'_singleton _
          | cons c t =>
            rw [List.chain'_cons]
            exact ⟨Or.inr (hnext_alloc c (by simp)), NoAdj_tail (NoAdj_right h.noadj)⟩
        have := NoAdj_glue L1 L2 _ _ n1 n2 (Or.inl rfl)
        simpa using this
      rov := by
        show (addfblock { s1 with mem := m5 } (b.addr + asize)).rover = 0 ∨ _
        rw [p3]
        rcases q3 with e | e | e
        · exact Or.inl e
        · exact Or.inr (Or.inl e)
        · exact Or.inr (Or.inr (List.mem_cons_of_mem _ e)) }
  · intro c hc hca hne a ha1 ha2
    have hcin : c ∈ L1 ∨ c ∈ L2 := by
      rcases List.mem_append.mp hc with e | e
      · exact Or.inl e
      · rcases List.mem_cons.mp e with rfl | e
        · rw [hb] at hca; exact Bool.noConfusion hca
        · exact Or.inr e
    have hc' : c ∈ L1 ++ [(⟨b.addr, asize, true⟩ : Blk),
        ⟨b.addr + asize, b.size - asize, false⟩] ++ L2 := by
      rcases hcin with e | e
      · exact List.mem_append_left _ (List.mem_append_left _ e)
      · exact List.mem_append_right _ e
    have hne' : c.addr ≠ s1.heap_listp := by rw [q5.2.2.2]; exact hne
    have e1 : (addfblock { s1 with mem := m5 } (b.addr + asize)).mem a = m5 a :=
      pk c hc' hca hne' a ha1 ha2
    have e2 : m5 a = unlink s.mem (GETA s.mem b.addr) (GETA s.mem (b.addr + 8)) a := by
      apply k1
      rcases hcin with e | e
      · have := Layout_mem _ _ _ hL1 c e
        omega
      · have := Layout_mem _ _ _ hL2 c e
        omega
    have e3 := q4 c hc hca hne a ha1 ha2
    rw [hs1mem] at e3
    exact e1.trans (e2.trans e3)
  · exact ⟨q5.1, q5.2.1, q5.2.2.1, q5.2.2.2⟩
  · exact q6

set_option maxHeartbeats 400000 in
/-- `place` when the whole block is taken. -/
theorem place_spec_whole {s : State} {L1 L2 : List Blk} {b : Blk} {fl : List Nat}
    (h : Rep s (L1 ++ b :: L2) fl) (hb : b.alloc = false) (asize : Nat)
    (h24 : 24 ≤ asize) (h8 : asize % 8 = 0) (hle : asize ≤ b.size)
    (hsplit : ¬ 24 ≤ b.size - asize) (s' : State) (hs' : s' = place s b.addr asize) :
    ∃ fl', Rep s' (L1 ++ placeBlks b asize ++ L2) fl'
      ∧ Keeps (L1 ++ b :: L2) s.heap_listp s.mem s'.mem ∧ SameEnv s s'
      ∧ s'.mem_brk = s.mem_brk := by
  have hbm : b ∈ L1 ++ b :: L2 := by simp
  have hbb := h.blk hbm
  have hbrk := h.brk_lt
  have hL1ne : L1 ≠ [] := h.toPre.L1_ne hb
  obtain ⟨hL1, hb24, hb8, hL2⟩ := Layout_split _ _ _ _ _ h.layout
  have hp2 : fl.Perm (freeAddrs L1 ++ b.addr :: freeAddrs L2) := by
    have := h.perm
    rwa [freeAddrs_append, freeAddrs_cons_free b L2 hb] at this
  have hx : b.addr ∈ fl := hp2.mem_iff.mpr (by simp)
  have hout := h.toPre.links_outside hbm hx
  have hcond : (b.size + SZ - asize) % SZ = b.size - asize := by
    have : b.size + SZ - asize = SZ + (b.size - asize) := by simp only [SZ]; omega
    rw [this, Nat.add_mod_left]
    exact Nat.mod_eq_of_lt (by simp only [SZ, WD] at *; omega)
  have h4 : 4 ≤ b.addr := by omega
  have hclt := hbb.2.2.2.2
  have hinner : 24 ≤ b.size - asize → ∀ y ∈ fl, y ≠ b.addr + asize := by
    intro hsp y hy e
    obtain ⟨c, hc, rfl, _⟩ := h.sub y hy
    have hc' := h.blk hc
    by_cases hne : c.addr = b.addr
    · omega
    · have := Layout_far _ _ _ h.layout c b hc hbm hne
      omega
  have hnext_alloc : ∀ nb ∈ L2.head?, nb.alloc = true := by
    intro nb hnb
    cases L2 with
    | nil => simp at hnb
    | cons c t =>
      simp at hnb
      subst hnb
      have := NoAdj_right h.noadj
      unfold NoAdj at this
      rw [List.chain'_cons] at this
      rcases this.1 with e | e
      · rw [hb] at e; exact Bool.noConfusion e
      · exact e
  have hsz := h.toPre.hdr_size hbm
  clear hbb hbrk
  obtain ⟨s1, hs1⟩ : ∃ s1 : State, s1 = removefblock s b.addr := ⟨_, rfl⟩
  obtain ⟨q1, q2, q3, q4, q5, q6⟩ := Pre_remove_var h.toPre b.addr hx h.rov s1 hs1
  have hs1mem : s1.mem = unlink s.mem (GETA s.mem b.addr) (GETA s.mem (b.addr + 8)) := by
    rw [hs1, removefblock_eq]
  have hLeq : L1 ++ b :: L2 = L1 ++ [b] ++ L2 := by simp
  rw [hLeq] at q1
  have hnode : ∀ y ∈ fl.erase b.addr, ∀ c ∈ [b], c.addr ≠ y := by
    intro y hy c hc e
    rw [List.mem_singleton] at hc
    subst hc
    exact q2 (e ▸ hy)
  have hL2' : Layout L2 (b.addr + b.size) s1.mem_brk := by rw [q6]; exact hL2
  have hL1' : Layout L1 s1.heap_listp b.addr := by rw [q5.2.2.2]; exact hL1
  rw [placeBlks_whole b asize hsplit]
  obtain ⟨k1, k2, k3, k6, k7, k9⟩ := place_mem_whole s.mem b.addr b.size
    (GETA s.mem b.addr) (GETA s.mem (b.addr + 8)) hb24 h4 hb8 hclt hout _ _ rfl rfl
  have hmidL : Layout [(⟨b.addr, b.size, true⟩ : Blk)] b.addr (b.addr + b.size) :=
    ⟨rfl, hb24, hb8, rfl⟩
  obtain ⟨m3, hm3⟩ : ∃ m3 : Mem, m3 = unlink (PUT (PUT s.mem (b.addr - 4) (b.size + 1))
      (b.addr + b.size - 8) (b.size + 1)) (GETA s.mem b.addr) (GETA s.mem (b.addr + 8)) :=
    ⟨_, rfl⟩
  rw [← hm3] at k1 k2 k3
  have hT : TagsOK m3 [(⟨b.addr, b.size, true⟩ : Blk)] := by
    intro c hc
    rw [List.mem_singleton] at hc
    subst hc
    exact ⟨k2, k3⟩
  have hpre3 := Pre_retag q1 hL1ne _ b.addr (b.addr + b.size) hL1' hL2' hmidL m3
    (fun a ha => by rw [hs1mem]; exact k1 a ha) hT hnode
  have hplace : s' = { s1 with mem := m3 } := by
    rw [hs', hs1, hm3]
    simp only [place, removefblock_eq, HDRP, WSIZE, FTRP, DSIZE, hsz, hcond, MINIMUM,
      ge_iff_le, hsplit, if_false, PACK_one b.size hb8, k6, k7, k9]
  rw [hplace]
  refine ⟨fl.erase b.addr, ?_, ?_, ?_, ?_⟩
  · exact {
      toPre := by simpa using hpre3
      perm := by
        have e1 := perm_erase_mid hp2
        simp only [List.append_assoc, List.cons_append, List.nil_append, freeAddrs_append]
        rw [freeAddrs_cons_alloc _ _ rfl]
        exact e1
      noadj := by
        have n1 : NoAdj (L1 ++ [(⟨b.addr, b.size, true⟩ : Blk)]) := by
          have := @NoAdj_left (L1 ++ [b]) L2 (by simpa using h.noadj)
          unfold NoAdj at this ⊢
          rw [List.chain'_append] at this ⊢
          refine ⟨this.1, List.chain'_singleton _, ?_⟩
          intro u hu v hv
          simp at hv
          subst hv
          exact Or.inr rfl
        have n2 : NoAdj ((⟨b.addr, b.size, true⟩ : Blk) :: L2) := by
          unfold NoAdj
          cases L2 with
          | nil => exact List.chain'_singleton _
          | cons c t =>
            rw [List.chain'_cons]
            exact ⟨Or.inl rfl, NoAdj_tail (NoAdj_right h.noadj)⟩
        have := NoAdj_mid L1 L2 _ n1 n2
        simpa using this
      rov := q3 }
  · intro c hc hca hne a ha1 ha2
    have hcin : c ∈ L1 ∨ c ∈ L2 := by
      rcases List.mem_append.mp hc with e | e
      · exact Or.inl e
      · rcases List.mem_cons.mp e with rfl | e
        · rw [hb] at hca; exact Bool.noConfusion hca
        · exact Or.inr e
    have e2 : m3 a = unlink s.mem (GETA s.mem b.addr) (GETA s.mem (b.addr + 8)) a := by
      apply k1
      rcases hcin with e | e
      · have := Layout_mem _ _ _ hL1 c e
        omega
      · have := Layout_mem _ _ _ hL2 c e
        omega
    have e3 := q4 c hc hca hne a ha1 ha2
    rw [hs1mem] at e3
    exact e2.trans e3
  · exact ⟨q5.1, q5.2.1, q5.2.2.1, q5.2.2.2⟩
  · exact q6

/-- `place` on a free block of the list that is large enough. -/
theorem place_spec {s : State} {L1 L2 : List Blk} {b : Blk} {fl : List Nat}
    (h : Rep s (L1 ++ b :: L2) fl) (hb : b.alloc = false) (asize : Nat)
    (h24 : 24 ≤ asize) (h8 : asize % 8 = 0) (hle : asize ≤ b.size)
    (s' : State) (hs' : s' = place s b.addr asize) :
    ∃ fl', Rep s' (L1 ++ placeBlks b asize ++ L2) fl'
      ∧ Keeps (L1 ++ b :: L2) s.heap_listp s.mem s'.mem ∧ SameEnv s s'
      ∧ s'.mem_brk = s.mem_brk := by
  by_cases hsplit : 24 ≤ b.size - asize
  · exact place_spec_split h hb asize h24 h8 hle hsplit s' hs'
  · exact place_spec_whole h hb asize h24 h8 hle hsplit s' hs'

/-! ### Fit search -/

theorem FList_suffix (m : Mem) (prev : Nat) (l1 l2 : List Nat) (h : FList m prev (l1 ++ l2)) :
    FList m (l1.getLastD prev) l2 := by
  induction l1 generalizing prev with
  | nil => simpa using h
  | cons a t ih =>
    obtain ⟨_, _, h3⟩ := h
    rw [List.getLastD_cons]
    exact ih a h3

theorem FList_head (m : Mem) (prev : Nat) (l : List Nat) (h : FList m prev l) :
    GETA m (prev + 8) = l.headD 0 := by
  cases l with
  | nil => exact h
  | cons a t => exact h.1

/-- The first loop of `find_fit` along a well-linked list. -/
theorem find_fit_first_spec (m : Mem) (asize : Nat) (l : List Nat) (prev : Nat)
    (h : FList m prev l) (hnz : ∀ y ∈ l, y ≠ 0) (fuel : Nat) (hf : l.length < fuel) :
    ∃ p, find_fit_first m asize fuel (l.headD 0) = some p
      ∧ ((p = 0 ∧ ∀ y ∈ l, ¬ fits m asize y) ∨ (p ∈ l ∧ fits m asize p)) := by
  induction l generalizing prev fuel with
  | nil =>
    cases fuel with
    | zero => simp at hf
    | succ n => exact ⟨0, by simp [find_fit_first], Or.inl ⟨rfl, by simp⟩⟩
  | cons a t ih =>
    cases fuel with
    | zero => simp at hf
    | succ n =>
      obtain ⟨h1, h2, h3⟩ := h
      have ha : a ≠ 0 := hnz a (List.mem_cons_self _ _)
      by_cases hfit : fits m asize a
      all_goals have hfit' := hfit
      all_goals unfold fits at hfit'
      · refine ⟨a, ?_, Or.inr ⟨List.mem_cons_self _ _, hfit⟩⟩
        simp only [List.headD_cons, find_fit_first, ha, if_false]
        rw [if_pos hfit']
      · obtain ⟨p, hp1, hp2⟩ := ih a h3 (fun y hy => hnz y (List.mem_cons_of_mem _ hy)) n
          (by simp only [List.length_cons] at hf; omega)
        refine ⟨p, ?_, ?_⟩
        · simp only [List.headD_cons, find_fit_first, ha, if_false]
          rw [if_neg hfit', show NEXT_FRP a = a + 8 from rfl, FList_head m a t h3]
          exact hp1
        · rcases hp2 with ⟨e, hall⟩ | ⟨e, hfit'⟩
          · left
            refine ⟨e, ?_⟩
            intro y hy
            rcases List.mem_cons.mp hy with rfl | hy
            · exact hfit
            · exact hall y hy
          · right; exact ⟨List.mem_cons_of_mem _ e, hfit'⟩

/-- The second loop of `find_fit` along a well-linked list, up to `stop`. -/
theorem find_fit_second_spec (m : Mem) (asize stop : Nat) (l1 l2 : List Nat) (prev : Nat)
    (h : FList m prev (l1 ++ l2)) (hnz : ∀ y ∈ l1, y ≠ 0 ∧ y ≠ stop)
    (hl2 : l2.headD 0 = 0 ∨ l2.headD 0 = stop) (fuel : Nat) (hf : l1.length < fuel) :
    ∃ p, find_fit_second m asize stop fuel ((l1 ++ l2).headD 0) = some p
      ∧ ((p = 0 ∧ ∀ y ∈ l1, ¬ fits m asize y) ∨ (p ∈ l1 ∧ fits m asize p)) := by
  induction l1 generalizing prev fuel with
  | nil =>
    cases fuel with
    | zero => simp at hf
    | succ n =>
      refine ⟨0, ?_, Or.inl ⟨rfl, by simp⟩⟩
      simp only [List.nil_append, find_fit_second]
      rw [if_pos hl2]
  | cons a t ih =>
    cases fuel with
    | zero => simp at hf
    | succ n =>
      obtain ⟨h1, h2, h3⟩ := h
      have ha := hnz a (List.mem_cons_self _ _)
      have hcond : ¬ (a = 0 ∨ a = stop) := by
        intro e; rcases e with e | e
        · exact ha.1 e
        · exact ha.2 e
      by_cases hfit : fits m asize a
      all_goals have hfit' := hfit
      all_goals unfold fits at hfit'
      · refine ⟨a, ?_, Or.inr ⟨List.mem_cons_self _ _, hfit⟩⟩
        simp only [List.cons_append, List.headD_cons, find_fit_second]
        rw [if_neg hcond, if_pos hfit']
      · obtain ⟨p, hp1, hp2⟩ := ih a h3 (fun y hy => hnz y (List.mem_cons_of_mem _ hy)) n
          (by simp only [List.length_cons] at hf; omega)
        refine ⟨p, ?_, ?_⟩
        · simp only [List.cons_append, List.headD_cons, find_fit_second]
          rw [if_neg hcond, if_neg hfit', show NEXT_FRP a = a + 8 from rfl,
            FList_head m a (t ++ l2) h3]
          exact hp1
        · rcases hp2 with ⟨e, hall⟩ | ⟨e, hfit'⟩
          · left
            refine ⟨e, ?_⟩
            intro y hy
            rcases List.mem_cons.mp hy with rfl | hy
            · exact hfit
            · exact hall y hy
          · right; exact ⟨List.mem_cons_of_mem _ e, hfit'⟩

theorem Rep.fl_length {s : State} {L : List Blk} {fl : List Nat} (h : Rep s L fl) :
    fl.length + 2 ≤ s.mem_brk := by
  have h1 := h.perm.length_eq
  have h2 : (freeAddrs L).length ≤ L.length := by
    unfold freeAddrs
    rw [List.length_map]
    exact List.length_filter_le _ _
  have h3 := Layout_length _ _ _ h.layout
  have h4 := h.brk_lt
  omega

theorem Rep.sentinel_not_fit {s : State} {L : List Blk} {fl : List Nat} (h : Rep s L fl)
    (asize : Nat) : ¬ fits s.mem asize s.heap_listp := by
  intro hf
  have := h.toPre.hdr_alloc h.pro_mem
  simp only [if_true] at this
  have h1 := hf.1
  simp only [HDRP, WSIZE] at h1
  rw [this] at h1
  exact absurd h1 (by decide)

/-- `find_fit` on a state satisfying the invariant: it finishes; a null result
leaves the state alone and means no node of the list fits; a non-null result
is a node of the list that fits, and the rover is set to it. -/
theorem find_fit_spec {s : State} {L : List Blk} {fl : List Nat} (h : Rep s L fl)
    (asize : Nat) :
    ∃ p, (p = 0 ∧ find_fit s asize = some (s, 0) ∧ ∀ y ∈ fl, ¬ fits s.mem asize y)
      ∨ (p ≠ 0 ∧ find_fit s asize = some ({ s with rover := p }, p) ∧ p ∈ fl
          ∧ fits s.mem asize p) := by
  have hlen := h.fl_length
  have hrng := h.toPre.nodes_rng
  have hnz : ∀ y ∈ fl, y ≠ 0 := fun y hy =>
    Nat.pos_iff_ne_zero.mp (hrng y (List.mem_cons_of_mem _ hy)).1
  have hhl0 : s.heap_listp ≠ 0 := Nat.pos_iff_ne_zero.mp (hrng _ (List.mem_cons_self _ _)).1
  have hhlfl : s.heap_listp ∉ fl := fun hm => by
    have := h.toPre.node_ge hm
    omega
  have hsent : ¬ (GET_ALLOC s.mem (HDRP s.heap_listp) = 0
      ∧ asize ≤ GET_SIZE s.mem (HDRP s.heap_listp)) := h.sentinel_not_fit asize
  have hbrkpos : ∃ n, s.mem_brk = n + 1 ∧ fl.length < n := ⟨s.mem_brk - 1, by omega, by omega⟩
  obtain ⟨n, hn, hfl⟩ := hbrkpos
  -- second loop from the sentinel
  have second : ∀ (stop : Nat) (l1 l2 : List Nat), fl = l1 ++ l2 → stop ≠ s.heap_listp →
      (∀ y ∈ l1, y ≠ stop) → (l2.headD 0 = 0 ∨ l2.headD 0 = stop) →
      ∃ p, find_fit_second s.mem asize stop s.mem_brk s.heap_listp = some p
        ∧ ((p = 0 ∧ ∀ y ∈ l1, ¬ fits s.mem asize y) ∨ (p ∈ l1 ∧ fits s.mem asize p)) := by
    intro stop l1 l2 hfl12 hstop hl1 hl2
    have hfl' := h.flist
    rw [hfl12] at hfl'
    obtain ⟨p, hp1, hp2⟩ := find_fit_second_spec s.mem asize stop l1 l2 s.heap_listp hfl'
      (fun y hy => ⟨hnz y (by rw [hfl12]; exact List.mem_append_left _ hy), hl1 y hy⟩) hl2 n
      (by
        have : l1.length ≤ fl.length := by rw [hfl12, List.length_append]; omega
        omega)
    refine ⟨p, ?_, hp2⟩
    rw [hn]
    simp only [find_fit_second]
    rw [if_neg (by
      intro e; rcases e with e | e
      · exact hhl0 e
      · exact hstop e.symm), if_neg hsent, show NEXT_FRP s.heap_listp = s.heap_listp + 8 from rfl,
      FList_head _ _ _ hfl']
    exact hp1
  rcases h.rov with hr | hr | hr
  · -- rover = NULL
    have hfirst : find_fit_first s.mem asize s.mem_brk s.rover = some 0 := by
      rw [hn, hr]; simp [find_fit_first]
    obtain ⟨p, hp1, hp2⟩ := second 0 fl [] (by simp) (fun e => hhl0 e.symm) hnz (Or.inl rfl)
    rw [hr] at hfirst
    rcases hp2 with ⟨e, hall⟩ | ⟨e, hfit⟩
    · subst e
      refine ⟨0, Or.inl ⟨rfl, ?_, hall⟩⟩
      simp only [find_fit, hr, hfirst, hp1]
    · have hp0 := hnz p e
      refine ⟨p, Or.inr ⟨hp0, ?_, e, hfit⟩⟩
      simp only [find_fit, hr, hfirst, hp1]
  · -- rover = sentinel
    obtain ⟨p, hp1, hp2⟩ := find_fit_first_spec s.mem asize fl s.heap_listp h.flist hnz n hfl
    have hfirst : find_fit_first s.mem asize s.mem_brk s.rover = some p := by
      rw [hn, hr]
      simp only [find_fit_first]
      rw [if_neg hhl0, if_neg hsent, show NEXT_FRP s.heap_listp = s.heap_listp + 8 from rfl,
        FList_head _ _ _ h.flist]
      exact hp1
    rcases hp2 with ⟨e, hall⟩ | ⟨e, hfit⟩
    · subst e
      have hsecond : find_fit_second s.mem asize s.rover s.mem_brk s.heap_listp = some 0 := by
        rw [hn, hr]
        simp [find_fit_second]
      refine ⟨0, Or.inl ⟨rfl, ?_, hall⟩⟩
      simp only [find_fit, hfirst, hsecond]
    · have hp0 := hnz p e
      refine ⟨p, Or.inr ⟨hp0, ?_, e, hfit⟩⟩
      simp only [find_fit, hfirst]
  · -- rover in the list
    obtain ⟨l1, l2, hfl12⟩ := List.append_of_mem hr
    have hnd := h.nodup
    rw [hfl12] at hnd
    have hx1 : ∀ y ∈ l1, y ≠ s.rover := fun y hy e =>
      (List.nodup_append.mp hnd).2.2 hy (e ▸ List.mem_cons_self _ _)
    have hflist := h.flist
    rw [hfl12] at hflist
    have hsuf := FList_suffix _ _ _ _ hflist
    obtain ⟨p, hp1, hp2⟩ := find_fit_first_spec s.mem asize (s.rover :: l2) _ hsuf
      (fun y hy => hnz y (by rw [hfl12]; exact List.mem_append_right _ hy)) s.mem_brk
      (by
        have : (s.rover :: l2).length ≤ fl.length := by
          rw [hfl12, List.length_append]; omega
        omega)
    simp only [List.headD_cons] at hp1
    rcases hp2 with ⟨e, hall⟩ | ⟨e, hfit⟩
    · subst e
      obtain ⟨q, hq1, hq2⟩ := second s.rover l1 (s.rover :: l2) hfl12
        (fun e => hhlfl (e ▸ hr)) hx1 (Or.inr rfl)
      rcases hq2 with ⟨e, hall2⟩ | ⟨e, hfit⟩
      · subst e
        refine ⟨0, Or.inl ⟨rfl, ?_, ?_⟩⟩
        · simp only [find_fit, hp1, hq1]
        · intro y hy
          rw [hfl12] at hy
          rcases List.mem_append.mp hy with hy | hy
          · exact hall2 y hy
          · exact hall y hy
      · have hq0 := hnz q (by rw [hfl12]; exact List.mem_append_left _ e)
        refine ⟨q, Or.inr ⟨hq0, ?_, by rw [hfl12]; exact List.mem_append_left _ e, hfit⟩⟩
        simp only [find_fit, hp1, hq1]
    · have hpfl : p ∈ fl := by rw [hfl12]; exact List.mem_append_right _ e
      have hp0 := hnz p hpfl
      refine ⟨p, Or.inr ⟨hp0, ?_, hpfl, hfit⟩⟩
      simp only [find_fit, hp1]

/-! ### Heap growth -/

/-- The memory after the three stores of `extend_heap`. -/
theorem extend_mem (m : Mem) (brk size : Nat) (h4 : 8 ≤ brk) (h24 : 24 ≤ size)
    (h8 : size % 8 = 0) (hlt : size < WD)
    (m3 : Mem) (hm3 : m3 = PUT (PUT (PUT m (brk - 4) size) (brk + size - 8) size)
      (brk + size - 4) 1) :
    (∀ a, a < brk - 4 → m3 a = m a)
      ∧ GET m3 (brk - 4) = size ∧ GET m3 (brk + size - 8) = size ∧ GET m3 (brk + size - 4) = 1
      ∧ GET_SIZE (PUT m (brk - 4) size) (brk - 4) = size
      ∧ GET_SIZE (PUT (PUT m (brk - 4) size) (brk + size - 8) size) (brk - 4) = size := by
  have hmod : size % WD = size := Nat.mod_eq_of_lt hlt
  have d1 : brk + size - 4 + 4 ≤ brk - 4 ∨ brk - 4 + 4 ≤ brk + size - 4 := by omega
  have d2 : brk + size - 8 + 4 ≤ brk - 4 ∨ brk - 4 + 4 ≤ brk + size - 8 := by omega
  have d3 : brk + size - 4 + 4 ≤ brk + size - 8 ∨ brk + size - 8 + 4 ≤ brk + size - 4 := by omega
  have f1 : ∀ a, a < brk - 4 → (a < brk + size - 4 ∨ brk + size - 4 + 4 ≤ a)
      ∧ (a < brk + size - 8 ∨ brk + size - 8 + 4 ≤ a) ∧ (a < brk - 4 ∨ brk - 4 + 4 ≤ a) := by
    intro a ha; omega
  subst hm3
  refine ⟨?_, ?_, ?_, ?_, ?_, ?_⟩
  · intro a ha
    obtain ⟨g1, g2, g3⟩ := f1 a ha
    rw [PUT_byte_ne _ _ _ _ g1, PUT_byte_ne _ _ _ _ g2, PUT_byte_ne _ _ _ _ g3]
  · rw [GET_PUT_ne _ _ _ _ d1, GET_PUT_ne _ _ _ _ d2, GET_PUT_same, hmod]
  · rw [GET_PUT_ne _ _ _ _ d3, GET_PUT_same, hmod]
  · rw [GET_PUT_same]; rfl
  · exact GET_SIZE_PUT_same0 _ _ _ h8 hlt
  · rw [GET_SIZE_PUT_ne _ _ _ _ d2]; exact GET_SIZE_PUT_same0 _ _ _ h8 hlt

/-- Appending a free block at the break: the state before `coalesce` runs in
`extend_heap`. -/
theorem Pre_extend {s : State} {L : List Blk} {fl : List Nat} (h : Pre s L fl) (size : Nat)
    (h24 : 24 ≤ size) (h8 : size % 8 = 0) (hfit : s.mem_brk + size ≤ s.mem_max_addr)
    (m3 : Mem) (hm3 : m3 = PUT (PUT (PUT s.mem (s.mem_brk - 4) size) (s.mem_brk + size - 8) size)
      (s.mem_brk + size - 4) 1) :
    Pre { s with mem := m3, mem_brk := s.mem_brk + size } (L ++ [⟨s.mem_brk, size, false⟩]) fl
      ∧ s.mem_brk ∉ fl
      ∧ (∀ a, a < s.mem_brk - 4 → m3 a = s.mem a) := by
  have hbrk := h.brk_lt
  have hmax := h.max_lt
  have hhl := h.hl
  have hpos := h.heap_pos
  have hle := Layout_le _ _ _ h.layout
  have hlt : size < WD := by simp only [WD] at *; omega
  obtain ⟨k1, k2, k3, k4, _, _⟩ := extend_mem s.mem s.mem_brk size (by omega) h24 h8 hlt m3 hm3
  have hblk : ∀ c ∈ L, c.addr + c.size ≤ s.mem_brk ∧ 24 ≤ c.size ∧ 4 ≤ c.addr := by
    intro c hc
    have := h.blk hc
    omega
  clear hbrk hmax hhl hpos hle
  obtain ⟨L', hL'⟩ := h.head
  refine ⟨?_, ?_, k1⟩
  · exact {
      heap_pos := h.heap_pos
      brk_le := hfit
      max_lt := h.max_lt
      max_half := h.max_half
      fail_half := h.fail_half
      hl := h.hl
      head := ⟨L' ++ [⟨s.mem_brk, size, false⟩], by rw [hL']; rfl⟩
      layout := by
        rw [Layout_append]
        exact ⟨s.mem_brk, h.layout, rfl, h24, h8, rfl⟩
      tags := by
        intro c hc
        rcases List.mem_append.mp hc with hc | hc
        · have hb := hblk c hc
          have := h.tags c hc
          rw [GET_congr s.mem m3 _ (fun a ha1 ha2 => k1 a (by omega)),
            GET_congr s.mem m3 _ (fun a ha1 ha2 => k1 a (by omega))]
          exact this
        · rw [List.mem_singleton] at hc
          subst hc
          exact ⟨by simpa [Blk.tag] using k2, by simpa [Blk.tag] using k3⟩
      epi := k4
      flist := by
        apply FList_congr s.mem m3 _ _ _ _ h.flist
        · intro a ha1 ha2
          have := hblk _ h.pro_mem
          simp only at this
          exact k1 a (by omega)
        · intro y hy a ha1 ha2
          obtain ⟨c, hc, rfl, _⟩ := h.sub y hy
          have := hblk c hc
          exact k1 a (by omega)
      nodup := h.nodup
      sub := fun y hy => by
        obtain ⟨c, hc, e1, e2⟩ := h.sub y hy
        exact ⟨c, List.mem_append_left _ hc, e1, e2⟩ }
  · intro hm
    obtain ⟨c, hc, e, _⟩ := h.sub _ hm
    have := hblk c hc
    omega

theorem List.exists_snoc_of_ne_nil {α : Type} (L : List α) (h : L ≠ []) :
    ∃ L0 x, L = L0 ++ [x] := by
  refine ⟨L.dropLast, L.getLast h, ?_⟩
  exact (List.dropLast_append_getLast h).symm

/-- `extend_heap` when the provider fails: null, nothing changes. -/
theorem extend_heap_fail {s : State} {L : List Blk} {fl : List Nat} (h : Pre s L fl) (words : Nat)
    (hfail : ¬ s.mem_brk + (if words % 2 ≠ 0 then ((words + 1) * WSIZE) % SZ
      else (words * WSIZE) % SZ) ≤ s.mem_max_addr) :
    extend_heap s words = (s, 0) := by
  have hf := h.fail_half
  unfold extend_heap mem_sbrk
  simp only [hfail, if_false]
  rw [if_pos hf]

/-- `extend_heap` when the provider succeeds, for an even count of words. -/
theorem extend_heap_spec {s : State} {L0 : List Blk} {pb : Blk} {fl : List Nat}
    (h : Rep s (L0 ++ [pb]) fl) (words : Nat) (hev : words % 2 = 0) (h6 : 6 ≤ words)
    (hfit : s.mem_brk + words * 4 ≤ s.mem_max_addr)
    (r : State × Nat) (hr : r = extend_heap s words) :
    ∃ fl', Rep r.1 (coalL L0 pb ⟨s.mem_brk, words * 4, false⟩ []) fl'
      ∧ r.2 = (if pb.alloc then s.mem_brk else pb.addr)
      ∧ Keeps (L0 ++ [pb]) s.heap_listp s.mem r.1.mem
      ∧ SameEnv s r.1 ∧ r.1.mem_brk = s.mem_brk + words * 4 := by
  have hbrk := h.brk_lt
  have hmaxh := h.max_half
  have hble := h.brk_le
  have hlay := Layout_le _ _ _ h.layout
  have hsz : (words * 4) % SZ = words * 4 := Nat.mod_eq_of_lt (by simp only [SZ] at *; omega)
  have h24 : 24 ≤ words * 4 := by omega
  have h8 : (words * 4) % 8 = 0 := by omega
  have hnothalf : ¬ SZ / 2 ≤ s.mem_brk := by simp only [SZ] at *; omega
  have hlt : words * 4 < WD := by
    have := h.max_lt
    have := h.hl
    simp only [WD, SZ] at *; omega
  obtain ⟨m3, hm3⟩ : ∃ m3 : Mem, m3 = PUT (PUT (PUT s.mem (s.mem_brk - 4) (words * 4))
      (s.mem_brk + words * 4 - 8) (words * 4)) (s.mem_brk + words * 4 - 4) 1 := ⟨_, rfl⟩
  obtain ⟨_, _, _, _, k5, k6⟩ := extend_mem s.mem s.mem_brk (words * 4) (by omega) h24 h8 hlt m3 hm3
  clear hbrk hmaxh hble hlay
  obtain ⟨p1, p2, p3⟩ := Pre_extend h.toPre (words * 4) h24 h8 hfit m3 hm3
  obtain ⟨s2, hs2⟩ : ∃ s2 : State, s2 = { s with mem := m3, mem_brk := s.mem_brk + words * 4 } :=
    ⟨_, rfl⟩
  rw [← hs2] at p1
  have hext : r = coalesce s2 s.mem_brk := by
    rw [hr, hs2, hm3]
    unfold extend_heap mem_sbrk
    simp only [hev, ne_eq, not_true_eq_false, zero_ne_one, if_false, WSIZE, hsz, hfit, if_true,
      hnothalf, HDRP, FTRP, DSIZE, NEXT_BLKP, PACK_zero, k5, k6]
    rfl
  have hLeq : L0 ++ [pb] ++ [(⟨s.mem_brk, words * 4, false⟩ : Blk)]
      = L0 ++ pb :: ⟨s.mem_brk, words * 4, false⟩ :: [] := by simp
  rw [hLeq] at p1
  have hperm : fl.Perm (freeAddrs (L0 ++ [pb]) ++ freeAddrs []) := by
    simpa [freeAddrs_nil] using h.perm
  have hrov : s2.rover = 0 ∨ s2.rover = s2.heap_listp ∨ s2.rover ∈ fl := by
    rw [hs2]; exact h.rov
  obtain ⟨fl', g1, g2, g3, g4, g5⟩ := coalesce_spec p1 rfl p2 hperm h.noadj NoAdj_nil hrov r hext
  refine ⟨fl', g1, g2, ?_, ?_, ?_⟩
  · intro c hc hca hne a ha1 ha2
    have hc' : c ∈ L0 ++ pb :: ⟨s.mem_brk, words * 4, false⟩ :: [] := by
      rcases List.mem_append.mp hc with e | e
      · exact List.mem_append_left _ e
      · rw [List.mem_singleton] at e
        subst e
        simp
    have hne' : c.addr ≠ s2.heap_listp := by rw [hs2]; exact hne
    have e1 := g3 c hc' hca hne' a ha1 ha2
    have hcb := h.blk hc
    have e2 : m3 a = s.mem a := p3 a (by omega)
    rw [e1, hs2]
    exact e2
  · rw [hs2] at g4
    exact g4
  · rw [g5, hs2]

/-! ### Initialisation -/

theorem GET_PUTA_same_lo (m : Mem) (p v : Nat) : GET (PUTA m p v) p = v % WD := by
  unfold PUTA
  rw [GET_PUT_ne _ _ _ _ (by omega), GET_PUT_same]
  exact Nat.mod_mod _ _

/-- The memory after the six stores of `mm_init`. -/
theorem init_mem (m : Mem) (h : Nat) (m6 : Mem)
    (hm6 : m6 = PUT (PUT (PUTA (PUTA (PUT (PUT m h 0) (h + 4) 25) (h + 8) 0) (h + 16) 0)
      (h + 24) 25) (h + 28) 1) :
    GET m6 (h + 4) = 25 ∧ GET m6 (h + 24) = 25 ∧ GET m6 (h + 28) = 1 ∧ GETA m6 (h + 16) = 0 := by
  subst hm6
  refine ⟨?_, ?_, ?_, ?_⟩
  · rw [GET_PUT_ne _ _ _ _ (by omega), GET_PUT_ne _ _ _ _ (by omega),
      GET_PUTA_ne _ _ _ _ (by omega), GET_PUTA_ne _ _ _ _ (by omega), GET_PUT_same]
    decide
  · rw [GET_PUT_ne _ _ _ _ (by omega), GET_PUT_same]
    decide
  · rw [GET_PUT_same]
    decide
  · rw [GETA_PUT_ne _ _ _ _ (by omega), GETA_PUT_ne _ _ _ _ (by omega),
      GETA_PUTA_same _ _ _ (by decide)]

theorem initState_rep (s0 : State) (hp : ProviderOK s0)
    (h32 : s0.mem_brk + 32 ≤ s0.mem_max_addr) :
    Rep (initState s0) [⟨s0.mem_heap + 8, 24, true⟩] [] := by
  obtain ⟨h1, h2, h3, h4, h5⟩ := hp
  obtain ⟨k1, k2, k3, k4⟩ := init_mem s0.mem s0.mem_brk _ rfl
  rw [h2] at k1 k2 k3 k4 h32
  have hmem : (initState s0).mem = PUT (PUT (PUTA (PUTA (PUT (PUT s0.mem s0.mem_heap 0)
      (s0.mem_heap + 4) 25) (s0.mem_heap + 8) 0) (s0.mem_heap + 16) 0) (s0.mem_heap + 24) 25)
      (s0.mem_heap + 28) 1 := by
    simp only [initState, h2]
  exact {
    heap_pos := h1
    brk_le := by simp only [initState, h2]; exact h32
    max_lt := h3
    max_half := h4
    fail_half := h5
    hl := by simp only [initState, h2]
    head := ⟨[], by simp only [initState, h2]⟩
    layout := by
      simp only [initState, h2]
      refine ⟨rfl, ?_, ?_, ?_⟩
      · show 24 ≤ 24; omega
      · show 24 % 8 = 0; rfl
      · show s0.mem_heap + 8 + 24 = s0.mem_heap + 32; omega
    tags := by
      intro c hc
      rw [List.mem_singleton] at hc
      subst hc
      rw [hmem]
      simp only [Blk.tag, if_true]
      exact ⟨by rw [show s0.mem_heap + 8 - 4 = s0.mem_heap + 4 by omega]; exact k1,
        by rw [show s0.mem_heap + 8 + 24 - 8 = s0.mem_heap + 24 by omega]; exact k2⟩
    epi := by
      rw [hmem]
      simp only [initState, h2]
      rw [show s0.mem_heap + 32 - 4 = s0.mem_heap + 28 by omega]; exact k3
    flist := by
      show GETA (initState s0).mem ((initState s0).heap_listp + 8) = 0
      rw [hmem]
      simp only [initState, h2]
      rw [show s0.mem_heap + 8 + 8 = s0.mem_heap + 16 by omega]; exact k4
    nodup := List.nodup_nil
    sub := by simp
    perm := by simp [freeAddrs]
    noadj := List.chain'_singleton _
    rov := Or.inr (Or.inl rfl) }

theorem extend_heap_fail' (s : State) (words : Nat) (hf : SZ / 2 ≤ s.mem_fail)
    (hfail : ¬ s.mem_brk + (if words % 2 ≠ 0 then ((words + 1) * WSIZE) % SZ
      else (words * WSIZE) % SZ) ≤ s.mem_max_addr) :
    extend_heap s words = (s, 0) := by
  unfold extend_heap mem_sbrk
  simp only [hfail, if_false]
  rw [if_pos hf]

theorem mm_init_eq (s0 : State) (hp : ProviderOK s0)
    (h32 : s0.mem_brk + 32 ≤ s0.mem_max_addr) :
    mm_init s0 = (if (extend_heap (initState s0) 1024).2 = 0
      then ((extend_heap (initState s0) 1024).1, -1)
      else ((extend_heap (initState s0) 1024).1, 0)) := by
  obtain ⟨h1, h2, h3, h4, h5⟩ := hp
  have hne : s0.mem_brk ≠ 0 := by omega
  have e1 : PACK 24 1 = 25 := by decide
  have e2 : PACK 0 1 = 1 := by decide
  unfold mm_init mem_sbrk
  simp only [WSIZE, h32, if_true, hne, if_false, OVERHEAD, DSIZE, QSIZE, CHUNKSIZE, PUTAP, PUTAN,
    NEXT_FRP, PREV_FRP, e1, e2, Nat.reduceMul, Nat.reduceAdd, Nat.reduceDiv, Nat.add_assoc]
  rfl

/-- A successful `mm_init` on a fresh provider: the chain is the prologue and
one free block of 4096 bytes, which is the only node of the list. -/
theorem mm_init_spec (s0 s : State) (hp : ProviderOK s0) (h : mm_init s0 = (s, 0)) :
    Rep s [⟨s0.mem_heap + 8, 24, true⟩, ⟨s0.mem_heap + 32, 4096, false⟩] [s0.mem_heap + 32]
      ∧ s.mem_heap = s0.mem_heap ∧ s.mem_brk = s0.mem_heap + 4128
      ∧ s.mem_max_addr = s0.mem_max_addr ∧ s.heap_listp = s0.mem_heap + 8 := by
  have hp' := hp
  obtain ⟨h1, h2, h3, h4, h5⟩ := hp
  by_cases h32 : s0.mem_brk + 32 ≤ s0.mem_max_addr
  · rw [mm_init_eq s0 hp' h32] at h
    have hrep := initState_rep s0 hp' h32
    by_cases hfit : (initState s0).mem_brk + 1024 * 4 ≤ (initState s0).mem_max_addr
    · obtain ⟨fl', g1, g2, g3, g4, g5⟩ := @extend_heap_spec _ [] _ _ (by simpa using hrep) 1024
        (by decide) (by decide) hfit _ rfl
      have hbrk : (initState s0).mem_brk = s0.mem_heap + 32 := by simp only [initState, h2]
      have hr2 : (extend_heap (initState s0) 1024).2 ≠ 0 := by
        rw [g2]; simp only [if_true, hbrk]; omega
      rw [if_neg hr2] at h
      have hs : s = (extend_heap (initState s0) 1024).1 := (Prod.mk.inj h).1.symm
      rw [← hs] at g1 g4 g5
      have hcoal : coalL [] ⟨s0.mem_heap + 8, 24, true⟩
          ⟨(initState s0).mem_brk, 1024 * 4, false⟩ []
          = [⟨s0.mem_heap + 8, 24, true⟩, ⟨s0.mem_heap + 32, 4096, false⟩] := by
        simp [coalL, hbrk]
      rw [hcoal] at g1
      have hfl : fl' = [s0.mem_heap + 32] := by
        have := g1.perm
        simp [freeAddrs] at this
        exact this
      rw [hfl] at g1
      obtain ⟨a1, a2, a3, a4⟩ := g4
      refine ⟨g1, ?_, ?_, ?_, ?_⟩
      · rw [a1]; rfl
      · rw [g5, hbrk]
      · rw [a2]; rfl
      · rw [a4]; simp only [initState, h2]
    · have := extend_heap_fail' (initState s0) 1024 h5 (by
        simpa using hfit)
      rw [this] at h
      simp at h
  · -- the first request fails: the second fails too
    exfalso
    have hnz : s0.mem_fail ≠ 0 := by simp only [SZ] at h5; omega
    unfold mm_init mem_sbrk at h
    simp only [WSIZE, h32, if_false, hnz] at h
    generalize hm : PUT _ _ (PACK 0 1) = m6 at h
    have key : ∀ sx : State, sx.mem_fail = s0.mem_fail → sx.mem_brk = s0.mem_brk →
        sx.mem_max_addr = s0.mem_max_addr → extend_heap sx (CHUNKSIZE / 4) = (sx, 0) := by
      intro sx e1 e2 e3
      apply extend_heap_fail'
      · rw [e1]; exact h5
      · rw [e2, e3]
        simp only [CHUNKSIZE, WSIZE, SZ]
        norm_num
        omega
    rw [key ⟨m6, s0.mem_heap, s0.mem_brk, s0.mem_max_addr, s0.mem_fail, s0.mem_fail + DSIZE,
      s0.mem_fail + DSIZE⟩ rfl rfl rfl] at h
    simp at h

/-! ### Allocation: the three outcomes -/

theorem adjust_mod (size : Nat) : adjust size % 8 = 0 ∧ adjust size < SZ := by
  unfold adjust
  simp only [DSIZE, OVERHEAD, SZ]
  split <;> omega

theorem adjust_valid (size : Nat) (hv : size + 23 < SZ) :
    24 ≤ adjust size ∧ adjust size % 8 = 0 ∧ size + 16 ≤ adjust size
      ∧ adjust size ≤ size + 24 := by
  unfold adjust
  simp only [DSIZE, OVERHEAD, SZ] at *
  split <;> omega

theorem adjust_eq (size : Nat) (hv : size + 23 < SZ) (h8 : 8 < size) :
    adjust size = 8 * ((size + 23) / 8) := by
  unfold adjust
  simp only [DSIZE, OVERHEAD, SZ] at *
  rw [if_neg (by omega)]
  omega

theorem Rep.with_rover {s : State} {L : List Blk} {fl : List Nat} (h : Rep s L fl) (p : Nat)
    (hp : p ∈ fl) : Rep { s with rover := p } L fl :=
  { heap_pos := h.heap_pos
    brk_le := h.brk_le
    max_lt := h.max_lt
    max_half := h.max_half
    fail_half := h.fail_half
    hl := h.hl
    head := h.head
    layout := h.layout
    tags := h.tags
    epi := h.epi
    flist := h.flist
    nodup := h.nodup
    sub := h.sub
    perm := h.perm
    noadj := h.noadj
    rov := Or.inr (Or.inr hp) }

theorem MAX_chunk (asize : Nat) (h8 : asize % 8 = 0) :
    (MAX asize CHUNKSIZE / WSIZE) % 2 = 0 ∧ 6 ≤ MAX asize CHUNKSIZE / WSIZE
      ∧ MAX asize CHUNKSIZE / WSIZE * 4 = MAX asize CHUNKSIZE
      ∧ asize ≤ MAX asize CHUNKSIZE ∧ 4096 ≤ MAX asize CHUNKSIZE := by
  unfold MAX
  simp only [CHUNKSIZE, WSIZE]
  split <;> omega

/-- The three ways `mm_malloc` ends on an initialised heap, for any size. -/
theorem malloc_cases {s : State} {L : List Blk} {fl : List Nat} (h : Rep s L fl) (size : Nat)
    (hpos : 0 < size) :
    (mm_malloc s size = some (s, 0) ∧ (∀ y ∈ fl, ¬ fits s.mem (adjust size) y)
        ∧ ¬ s.mem_brk + MAX (adjust size) CHUNKSIZE ≤ s.mem_max_addr)
    ∨ (∃ p, p ≠ 0 ∧ p ∈ fl ∧ fits s.mem (adjust size) p
        ∧ mm_malloc s size = some (place { s with rover := p } p (adjust size), p))
    ∨ ((∀ y ∈ fl, ¬ fits s.mem (adjust size) y)
        ∧ s.mem_brk + MAX (adjust size) CHUNKSIZE ≤ s.mem_max_addr
        ∧ (extend_heap s (MAX (adjust size) CHUNKSIZE / WSIZE)).2 ≠ 0
        ∧ mm_malloc s size = some (place (extend_heap s (MAX (adjust size) CHUNKSIZE / WSIZE)).1
            (extend_heap s (MAX (adjust size) CHUNKSIZE / WSIZE)).2 (adjust size),
            (extend_heap s (MAX (adjust size) CHUNKSIZE / WSIZE)).2)) := by
  have hhl : s.heap_listp ≠ 0 := by have := h.toPre.brk_lt.2; omega
  obtain ⟨m8, msz⟩ := adjust_mod size
  obtain ⟨w1, w2, w3, w4, w5⟩ := MAX_chunk (adjust size) m8
  have hsz : ¬ size ≤ 0 := by omega
  obtain ⟨p, hp | hp⟩ := find_fit_spec h (adjust size)
  · obtain ⟨p0, hff, hno⟩ := hp
    by_cases hfit : s.mem_brk + MAX (adjust size) CHUNKSIZE ≤ s.mem_max_addr
    · right; right
      have hL : ∃ L0 pb, L = L0 ++ [pb] := by
        obtain ⟨L', hL'⟩ := h.head
        exact List.exists_snoc_of_ne_nil L (by rw [hL']; exact List.cons_ne_nil _ _)
      obtain ⟨L0, pb, hL⟩ := hL
      subst hL
      obtain ⟨fl', g1, g2, g3, g4, g5⟩ := extend_heap_spec h _ w1 w2 (by rw [w3]; exact hfit) _ rfl
      have hr2 : (extend_heap s (MAX (adjust size) CHUNKSIZE / WSIZE)).2 ≠ 0 := by
        rw [g2]
        have hb := h.toPre.blk (b := pb) (by simp)
        have := h.toPre.brk_lt.2
        have := h.heap_pos
        have := Layout_le _ _ _ h.layout
        split <;> omega
      refine ⟨hno, hfit, hr2, ?_⟩
      unfold mm_malloc
      simp only [hhl, if_false, hsz, hff, ne_eq, not_true_eq_false, hr2]
    · left
      have hx := extend_heap_fail h.toPre (MAX (adjust size) CHUNKSIZE / WSIZE) (by
        rw [if_neg (by omega)]
        simp only [WSIZE] at *
        rw [w3, Nat.mod_eq_of_lt (by
          have := h.max_half
          unfold MAX at *
          simp only [CHUNKSIZE, SZ] at *
          split <;> omega)]
        exact hfit)
      refine ⟨?_, hno, hfit⟩
      unfold mm_malloc
      simp only [hhl, if_false, hsz, hff, ne_eq, not_true_eq_false, hx, if_true]
  · obtain ⟨pnz, hff, hmem, hfits⟩ := hp
    right; left
    refine ⟨p, pnz, hmem, hfits, ?_⟩
    unfold mm_malloc
    simp only [hhl, if_false, hsz, hff, ne_eq, pnz, not_false_eq_true, if_true]

/-! ### Allocation: specification -/

/-- The chain after `extend_heap` ends in a free block that holds the new bytes. -/
theorem coalL_last (L0 : List Blk) (pb : Blk) (a n : Nat) :
    ∃ L1 b, coalL L0 pb ⟨a, n, false⟩ [] = L1 ++ [b] ∧ b.alloc = false ∧ n ≤ b.size
      ∧ b.addr = (if pb.alloc then a else pb.addr)
      ∧ (∀ c ∈ L0 ++ [pb], c.alloc = true → c ∈ L1) := by
  cases hpa : pb.alloc
  · refine ⟨L0, ⟨pb.addr, pb.size + n, false⟩, ?_, rfl, ?_, ?_, ?_⟩
    · simp [coalL, hpa]
    · show n ≤ pb.size + n; omega
    · simp
    · intro c hc hca
      rw [List.mem_append, List.mem_singleton] at hc
      rcases hc with hc | hc
      · exact hc
      · subst hc; rw [hpa] at hca; cases hca
  · refine ⟨L0 ++ [pb], ⟨a, n, false⟩, ?_, rfl, Nat.le_refl _, ?_, ?_⟩
    · simp [coalL, hpa]
    · simp
    · intro c hc _; exact hc

/-- `mm_malloc` on an initialised heap for a size that does not overflow:
failure leaves the state as it was; success carves the block out of a free
block of the chain, or out of the free block a heap extension ends in. -/
theorem malloc_spec {s : State} {L : List Blk} {fl : List Nat} (h : Rep s L fl) (size : Nat)
    (hpos : 0 < size) (hv : size + 23 < SZ) :
    (mm_malloc s size = some (s, 0) ∧ (∀ y ∈ fl, ¬ fits s.mem (adjust size) y)
        ∧ ¬ s.mem_brk + MAX (adjust size) CHUNKSIZE ≤ s.mem_max_addr)
    ∨ (∃ s' L1 b L2 fl', mm_malloc s size = some (s', b.addr) ∧ L = L1 ++ b :: L2
        ∧ b.alloc = false ∧ adjust size ≤ b.size
        ∧ Rep s' (L1 ++ placeBlks b (adjust size) ++ L2) fl'
        ∧ Keeps L s.heap_listp s.mem s'.mem ∧ SameEnv s s' ∧ s'.mem_brk = s.mem_brk)
    ∨ ((∀ y ∈ fl, ¬ fits s.mem (adjust size) y) ∧ ∃ s' L0 pb L1 b fl',
        mm_malloc s size = some (s', b.addr) ∧ L = L0 ++ [pb]
        ∧ coalL L0 pb ⟨s.mem_brk, MAX (adjust size) CHUNKSIZE, false⟩ [] = L1 ++ [b]
        ∧ b.alloc = false ∧ adjust size ≤ b.size
        ∧ Rep s' (L1 ++ placeBlks b (adjust size)) fl'
        ∧ Keeps L s.heap_listp s.mem s'.mem ∧ SameEnv s s'
        ∧ s'.mem_brk = s.mem_brk + MAX (adjust size) CHUNKSIZE) := by
  obtain ⟨a24, a8, alo, ahi⟩ := adjust_valid size hv
  obtain ⟨w1, w2, w3, w4, w5⟩ := MAX_chunk (adjust size) a8
  rcases malloc_cases h size hpos with hA | ⟨p, pnz, hmem, hfits, hmm⟩ | ⟨hno, hfit, hr2, hmm⟩
  · exact Or.inl hA
  · right; left
    obtain ⟨b, hbL, hba, hbf⟩ := h.sub p hmem
    obtain ⟨L1, L2, hL⟩ := List.append_of_mem hbL
    subst hL
    subst hba
    have hsz := h.toPre.hdr_size hbL
    have hle : adjust size ≤ b.size := by
      have := hfits.2
      unfold HDRP at this
      simp only [WSIZE] at this
      rw [hsz] at this
      exact this
    have h1 : Rep { s with rover := b.addr } (L1 ++ b :: L2) fl := h.with_rover b.addr hmem
    obtain ⟨fl', g1, g2, g3, g4⟩ := place_spec h1 hbf (adjust size) a24 a8 hle _ rfl
    refine ⟨_, L1, b, L2, fl', ?_, rfl, hbf, hle, ?_, g2, g3, g4⟩
    · exact hmm
    · exact g1
  · right; right
    refine ⟨hno, ?_⟩
    obtain ⟨L0, pb, hL⟩ : ∃ L0 pb, L = L0 ++ [pb] := by
      obtain ⟨L', hL'⟩ := h.head
      exact List.exists_snoc_of_ne_nil L (by rw [hL']; exact List.cons_ne_nil _ _)
    subst hL
    obtain ⟨r, hr⟩ : ∃ r : State × Nat, r = extend_heap s (MAX (adjust size) CHUNKSIZE / WSIZE) :=
      ⟨_, rfl⟩
    rw [← hr] at hmm hr2
    obtain ⟨fl1, g1, g2, g3, g4, g5⟩ := extend_heap_spec h _ w1 w2 (by rw [w3]; exact hfit) r hr
    rw [w3] at g1 g5
    obtain ⟨L1, b, e1, e2, e3, e4, e5⟩ := coalL_last L0 pb s.mem_brk (MAX (adjust size) CHUNKSIZE)
    rw [e1] at g1
    have hle : adjust size ≤ b.size := Nat.le_trans w4 e3
    have hbp : r.2 = b.addr := by rw [g2, e4]
    rw [hbp] at hmm
    obtain ⟨fl', k1, k2, k3, k4⟩ := @place_spec _ _ [] _ _ g1 e2 (adjust size) a24 a8 hle _ rfl
    refine ⟨_, L0, pb, L1, b, fl', ?_, rfl, e1, e2, hle, ?_, ?_, SameEnv_trans g4 k3, ?_⟩
    · exact hmm
    · simpa using k1
    · refine Keeps_trans g3 ?_
      rw [g4.2.2.2] at k2
      refine Keeps_mono ?_ k2
      intro c hc hca _
      exact List.mem_append_left _ (e5 c hc hca)
    · rw [k4, g5]

/-! ### Release: specification -/

/-- The memory after the two stores of `mm_free`. -/
theorem free_mem (m : Mem) (x sz : Nat) (h4 : 4 ≤ x) (h24 : 24 ≤ sz) (h8 : sz % 8 = 0)
    (hlt : sz < WD) (m2 : Mem) (hm2 : m2 = PUT (PUT m (x - 4) sz) (x + sz - 8) sz) :
    (∀ a, (a < x - 4 ∨ x + sz - 4 ≤ a) → m2 a = m a)
      ∧ (∀ a, x ≤ a → a < x + sz - 8 → m2 a = m a)
      ∧ GET m2 (x - 4) = sz ∧ GET m2 (x + sz - 8) = sz
      ∧ GET_SIZE (PUT m (x - 4) sz) (x - 4) = sz := by
  have hmod : sz % WD = sz := Nat.mod_eq_of_lt hlt
  have d1 : x + sz - 8 + 4 ≤ x - 4 ∨ x - 4 + 4 ≤ x + sz - 8 := by omega
  have f1 : ∀ a, (a < x - 4 ∨ x + sz - 4 ≤ a) → (a < x + sz - 8 ∨ x + sz - 8 + 4 ≤ a)
      ∧ (a < x - 4 ∨ x - 4 + 4 ≤ a) := by
    intro a ha; omega
  have f2 : ∀ a, x ≤ a → a < x + sz - 8 → (a < x + sz - 8 ∨ x + sz - 8 + 4 ≤ a)
      ∧ (a < x - 4 ∨ x - 4 + 4 ≤ a) := by
    intro a ha hb; omega
  subst hm2
  refine ⟨?_, ?_, ?_, ?_, ?_⟩
  · intro a ha
    obtain ⟨g1, g2⟩ := f1 a ha
    rw [PUT_byte_ne _ _ _ _ g1, PUT_byte_ne _ _ _ _ g2]
  · intro a ha hb
    obtain ⟨g1, g2⟩ := f2 a ha hb
    rw [PUT_byte_ne _ _ _ _ g1, PUT_byte_ne _ _ _ _ g2]
  · rw [GET_PUT_ne _ _ _ _ d1, GET_PUT_same, hmod]
  · rw [GET_PUT_same, hmod]
  · exact GET_SIZE_PUT_same0 _ _ _ h8 hlt

/-- An allocated block is no node of the free list. -/
theorem Pre.alloc_not_node {s : State} {L : List Blk} {fl : List Nat} (h : Pre s L fl) {b : Blk}
    (hb : b ∈ L) (ha : b.alloc = true) : b.addr ∉ fl := by
  intro hm
  obtain ⟨c, hc, e, hf⟩ := h.sub _ hm
  have := Layout_addr_inj _ _ _ h.layout c b hc hb e
  subst this
  rw [ha] at hf
  cases hf

theorem mm_free_eq (s : State) (bp : Nat) (hbp : bp ≠ 0) (hhl : s.heap_listp ≠ 0) (sz : Nat)
    (hsz : GET_SIZE s.mem (bp - 4) = sz)
    (hsz2 : GET_SIZE (PUT s.mem (bp - 4) sz) (bp - 4) = sz) :
    mm_free s bp = (coalesce { s with mem := PUT (PUT s.mem (bp - 4) sz) (bp + sz - 8) sz } bp).1 := by
  unfold mm_free
  simp only [hbp, if_false, hhl, HDRP, FTRP, WSIZE, DSIZE, hsz, PACK_zero, hsz2]

/-- `mm_free` on an allocated block `b` that follows `pb`: the chain becomes
`coalL` of the chain with `b` marked free. -/
theorem free_spec {s : State} {L1 L2 : List Blk} {pb b : Blk} {fl : List Nat}
    (h : Rep s (L1 ++ pb :: b :: L2) fl) (hb : b.alloc = true) (s' : State)
    (hs' : s' = mm_free s b.addr) :
    ∃ fl', Rep s' (coalL L1 pb ⟨b.addr, b.size, false⟩ L2) fl'
      ∧ Keeps (L1 ++ pb :: ⟨b.addr, b.size, false⟩ :: L2) s.heap_listp s.mem s'.mem
      ∧ SameEnv s s' ∧ s'.mem_brk = s.mem_brk := by
  have hbm : b ∈ L1 ++ pb :: b :: L2 := by simp
  have hbb := h.toPre.blk hbm
  have hbrk := h.toPre.brk_lt
  have hsz := h.toPre.hdr_size hbm
  have hlay := h.layout
  have hlayA : Layout ((L1 ++ [pb]) ++ b :: L2) s.heap_listp s.mem_brk := by simpa using h.layout
  obtain ⟨l1, l2, l3, l4⟩ := Layout_split _ _ _ _ _ hlayA
  have hx4 : 4 ≤ b.addr := by omega
  have hbnz : b.addr ≠ 0 := by omega
  have hhl : s.heap_listp ≠ 0 := by omega
  obtain ⟨m2, hm2⟩ : ∃ m2 : Mem, m2 = PUT (PUT s.mem (b.addr - 4) b.size) (b.addr + b.size - 8)
    b.size := ⟨_, rfl⟩
  obtain ⟨k1, k2, k3, k4, k5⟩ := free_mem s.mem b.addr b.size hx4 hbb.2.2.1 hbb.2.2.2.1
    hbb.2.2.2.2 m2 hm2
  have heq := mm_free_eq s b.addr hbnz hhl b.size hsz k5
  rw [← hm2] at heq
  have hnot := h.toPre.alloc_not_node hbm hb
  have hP : Pre { s with mem := m2 } ((L1 ++ [pb]) ++ [⟨b.addr, b.size, false⟩] ++ L2) fl := by
    refine @Pre_retag s (L1 ++ [pb]) [b] L2 fl (by simpa using h.toPre) (by simp)
      [⟨b.addr, b.size, false⟩] b.addr (b.addr + b.size) l1 l4 ⟨rfl, l2, l3, rfl⟩ m2 k1 ?_ ?_
    · intro c hc
      rw [List.mem_singleton] at hc
      subst hc
      exact ⟨by simpa [Blk.tag] using k3, by simpa [Blk.tag] using k4⟩
    · intro y hy c hc
      rw [List.mem_singleton] at hc
      subst hc
      intro e
      rw [← e] at hy
      exact hnot hy
  have hP' : Pre { s with mem := m2 } (L1 ++ pb :: ⟨b.addr, b.size, false⟩ :: L2) fl := by
    simpa using hP
  have hperm : fl.Perm (freeAddrs (L1 ++ [pb]) ++ freeAddrs L2) := by
    have := h.perm
    rw [show L1 ++ pb :: b :: L2 = (L1 ++ [pb]) ++ b :: L2 by simp, freeAddrs_append,
      freeAddrs_cons_alloc _ _ hb] at this
    exact this
  have hna : NoAdj ((L1 ++ [pb]) ++ b :: L2) := by simpa using h.noadj
  obtain ⟨fl', g1, g2, g3, g4, g5⟩ := coalesce_spec (b := ⟨b.addr, b.size, false⟩) hP' rfl hnot
    hperm (NoAdj_left hna) (NoAdj_tail (NoAdj_right hna)) h.rov _ rfl
  rw [hs', heq]
  refine ⟨fl', g1, ?_, g4, g5⟩
  intro c hc hca hne a ha1 ha2
  have e1 := g3 c hc hca hne a ha1 ha2
  rw [e1]
  show m2 a = s.mem a
  -- the two tag stores of `mm_free` lie outside the payload of `c`
  have hcne : c ≠ ⟨b.addr, b.size, false⟩ := by
    intro e; rw [e] at hca; cases hca
  have hcL : c ∈ L1 ++ pb :: b :: L2 := by
    simp only [List.mem_append, List.mem_cons] at hc ⊢
    rcases hc with hc | hc | hc | hc
    · exact Or.inl hc
    · exact Or.inr (Or.inl hc)
    · exact absurd hc hcne
    · exact Or.inr (Or.inr (Or.inr hc))
  have hcb : c.addr ≠ b.addr := by
    intro e
    have := Layout_addr_inj _ _ _ hlay c b hcL hbm e
    subst this
    simp only [List.mem_append, List.mem_cons] at hc
    have hc2 := hP'.layout
    have := Layout_addr_inj _ _ _ hc2 c ⟨c.addr, c.size, false⟩ (by
      simp only [List.mem_append, List.mem_cons]; exact hc) (by simp) rfl
    exact hcne this
  have hfar := Layout_far _ _ _ hlay c b hcL hbm hcb
  have hcblk := h.toPre.blk hcL
  exact k1 a (by omega)

/-! ### Allocation as a step on the invariant -/

theorem allocAddrs_append (A B : List Blk) :
    allocAddrs (A ++ B) = allocAddrs A ++ allocAddrs B := by
  simp [allocAddrs]

theorem allocAddrs_cons_free (b : Blk) (L : List Blk) (h : b.alloc = false) :
    allocAddrs (b :: L) = allocAddrs L := by
  simp [allocAddrs, h]

theorem allocAddrs_cons_alloc (b : Blk) (L : List Blk) (h : b.alloc = true) :
    allocAddrs (b :: L) = b.addr :: allocAddrs L := by
  simp [allocAddrs, h]

theorem mem_allocAddrs {L : List Blk} {y : Nat} :
    y ∈ allocAddrs L ↔ ∃ b ∈ L, b.addr = y ∧ b.alloc = true := by
  simp only [allocAddrs, List.mem_map, List.mem_filter]
  constructor
  · rintro ⟨b, ⟨h1, h2⟩, h3⟩; exact ⟨b, h1, h3, h2⟩
  · rintro ⟨b, h1, h3, h2⟩; exact ⟨b, ⟨h1, h2⟩, h3⟩

theorem allocAddrs_coalL (L1 L2 : List Blk) (pb b : Blk) (hb : b.alloc = false) :
    allocAddrs (coalL L1 pb b L2) = allocAddrs (L1 ++ [pb]) ++ allocAddrs L2 := by
  unfold coalL
  cases hpa : pb.alloc <;> cases L2 with
  | nil => simp [allocAddrs, hpa, hb]
  | cons nb L2' =>
    cases hna : nb.alloc <;> simp [allocAddrs, hpa, hb, hna]

theorem placeBlks_facts (b : Blk) (asize : Nat) (hle : asize ≤ b.size) :
    ∃ c, c ∈ placeBlks b asize ∧ c.addr = b.addr ∧ c.alloc = true ∧ asize ≤ c.size
      ∧ allocAddrs (placeBlks b asize) = [b.addr] := by
  unfold placeBlks
  split
  · exact ⟨⟨b.addr, asize, true⟩, by simp, rfl, rfl, Nat.le_refl _, by simp [allocAddrs]⟩
  · exact ⟨⟨b.addr, b.size, true⟩, by simp, rfl, rfl, hle, by simp [allocAddrs]⟩

theorem coalL_alloc_mem0 (L0 : List Blk) (pb b d : Blk) (hd : d ∈ L0 ++ [pb])
    (hda : d.alloc = true) : d ∈ coalL L0 pb b [] := by
  unfold coalL
  cases hpa : pb.alloc
  · simp only [List.mem_append, List.mem_singleton] at hd ⊢
    rcases hd with hd | hd
    · exact Or.inl hd
    · rw [hd, hpa] at hda; cases hda
  · simp only [List.mem_append, List.mem_singleton, List.mem_cons, List.not_mem_nil,
      or_false] at hd ⊢
    rcases hd with hd | hd
    · exact Or.inl hd
    · exact Or.inr (Or.inl hd)

/-- What a call of `mm_malloc` does to an initialised heap. -/
theorem malloc_step {s s' : State} {L : List Blk} {fl : List Nat} {size p : Nat}
    (h : Rep s L fl) (hv : size + 23 < SZ) (hm : mm_malloc s size = some (s', p)) :
    (p = 0 ∧ s' = s) ∨ (p ≠ 0 ∧ 0 < size ∧ ∃ L' fl' c, Rep s' L' fl' ∧ c ∈ L' ∧ c.addr = p
      ∧ c.alloc = true ∧ adjust size ≤ c.size ∧ (allocAddrs L').Perm (p :: allocAddrs L)
      ∧ Keeps L s.heap_listp s.mem s'.mem ∧ SameEnv s s' ∧ s.mem_brk ≤ s'.mem_brk
      ∧ (∀ d ∈ L, d.alloc = true → d ∈ L')) := by
  have hhl : s.heap_listp ≠ 0 := by have := h.toPre.brk_lt.2; omega
  by_cases hpos : 0 < size
  · rcases malloc_spec h size hpos hv with ⟨e, _, _⟩
      | ⟨s1, L1, b, L2, fl', e, hL, hbf, hle, hrep, hk, henv, hbrk⟩
      | ⟨_, s1, L0, pb, L1, b, fl', e, hL, hco, hbf, hle, hrep, hk, henv, hbrk⟩
    · rw [e] at hm
      have := Option.some.inj hm
      left
      exact ⟨(Prod.mk.inj this).2.symm, (Prod.mk.inj this).1.symm⟩
    · rw [e] at hm
      have := Option.some.inj hm
      obtain ⟨e1, e2⟩ := Prod.mk.inj this
      subst e1 e2
      subst hL
      have hbb := h.toPre.blk (b := b) (by simp)
      have hh := h.toPre.brk_lt.2
      obtain ⟨c, c1, c2, c3, c4, c5⟩ := placeBlks_facts b (adjust size) hle
      right
      refine ⟨by omega, hpos, _, fl', c, hrep, ?_, c2, c3, c4, ?_, hk, henv, by omega, ?_⟩
      · simp only [List.mem_append]; exact Or.inl (Or.inr c1)
      · rw [allocAddrs_append, allocAddrs_append, c5, allocAddrs_append,
          allocAddrs_cons_free _ _ hbf]
        simpa using List.perm_middle
      · intro d hd hda
        simp only [List.mem_append, List.mem_cons] at hd ⊢
        rcases hd with hd | hd | hd
        · exact Or.inl (Or.inl hd)
        · rw [hd, hbf] at hda; cases hda
        · exact Or.inr hd
    · rw [e] at hm
      have := Option.some.inj hm
      obtain ⟨e1, e2⟩ := Prod.mk.inj this
      subst e1 e2
      subst hL
      obtain ⟨c, c1, c2, c3, c4, c5⟩ := placeBlks_facts b (adjust size) hle
      have hcb := hrep.toPre.blk (b := c) (by simp only [List.mem_append]; exact Or.inr c1)
      have hh := hrep.toPre.brk_lt.2
      right
      refine ⟨by omega, hpos, _, fl', c, hrep, ?_, c2, c3, c4, ?_, hk, henv, by omega, ?_⟩
      rotate_left 2
      · intro d hd hda
        have h3 := coalL_alloc_mem0 L0 pb ⟨s.mem_brk, MAX (adjust size) CHUNKSIZE, false⟩ d hd hda
        rw [hco] at h3
        simp only [List.mem_append, List.mem_singleton] at h3 ⊢
        rcases h3 with h3 | h3
        · exact Or.inl h3
        · rw [h3, hbf] at hda; cases hda
      · simp only [List.mem_append]; exact Or.inr c1
      · have h1 := allocAddrs_coalL L0 [] pb ⟨s.mem_brk, MAX (adjust size) CHUNKSIZE, false⟩ rfl
        rw [hco, allocAddrs_append, allocAddrs_cons_free _ _ hbf] at h1
        have h2 : allocAddrs L1 = allocAddrs (L0 ++ [pb]) := by
          simpa [allocAddrs] using h1
        rw [allocAddrs_append, c5, h2]
        exact List.perm_append_comm
  · have hz : size = 0 := by omega
    subst hz
    unfold mm_malloc at hm
    simp only [hhl, if_false, Nat.le_refl, if_true] at hm
    have := Option.some.inj hm
    left
    exact ⟨(Prod.mk.inj this).2.symm, (Prod.mk.inj this).1.symm⟩

/-! ### Release as a step; stores into a payload -/

theorem coalL_alloc_mem (L1 L2 : List Blk) (pb b d : Blk) (hd : d ∈ L1 ++ pb :: b :: L2)
    (hda : d.alloc = true) (hb : b.alloc = false) : d ∈ coalL L1 pb b L2 := by
  have hdb : d ≠ b := by intro e; rw [e, hb] at hda; cases hda
  simp only [List.mem_append, List.mem_cons] at hd
  unfold coalL
  cases hpa : pb.alloc <;> cases L2 with
  | nil =>
    simp only [List.mem_append, List.mem_cons, List.mem_singleton, List.not_mem_nil,
      or_false] at hd ⊢
    rcases hd with hd | hd | hd
    · exact Or.inl hd
    · first
        | exact Or.inr (Or.inl hd)
        | (rw [hd, hpa] at hda; cases hda)
    · exact absurd hd hdb
  | cons nb L2' =>
    cases hna : nb.alloc <;>
    · simp only [hna, List.mem_append, List.mem_cons, if_true, if_false, Bool.false_eq_true] at hd ⊢
      rcases hd with hd | hd | hd | hd | hd
      · exact Or.inl hd
      · first
          | exact Or.inr (Or.inl hd)
          | (rw [hd, hpa] at hda; cases hda)
      · exact absurd hd hdb
      · first
          | exact Or.inr (Or.inr (Or.inr (Or.inl hd)))
          | exact Or.inr (Or.inr (Or.inl hd))
          | (rw [hd, hna] at hda; cases hda)
      · first
          | exact Or.inr (Or.inr (Or.inr (Or.inr hd)))
          | exact Or.inr (Or.inr (Or.inr hd))
          | exact Or.inr (Or.inr hd)
          | exact Or.inr hd

/-- A block other than the first has a predecessor in the chain. -/
theorem Pre.split_at {s : State} {L : List Blk} {fl : List Nat} (h : Pre s L fl) {c : Blk}
    (hc : c ∈ L) (hne : c.addr ≠ s.heap_listp) : ∃ L1 pb L2, L = L1 ++ pb :: c :: L2 := by
  obtain ⟨A, B, hL⟩ := List.append_of_mem hc
  have hA : A ≠ [] := by
    intro e
    subst e
    obtain ⟨L', hL'⟩ := h.head
    rw [hL'] at hL
    have := (List.cons.inj hL).1
    apply hne
    rw [← this]
  obtain ⟨L1, pb, e⟩ := List.exists_snoc_of_ne_nil A hA
  exact ⟨L1, pb, B, by rw [hL, e]; simp⟩

/-- What `mm_free` does to an initialised heap when given a block it handed out. -/
theorem free_step {s : State} {L : List Blk} {fl : List Nat} (h : Rep s L fl) {c : Blk}
    (hc : c ∈ L) (hca : c.alloc = true) (hne : c.addr ≠ s.heap_listp) :
    ∃ L' fl', Rep (mm_free s c.addr) L' fl'
      ∧ (allocAddrs L').Perm ((allocAddrs L).erase c.addr)
      ∧ SameEnv s (mm_free s c.addr) ∧ (mm_free s c.addr).mem_brk = s.mem_brk
      ∧ (∀ d ∈ L, d.alloc = true → d ≠ c → d ∈ L' ∧ (d.addr ≠ s.heap_listp →
          ∀ a, d.addr ≤ a → a < d.addr + d.size - 8 → (mm_free s c.addr).mem a = s.mem a)) := by
  obtain ⟨L1, pb, L2, hL⟩ := h.toPre.split_at hc hne
  subst hL
  obtain ⟨fl', g1, g2, g3, g4⟩ := free_spec h hca _ rfl
  refine ⟨_, fl', g1, ?_, g3, g4, ?_⟩
  · rw [allocAddrs_coalL _ _ _ _ rfl]
    apply List.Perm.symm
    apply perm_erase_mid
    rw [show L1 ++ pb :: c :: L2 = (L1 ++ [pb]) ++ c :: L2 by simp, allocAddrs_append,
      allocAddrs_cons_alloc _ _ hca]
  · intro d hd hda hdc
    have hd' : d ∈ L1 ++ pb :: ⟨c.addr, c.size, false⟩ :: L2 := by
      simp only [List.mem_append, List.mem_cons] at hd ⊢
      rcases hd with hd | hd | hd | hd
      · exact Or.inl hd
      · exact Or.inr (Or.inl hd)
      · exact absurd hd hdc
      · exact Or.inr (Or.inr (Or.inr hd))
    refine ⟨coalL_alloc_mem _ _ _ _ _ hd' hda rfl, ?_⟩
    intro hdn a ha1 ha2
    exact g2 d hd' hda hdn a ha1 ha2

/-- A store into the payload of an allocated block keeps the invariant. -/
theorem Rep_payload {s : State} {L : List Blk} {fl : List Nat} (h : Rep s L fl) {c : Blk}
    (hc : c ∈ L) (hca : c.alloc = true) (hne : c.addr ≠ s.heap_listp) (m' : Mem)
    (hfr : ∀ a, (a < c.addr ∨ c.addr + c.size - 8 ≤ a) → m' a = s.mem a) :
    Rep { s with mem := m' } L fl := by
  obtain ⟨L1, pb, L2, hL⟩ := h.toPre.split_at hc hne
  subst hL
  have hcb := h.toPre.blk hc
  have hbrk := h.toPre.brk_lt
  have htag := h.tags c hc
  have hlayA : Layout ((L1 ++ [pb]) ++ c :: L2) s.heap_listp s.mem_brk := by simpa using h.layout
  obtain ⟨l1, l2, l3, l4⟩ := Layout_split _ _ _ _ _ hlayA
  have hnot := h.toPre.alloc_not_node hc hca
  have f1 : ∀ a, (a < c.addr - 4 ∨ c.addr + c.size - 4 ≤ a) →
      (a < c.addr ∨ c.addr + c.size - 8 ≤ a) := by intro a ha; omega
  have f2 : ∀ a, c.addr - 4 ≤ a → a < c.addr - 4 + 4 → (a < c.addr ∨ c.addr + c.size - 8 ≤ a) := by
    intro a ha hb; omega
  have f3 : ∀ a, c.addr + c.size - 8 ≤ a → a < c.addr + c.size - 8 + 4 →
      (a < c.addr ∨ c.addr + c.size - 8 ≤ a) := by
    intro a ha hb; omega
  have hP : Pre { s with mem := m' } ((L1 ++ [pb]) ++ [c] ++ L2) fl := by
    refine @Pre_retag s (L1 ++ [pb]) [c] L2 fl (by simpa using h.toPre) (by simp)
      [c] c.addr (c.addr + c.size) l1 l4 ⟨rfl, l2, l3, rfl⟩ m' (fun a ha => hfr a (f1 a ha)) ?_ ?_
    · intro d hd
      rw [List.mem_singleton] at hd
      subst hd
      rw [GET_congr s.mem m' _ (fun a ha1 ha2 => hfr a (f2 a ha1 ha2)),
        GET_congr s.mem m' _ (fun a ha1 ha2 => hfr a (f3 a ha1 ha2))]
      exact htag
    · intro y hy d hd
      rw [List.mem_singleton] at hd
      subst hd
      intro e
      rw [← e] at hy
      exact hnot hy
  have hP' : Pre { s with mem := m' } (L1 ++ pb :: c :: L2) fl := by simpa using hP
  exact { toPre := hP', perm := h.perm, noadj := h.noadj, rov := h.rov }

/-! ### Resize: the stores and the three paths -/

/-- The memory after the four stores of the in-place split of `mm_realloc`. -/
theorem realloc_mem (m : Mem) (x A R : Nat) (h4 : 4 ≤ x) (hA : 24 ≤ A) (hA8 : A % 8 = 0)
    (hR : 24 ≤ R) (hR8 : R % 8 = 0) (hlt : A + R < WD) (m4 : Mem)
    (hm4 : m4 = PUT (PUT (PUT (PUT m (x - 4) (A + 1)) (x + A - 8) (A + 1)) (x + A - 4) (R + 1))
      (x + A + R - 8) (R + 1)) :
    (∀ a, (a < x - 4 ∨ x + A + R - 4 ≤ a) → m4 a = m a)
      ∧ (∀ a, x ≤ a → a < x + A - 8 → m4 a = m a)
      ∧ GET m4 (x - 4) = A + 1 ∧ GET m4 (x + A - 8) = A + 1
      ∧ GET m4 (x + A - 4) = R + 1 ∧ GET m4 (x + A + R - 8) = R + 1
      ∧ GET_SIZE (PUT m (x - 4) (A + 1)) (x - 4) = A
      ∧ GET_SIZE (PUT (PUT m (x - 4) (A + 1)) (x + A - 8) (A + 1)) (x - 4) = A
      ∧ GET_SIZE (PUT (PUT (PUT m (x - 4) (A + 1)) (x + A - 8) (A + 1)) (x + A - 4) (R + 1))
          (x + A - 4) = R := by
  have hmA : (A + 1) % WD = A + 1 := Nat.mod_eq_of_lt (by omega)
  have hmR : (R + 1) % WD = R + 1 := Nat.mod_eq_of_lt (by omega)
  have hAlt : A < WD := by omega
  have hRlt : R < WD := by omega
  have d1 : x + A - 8 + 4 ≤ x - 4 ∨ x - 4 + 4 ≤ x + A - 8 := by omega
  have d2 : x + A - 4 + 4 ≤ x - 4 ∨ x - 4 + 4 ≤ x + A - 4 := by omega
  have d3 : x + A + R - 8 + 4 ≤ x - 4 ∨ x - 4 + 4 ≤ x + A + R - 8 := by omega
  have d4 : x + A - 4 + 4 ≤ x + A - 8 ∨ x + A - 8 + 4 ≤ x + A - 4 := by omega
  have d5 : x + A + R - 8 + 4 ≤ x + A - 8 ∨ x + A - 8 + 4 ≤ x + A + R - 8 := by omega
  have d6 : x + A + R - 8 + 4 ≤ x + A - 4 ∨ x + A - 4 + 4 ≤ x + A + R - 8 := by omega
  have f1 : ∀ a, (a < x - 4 ∨ x + A + R - 4 ≤ a) → (a < x + A + R - 8 ∨ x + A + R - 8 + 4 ≤ a)
      ∧ (a < x + A - 4 ∨ x + A - 4 + 4 ≤ a) ∧ (a < x + A - 8 ∨ x + A - 8 + 4 ≤ a)
      ∧ (a < x - 4 ∨ x - 4 + 4 ≤ a) := by
    intro a ha; omega
  have f2 : ∀ a, x ≤ a → a < x + A - 8 → (a < x + A + R - 8 ∨ x + A + R - 8 + 4 ≤ a)
      ∧ (a < x + A - 4 ∨ x + A - 4 + 4 ≤ a) ∧ (a < x + A - 8 ∨ x + A - 8 + 4 ≤ a)
      ∧ (a < x - 4 ∨ x - 4 + 4 ≤ a) := by
    intro a ha hb; omega
  subst hm4
  refine ⟨?_, ?_, ?_, ?_, ?_, ?_, ?_, ?_, ?_⟩
  · intro a ha
    obtain ⟨g1, g2, g3, g4⟩ := f1 a ha
    rw [PUT_byte_ne _ _ _ _ g1, PUT_byte_ne _ _ _ _ g2, PUT_byte_ne _ _ _ _ g3,
      PUT_byte_ne _ _ _ _ g4]
  · intro a ha hb
    obtain ⟨g1, g2, g3, g4⟩ := f2 a ha hb
    rw [PUT_byte_ne _ _ _ _ g1, PUT_byte_ne _ _ _ _ g2, PUT_byte_ne _ _ _ _ g3,
      PUT_byte_ne _ _ _ _ g4]
  · rw [GET_PUT_ne _ _ _ _ d3, GET_PUT_ne _ _ _ _ d2, GET_PUT_ne _ _ _ _ d1, GET_PUT_same, hmA]
  · rw [GET_PUT_ne _ _ _ _ d5, GET_PUT_ne _ _ _ _ d4, GET_PUT_same, hmA]
  · rw [GET_PUT_ne _ _ _ _ d6, GET_PUT_same, hmR]
  · rw [GET_PUT_same, hmR]
  · exact GET_SIZE_PUT_same1 _ _ _ hA8 hAlt
  · rw [GET_SIZE_PUT_ne _ _ _ _ d1]; exact GET_SIZE_PUT_same1 _ _ _ hA8 hAlt
  · exact GET_SIZE_PUT_same1 _ _ _ hR8 hRlt

/-- The in-place split of `mm_realloc`, with the reads it makes resolved. -/
theorem realloc_split_eq (s : State) (ptr size c A R : Nat) (hsz : size ≠ 0) (hptr : ptr ≠ 0)
    (hold : GET_SIZE s.mem (ptr - 4) = c) (hA : adjust size = A)
    (h1 : ¬ (A ≤ c ∧ (c + SZ - size) % SZ ≤ 24)) (h2 : (A + 24) % SZ ≤ c)
    (hR : (c + SZ - A) % SZ = R) (hpA : PACK A 1 = A + 1) (hpR : PACK R 1 = R + 1)
    (e1 : GET_SIZE (PUT s.mem (ptr - 4) (A + 1)) (ptr - 4) = A)
    (e2 : GET_SIZE (PUT (PUT s.mem (ptr - 4) (A + 1)) (ptr + A - 8) (A + 1)) (ptr - 4) = A)
    (e3 : GET_SIZE (PUT (PUT (PUT s.mem (ptr - 4) (A + 1)) (ptr + A - 8) (A + 1))
      (ptr + A - 4) (R + 1)) (ptr + A - 4) = R) (m4 : Mem)
    (hm4 : m4 = PUT (PUT (PUT (PUT s.mem (ptr - 4) (A + 1)) (ptr + A - 8) (A + 1))
      (ptr + A - 4) (R + 1)) (ptr + A + R - 8) (R + 1)) :
    mm_realloc s ptr size = some (mm_free { s with mem := m4 } (ptr + A), ptr) := by
  subst hm4
  unfold mm_realloc
  simp only [hsz, hptr, if_false, HDRP, FTRP, NEXT_BLKP, WSIZE, DSIZE, MINIMUM, hold, hA, h1, h2,
    if_true, hR, hpA, hpR, e1, e2, e3]

/-- The reuse case of `mm_realloc`. -/
theorem realloc_reuse_eq (s : State) (ptr size c : Nat) (hsz : size ≠ 0) (hptr : ptr ≠ 0)
    (hold : GET_SIZE s.mem (ptr - 4) = c)
    (h1 : adjust size ≤ c ∧ (c + SZ - size) % SZ ≤ 24) :
    mm_realloc s ptr size = some (s, ptr) := by
  unfold mm_realloc
  simp only [hsz, hptr, if_false, HDRP, WSIZE, MINIMUM, hold, h1, and_self, if_true]

/-- The relocation case of `mm_realloc`. -/
theorem realloc_move_eq (s : State) (ptr size c : Nat) (hsz : size ≠ 0) (hptr : ptr ≠ 0)
    (hold : GET_SIZE s.mem (ptr - 4) = c)
    (h1 : ¬ (adjust size ≤ c ∧ (c + SZ - size) % SZ ≤ 24)) (h2 : ¬ (adjust size + 24) % SZ ≤ c)
    (s1 : State) (q : Nat) (hm : mm_malloc s size = some (s1, q)) :
    mm_realloc s ptr size = (if q = 0 then some (s1, 0)
      else some (mm_free
        { s1 with mem := memcpy s1.mem q ptr (if size < c then size else c) } ptr, q)) := by
  unfold mm_realloc
  simp only [hsz, hptr, if_false, HDRP, WSIZE, MINIMUM, hold, h1, h2, hm]

theorem realloc_move_none (s : State) (ptr size c : Nat) (hsz : size ≠ 0) (hptr : ptr ≠ 0)
    (hold : GET_SIZE s.mem (ptr - 4) = c)
    (h1 : ¬ (adjust size ≤ c ∧ (c + SZ - size) % SZ ≤ 24)) (h2 : ¬ (adjust size + 24) % SZ ≤ c)
    (hm : mm_malloc s size = none) : mm_realloc s ptr size = none := by
  unfold mm_realloc
  simp only [hsz, hptr, if_false, HDRP, WSIZE, MINIMUM, hold, h1, h2, hm]

/-! ### Resize: in-place split -/

theorem adjust_lt (size : Nat) (hv : ValidSize size) : adjust size + 24 < SZ := by
  unfold ValidSize at hv
  unfold adjust
  simp only [DSIZE, OVERHEAD, SZ] at *
  split <;> omega

/-- The in-place split of `mm_realloc`: the block `c` becomes an allocated
block of `A` bytes and a remainder that is released. -/
theorem realloc_split_step {s : State} {L1 L2 : List Blk} {pb c : Blk} {fl : List Nat}
    (h : Rep s (L1 ++ pb :: c :: L2) fl) (hca : c.alloc = true) (A : Nat) (hA24 : 24 ≤ A)
    (hA8 : A % 8 = 0) (hle : A + 24 ≤ c.size) (m4 : Mem)
    (hm4 : m4 = PUT (PUT (PUT (PUT s.mem (c.addr - 4) (A + 1)) (c.addr + A - 8) (A + 1))
      (c.addr + A - 4) (c.size - A + 1)) (c.addr + A + (c.size - A) - 8) (c.size - A + 1))
    (s' : State) (hs' : s' = mm_free { s with mem := m4 } (c.addr + A)) :
    ∃ fl', Rep s' (coalL (L1 ++ [pb]) ⟨c.addr, A, true⟩ ⟨c.addr + A, c.size - A, false⟩ L2) fl'
      ∧ SameEnv s s' ∧ s'.mem_brk = s.mem_brk
      ∧ (∀ a, c.addr ≤ a → a < c.addr + A - 8 → s'.mem a = s.mem a) := by
  have hcm : c ∈ L1 ++ pb :: c :: L2 := by simp
  have hcb := h.toPre.blk hcm
  have hbrk := h.toPre.brk_lt
  have hlayA : Layout ((L1 ++ [pb]) ++ c :: L2) s.heap_listp s.mem_brk := by simpa using h.layout
  obtain ⟨l1, l2, l3, l4⟩ := Layout_split _ _ _ _ _ hlayA
  have hnot := h.toPre.alloc_not_node hcm hca
  have hx4 : 4 ≤ c.addr := by omega
  have hR24 : 24 ≤ c.size - A := by omega
  have hR8 : (c.size - A) % 8 = 0 := by omega
  have hlt : A + (c.size - A) < WD := by omega
  have hsum : c.addr + A + (c.size - A) = c.addr + c.size := by omega
  have hne1 : c.addr ≠ s.heap_listp := by
    have hl1 : L1 ++ [pb] ≠ [] := by simp
    have := Layout_length _ _ _ l1
    have : 0 < (L1 ++ [pb]).length := List.length_pos.mpr hl1
    omega
  clear hbrk hcb
  obtain ⟨k1, k2', k2, k3, k4, k6, _, _, _⟩ := realloc_mem s.mem c.addr A (c.size - A) hx4 hA24 hA8
    hR24 hR8 hlt m4 hm4
  rw [hsum] at k1 k6
  have hP : Pre { s with mem := m4 }
      ((L1 ++ [pb]) ++ [⟨c.addr, A, true⟩, ⟨c.addr + A, c.size - A, true⟩] ++ L2) fl := by
    refine @Pre_retag s (L1 ++ [pb]) [c] L2 fl (by simpa using h.toPre) (by simp)
      [⟨c.addr, A, true⟩, ⟨c.addr + A, c.size - A, true⟩] c.addr (c.addr + c.size) l1 l4
      ⟨rfl, hA24, hA8, rfl, hR24, hR8, hsum⟩ m4 k1 ?_ ?_
    · intro d hd
      simp only [List.mem_cons, List.mem_singleton, List.not_mem_nil, or_false] at hd
      rcases hd with hd | hd
      · subst hd
        exact ⟨by simpa [Blk.tag] using k2, by simpa [Blk.tag] using k3⟩
      · subst hd
        refine ⟨by simpa [Blk.tag] using k4, ?_⟩
        show GET m4 (c.addr + A + (c.size - A) - 8) = _
        rw [hsum]
        simpa [Blk.tag] using k6
    · intro y hy d hd
      rw [List.mem_singleton] at hd
      subst hd
      intro e
      rw [← e] at hy
      exact hnot hy
  have hna : NoAdj ((L1 ++ [pb]) ++ c :: L2) := by simpa using h.noadj
  have hR : Rep { s with mem := m4 }
      ((L1 ++ [pb]) ++ ⟨c.addr, A, true⟩ :: ⟨c.addr + A, c.size - A, true⟩ :: L2) fl :=
    { toPre := by simpa using hP
      perm := by
        have := h.perm
        rw [show L1 ++ pb :: c :: L2 = (L1 ++ [pb]) ++ c :: L2 by simp, freeAddrs_append,
          freeAddrs_cons_alloc _ _ hca] at this
        rw [freeAddrs_append, freeAddrs_cons_alloc _ _ rfl, freeAddrs_cons_alloc _ _ rfl]
        exact this
      noadj := by
        apply NoAdj_glue
        · have h1 : NoAdj ((L1 ++ [pb]) ++ [c]) :=
            @NoAdj_left ((L1 ++ [pb]) ++ [c]) L2 (by simpa using hna)
          exact NoAdj_last _ c _ h1 (by rw [hca])
        · exact NoAdj_head _ c _ (NoAdj_right hna) (by rw [hca])
        · exact Or.inl rfl
      rov := h.rov }
  obtain ⟨fl', g1, g2, g3, g4⟩ := free_spec (b := ⟨c.addr + A, c.size - A, true⟩) hR rfl s' hs'
  refine ⟨fl', g1, g3, g4, ?_⟩
  intro a ha1 ha2
  have := g2 ⟨c.addr, A, true⟩ (by simp) rfl hne1 a ha1 ha2
  rw [this]
  exact k2' a ha1 ha2

/-! ### Resize: relocation -/

theorem Layout_addr_nodup (L : List Blk) (lo hi : Nat) (h : Layout L lo hi) :
    (L.map Blk.addr).Nodup := by
  induction L generalizing lo with
  | nil => exact List.nodup_nil
  | cons b bs ih =>
    obtain ⟨h1, h2, h3, h4⟩ := h
    rw [List.map_cons, List.nodup_cons]
    refine ⟨?_, ih _ h4⟩
    intro hm
    obtain ⟨d, hd, e⟩ := List.mem_map.mp hm
    have := Layout_mem _ _ _ h4 d hd
    omega

theorem Pre.alloc_nodup {s : State} {L : List Blk} {fl : List Nat} (h : Pre s L fl) :
    (allocAddrs L).Nodup := by
  have h1 := Layout_addr_nodup _ _ _ h.layout
  exact List.Nodup.sublist (List.Sublist.map _ (List.filter_sublist _)) h1

/-- The relocation case of `mm_realloc` after a successful `mm_malloc`. -/
theorem realloc_move_step {s s1 : State} {L : List Blk} {fl : List Nat} {c : Blk} {size q : Nat}
    (h : Rep s L fl) (hc : c ∈ L) (hca : c.alloc = true) (hne : c.addr ≠ s.heap_listp)
    (hv : size + 23 < SZ) (hm : mm_malloc s size = some (s1, q)) (hq : q ≠ 0) (k : Nat)
    (hk : k = if size < c.size then size else c.size) (s' : State)
    (hs' : s' = mm_free { s1 with mem := memcpy s1.mem q c.addr k } c.addr) :
    ∃ L' fl' c', Rep s' L' fl' ∧ c' ∈ L' ∧ c'.addr = q ∧ c'.alloc = true
      ∧ adjust size ≤ c'.size ∧ (allocAddrs L').Perm (q :: (allocAddrs L).erase c.addr)
      ∧ q ≠ c.addr ∧ SameEnv s s' ∧ s.mem_brk ≤ s'.mem_brk
      ∧ (∀ i, i < size → i + 8 < c.size → s'.mem (q + i) = s.mem (c.addr + i)) := by
  obtain ⟨a24, a8, alo, ahi⟩ := adjust_valid size hv
  rcases malloc_step h hv hm with ⟨e, _⟩ | ⟨_, hpos, L1, fl1, c', r1, r2, r3, r4, r5, r6, r7, r8,
    r9, r10⟩
  · exact absurd e hq
  have hc1 : c ∈ L1 := r10 c hc hca
  have hcb := h.toPre.blk hc
  have hc'b := r1.toPre.blk r2
  have hqc : q ≠ c.addr := by
    intro e
    have hnd := (List.Perm.nodup_iff r6).mp r1.toPre.alloc_nodup
    rw [List.nodup_cons] at hnd
    apply hnd.1
    rw [e]
    exact mem_allocAddrs.mpr ⟨c, hc, rfl, hca⟩
  have hne1 : c.addr ≠ s1.heap_listp := by rw [r8.2.2.2]; exact hne
  have hq1 : c'.addr ≠ s1.heap_listp := by
    intro e
    obtain ⟨L', hL'⟩ := h.head
    have hp : s.heap_listp ∈ allocAddrs L := by
      rw [hL']; simp [allocAddrs]
    have hnd := (List.Perm.nodup_iff r6).mp r1.toPre.alloc_nodup
    rw [List.nodup_cons] at hnd
    apply hnd.1
    rw [← r3, e, r8.2.2.2]
    exact hp
  have hkle : k ≤ size ∧ k ≤ c.size := by rw [hk]; split <;> omega
  have hfar := Layout_far _ _ _ r1.layout c' c r2 hc1 (by rw [r3]; exact hqc)
  -- the copy stays inside the payload of the new block
  have hfr : ∀ a, (a < c'.addr ∨ c'.addr + c'.size - 8 ≤ a) →
      memcpy s1.mem q c.addr k a = s1.mem a := by
    intro a ha
    unfold memcpy
    rw [if_neg (by omega)]
  have hcopy : ∀ i, i < k → memcpy s1.mem q c.addr k (q + i) = s1.mem (c.addr + i) := by
    intro i hi
    unfold memcpy
    rw [if_pos (by omega), Nat.add_sub_cancel_left]
  have hR2 := Rep_payload r1 r2 r4 hq1 _ hfr
  obtain ⟨L2, fl2, g1, g2, g3, g4, g5⟩ := free_step hR2 hc1 hca hne1
  have hc'c : c' ≠ c := by intro e; rw [e] at r3; exact hqc r3.symm
  obtain ⟨g6, g7⟩ := g5 c' r2 r4 hc'c
  rw [← hs'] at g1 g3 g4 g7
  refine ⟨L2, fl2, c', g1, g6, r3, r4, r5, ?_, hqc, SameEnv_trans r8 g3, ?_, ?_⟩
  · refine g2.trans ?_
    have := List.Perm.erase c.addr r6
    rw [List.erase_cons_tail (by simpa using hqc)] at this
    exact this
  · rw [g4]; exact r9
  · intro i hi1 hi2
    have e1 := g7 hq1 (q + i) (by omega) (by omega)
    rw [e1]
    show memcpy s1.mem q c.addr k (q + i) = _
    rw [hcopy i (by rw [hk]; split <;> omega)]
    exact r7 c hc hca hne (c.addr + i) (by omega) (by omega)

/-! ### Resize as a step -/

/-- What `mm_realloc` does to an initialised heap when given a block it handed
out and a valid non-zero size. -/
theorem realloc_step {s s' : State} {L : List Blk} {fl : List Nat} {c : Blk} {size q : Nat}
    (h : Rep s L fl) (hc : c ∈ L) (hca : c.alloc = true) (hne : c.addr ≠ s.heap_listp)
    (hsz : size ≠ 0) (hv : ValidSize size) (hm : mm_realloc s c.addr size = some (s', q)) :
    (q = 0 ∧ s' = s) ∨ (q ≠ 0 ∧ ∃ L' fl' c', Rep s' L' fl' ∧ c' ∈ L' ∧ c'.addr = q
      ∧ c'.alloc = true ∧ adjust size ≤ c'.size
      ∧ (allocAddrs L').Perm (if q = c.addr then allocAddrs L else q :: (allocAddrs L).erase c.addr)
      ∧ SameEnv s s' ∧ s.mem_brk ≤ s'.mem_brk
      ∧ (∀ i, i < size → i + 8 < c.size → s'.mem (q + i) = s.mem (c.addr + i))) := by
  have hv23 : size + 23 < SZ := by unfold ValidSize at hv; omega
  obtain ⟨a24, a8, alo, ahi⟩ := adjust_valid size hv23
  have alt := adjust_lt size hv
  have hcb := h.toPre.blk hc
  have hbrk := h.toPre.brk_lt
  have hold := h.toPre.hdr_size hc
  have hptr : c.addr ≠ 0 := by omega
  by_cases h1 : adjust size ≤ c.size ∧ (c.size + SZ - size) % SZ ≤ 24
  · rw [realloc_reuse_eq s c.addr size c.size hsz hptr hold h1] at hm
    obtain ⟨e1, e2⟩ := Prod.mk.inj (Option.some.inj hm)
    subst e1 e2
    right
    exact ⟨hptr, L, fl, c, h, hc, rfl, hca, h1.1, by rw [if_pos rfl], SameEnv_refl _,
      Nat.le_refl _, fun i _ _ => rfl⟩
  by_cases h2 : (adjust size + 24) % SZ ≤ c.size
  · have h2' : adjust size + 24 ≤ c.size := by
      rw [Nat.mod_eq_of_lt alt] at h2; exact h2
    have hR : (c.size + SZ - adjust size) % SZ = c.size - adjust size := by
      simp only [WD, SZ] at *
      omega
    have hR24 : 24 ≤ c.size - adjust size := by omega
    have hR8 : (c.size - adjust size) % 8 = 0 := by omega
    have hlt : adjust size + (c.size - adjust size) < WD := by omega
    obtain ⟨m4, hm4⟩ : ∃ m4 : Mem, m4 = PUT (PUT (PUT (PUT s.mem (c.addr - 4) (adjust size + 1))
        (c.addr + adjust size - 8) (adjust size + 1)) (c.addr + adjust size - 4)
        (c.size - adjust size + 1)) (c.addr + adjust size + (c.size - adjust size) - 8)
        (c.size - adjust size + 1) := ⟨_, rfl⟩
    obtain ⟨_, _, _, _, _, _, e1, e2, e3⟩ := realloc_mem s.mem c.addr (adjust size)
      (c.size - adjust size) (by omega) a24 a8 hR24 hR8 hlt m4 hm4
    rw [realloc_split_eq s c.addr size c.size (adjust size) (c.size - adjust size) hsz hptr hold
      rfl h1 h2 hR (PACK_one _ a8) (PACK_one _ hR8) e1 e2 e3 m4 hm4] at hm
    obtain ⟨e4, e5⟩ := Prod.mk.inj (Option.some.inj hm)
    obtain ⟨L1, pb, L2, hL⟩ := h.toPre.split_at hc hne
    subst hL
    obtain ⟨fl', g1, g2, g3, g4⟩ := realloc_split_step h hca (adjust size) a24 a8 h2' m4 hm4 s'
      e4.symm
    right
    refine ⟨by omega, _, fl', ⟨c.addr, adjust size, true⟩, g1, ?_, e5, rfl, Nat.le_refl _,
      ?_, g2, by omega, ?_⟩
    · exact coalL_alloc_mem _ _ _ _ _ (by simp) rfl rfl
    · rw [if_pos e5.symm, allocAddrs_coalL _ _ _ _ rfl]
      have e6 : allocAddrs (L1 ++ [pb] ++ [⟨c.addr, adjust size, true⟩]) ++ allocAddrs L2
          = allocAddrs (L1 ++ pb :: c :: L2) := by
        cases hpa : pb.alloc <;> simp [allocAddrs, hca, hpa]
      rw [e6]
    · intro i hi1 hi2
      rw [← e5]
      exact g4 (c.addr + i) (by omega) (by omega)
  · cases hmm : mm_malloc s size with
    | none =>
      rw [realloc_move_none s c.addr size c.size hsz hptr hold h1 h2 hmm] at hm
      cases hm
    | some r =>
      obtain ⟨s1, q1⟩ := r
      rw [realloc_move_eq s c.addr size c.size hsz hptr hold h1 h2 s1 q1 hmm] at hm
      by_cases hq : q1 = 0
      · rw [if_pos hq] at hm
        obtain ⟨e4, e5⟩ := Prod.mk.inj (Option.some.inj hm)
        rcases malloc_step h hv23 hmm with ⟨_, e⟩ | ⟨hq', _⟩
        · left; exact ⟨e5.symm, by rw [← e4, e]⟩
        · exact absurd hq hq'
      · rw [if_neg hq] at hm
        obtain ⟨e4, e5⟩ := Prod.mk.inj (Option.some.inj hm)
        subst e5
        obtain ⟨L', fl', c', g1, g2, g3, g4, g5, g6, g7, g8, g9, g10⟩ :=
          realloc_move_step h hc hca hne hv23 hmm hq _ rfl s' e4.symm
        right
        exact ⟨hq, L', fl', c', g1, g2, g3, g4, g5, by rw [if_neg g7]; exact g6, g8, g9, g10⟩

/-! ### Every reachable state satisfies the invariant -/

theorem live_block {s : State} {L : List Blk} {fl : List Nat} {live : List Nat} (h : Rep s L fl)
    (hp : (s.heap_listp :: live).Perm (allocAddrs L)) {p : Nat} (hm : p ∈ live) :
    ∃ c ∈ L, c.addr = p ∧ c.alloc = true ∧ c.addr ≠ s.heap_listp := by
  have h1 : p ∈ allocAddrs L := hp.subset (List.mem_cons_of_mem _ hm)
  obtain ⟨c, hc, e, ha⟩ := mem_allocAddrs.mp h1
  refine ⟨c, hc, e, ha, ?_⟩
  have hnd := (List.Perm.nodup_iff hp).mpr h.toPre.alloc_nodup
  rw [List.nodup_cons] at hnd
  intro e2
  apply hnd.1
  rw [← e2, e]
  exact hm

theorem zero_not_live {s : State} {L : List Blk} {fl : List Nat} {live : List Nat} (h : Rep s L fl)
    (hp : (s.heap_listp :: live).Perm (allocAddrs L)) : 0 ∉ live := by
  intro hm
  obtain ⟨c, hc, e, _, _⟩ := live_block h hp hm
  have := h.toPre.blk hc
  have := h.toPre.brk_lt
  omega

theorem mm_free_null (s : State) : mm_free s 0 = s := by
  unfold mm_free
  rw [if_pos rfl]

theorem inv_init {s0 s : State} (hp : ProviderOK s0) (h : mm_init s0 = (s, 0)) : Inv s [] := by
  obtain ⟨h1, _, _, _, h5⟩ := mm_init_spec s0 s hp h
  refine ⟨_, _, h1, ?_⟩
  rw [h5]
  simp [allocAddrs]

theorem inv_malloc {s s' : State} {live : List Nat} {size p : Nat} (hi : Inv s live)
    (hv : size + 23 < SZ) (hm : mm_malloc s size = some (s', p)) :
    Inv s' (if p = 0 then live else p :: live) := by
  obtain ⟨L, fl, h, hp⟩ := hi
  rcases malloc_step h hv hm with ⟨e1, e2⟩ | ⟨hnz, _, L', fl', c, r1, r2, r3, r4, r5, r6, r7, r8,
    r9, r10⟩
  · rw [if_pos e1, e2]
    exact ⟨L, fl, h, hp⟩
  · rw [if_neg hnz]
    refine ⟨L', fl', r1, ?_⟩
    rw [r8.2.2.2]
    exact ((List.Perm.swap _ _ _).trans (List.Perm.cons p hp)).trans r6.symm

theorem inv_free {s : State} {live : List Nat} {p : Nat} (hi : Inv s live)
    (hp : p = 0 ∨ p ∈ live) : Inv (mm_free s p) (live.erase p) := by
  obtain ⟨L, fl, h, hperm⟩ := hi
  rcases hp with hp | hp
  · subst hp
    rw [mm_free_null, List.erase_of_not_mem (zero_not_live h hperm)]
    exact ⟨L, fl, h, hperm⟩
  · obtain ⟨c, hc, e, hca, hne⟩ := live_block h hperm hp
    subst e
    obtain ⟨L', fl', g1, g2, g3, g4, _⟩ := free_step h hc hca hne
    refine ⟨L', fl', g1, ?_⟩
    rw [g3.2.2.2]
    have := List.Perm.erase c.addr hperm
    rw [List.erase_cons_tail (by simpa using Ne.symm hne)] at this
    exact this.trans g2.symm

theorem inv_realloc {s s' : State} {live : List Nat} {p size q : Nat} (hi : Inv s live)
    (hp : p = 0 ∨ p ∈ live) (hv : ValidSize size) (hm : mm_realloc s p size = some (s', q)) :
    Inv s' (reallocLive live p size q) := by
  have hv23 : size + 23 < SZ := by unfold ValidSize at hv; omega
  unfold reallocLive
  by_cases hsz : size = 0
  · subst hsz
    rw [if_pos rfl]
    have e : mm_realloc s p 0 = some (mm_free s p, 0) := by
      unfold mm_realloc; rw [if_pos rfl]
    rw [e] at hm
    rw [← (Prod.mk.inj (Option.some.inj hm)).1]
    exact inv_free hi hp
  rw [if_neg hsz]
  by_cases hpz : p = 0
  · subst hpz
    rw [if_pos rfl]
    have e : mm_realloc s 0 size = mm_malloc s size := by
      unfold mm_realloc; rw [if_neg hsz, if_pos rfl]
    rw [e] at hm
    exact inv_malloc hi hv23 hm
  rw [if_neg hpz]
  have hpl : p ∈ live := by
    rcases hp with hp | hp
    · exact absurd hp hpz
    · exact hp
  obtain ⟨L, fl, h, hperm⟩ := hi
  obtain ⟨c, hc, e, hca, hne⟩ := live_block h hperm hpl
  subst e
  rcases realloc_step h hc hca hne hsz hv hm with ⟨e1, e2⟩ | ⟨hq, L', fl', c', g1, g2, g3, g4, g5,
    g6, g7, g8, g9⟩
  · rw [if_pos (Or.inl e1), e2]
    exact ⟨L, fl, h, hperm⟩
  · by_cases hqc : q = c.addr
    · rw [if_pos (Or.inr hqc)]
      rw [if_pos hqc] at g6
      refine ⟨L', fl', g1, ?_⟩
      rw [g7.2.2.2]
      exact hperm.trans g6.symm
    · rw [if_neg (by rintro (e | e); exact hq e; exact hqc e)]
      rw [if_neg hqc] at g6
      refine ⟨L', fl', g1, ?_⟩
      rw [g7.2.2.2]
      have := List.Perm.erase c.addr hperm
      rw [List.erase_cons_tail (by simpa using Ne.symm hne)] at this
      exact ((List.Perm.swap _ _ _).trans (List.Perm.cons q this)).trans g6.symm

theorem bzero_zero (m : Mem) (p : Nat) : bzero m p 0 = m := by
  funext a
  unfold bzero
  rw [if_neg (by omega)]

theorem inv_calloc {s s' : State} {live : List Nat} {nmemb size p : Nat} (hi : Inv s live)
    (hv : ValidSize ((nmemb * size) % SZ)) (hm : mm_calloc s nmemb size = some (s', p))
    (hz : p = 0 → (nmemb * size) % SZ = 0) : Inv s' (if p = 0 then live else p :: live) := by
  have hv23 : (nmemb * size) % SZ + 23 < SZ := by unfold ValidSize at hv; omega
  obtain ⟨L, fl, h, hperm⟩ := hi
  have hhl : s.heap_listp ≠ 0 := by have := h.toPre.brk_lt.2; omega
  unfold mm_calloc at hm
  simp only [hhl, if_false] at hm
  cases hmm : mm_malloc s ((nmemb * size) % SZ) with
  | none => rw [hmm] at hm; cases hm
  | some r =>
    obtain ⟨s1, p1⟩ := r
    rw [hmm] at hm
    obtain ⟨e1, e2⟩ := Prod.mk.inj (Option.some.inj hm)
    subst e2
    rcases malloc_step h hv23 hmm with ⟨e3, e4⟩ | ⟨hnz, _, L', fl', c, r1, r2, r3, r4, r5, r6, r7,
      r8, r9, r10⟩
    · rw [if_pos e3, ← e1, hz e3, bzero_zero, e4]
      exact ⟨L, fl, h, hperm⟩
    · rw [if_neg hnz, ← e1]
      obtain ⟨a24, a8, alo, ahi⟩ := adjust_valid _ hv23
      have hcb := r1.toPre.blk r2
      have hne : c.addr ≠ s1.heap_listp := by
        intro e
        obtain ⟨L0, hL0⟩ := h.head
        have hp0 : s.heap_listp ∈ allocAddrs L := by rw [hL0]; simp [allocAddrs]
        have hnd := (List.Perm.nodup_iff r6).mp r1.toPre.alloc_nodup
        rw [List.nodup_cons] at hnd
        apply hnd.1
        rw [← r3, e, r8.2.2.2]
        exact hp0
      have hfr : ∀ a, (a < c.addr ∨ c.addr + c.size - 8 ≤ a) →
          bzero s1.mem p1 ((nmemb * size) % SZ) a = s1.mem a := by
        intro a ha
        unfold bzero
        rw [if_neg (by omega)]
      have hR := Rep_payload r1 r2 r4 hne _ hfr
      refine ⟨L', fl', hR, ?_⟩
      show (s1.heap_listp :: p1 :: live).Perm _
      rw [r8.2.2.2]
      exact ((List.Perm.swap _ _ _).trans (List.Perm.cons p1 hperm)).trans r6.symm

theorem inv_store {s : State} {live : List Nat} {p i v : Nat} (hi : Inv s live) (hp : p ∈ live)
    (hlt : i + 8 < GET_SIZE s.mem (HDRP p)) :
    Inv { s with mem := fun a => if a = p + i then v else s.mem a } live := by
  obtain ⟨L, fl, h, hperm⟩ := hi
  obtain ⟨c, hc, e, hca, hne⟩ := live_block h hperm hp
  subst e
  have hsz := h.toPre.hdr_size hc
  unfold HDRP at hlt
  simp only [WSIZE] at hlt
  rw [hsz] at hlt
  have hfr : ∀ a, (a < c.addr ∨ c.addr + c.size - 8 ≤ a) →
      (fun a => if a = c.addr + i then v else s.mem a) a = s.mem a := by
    intro a ha
    show (if a = c.addr + i then v else s.mem a) = s.mem a
    rw [if_neg (by omega)]
  exact ⟨L, fl, Rep_payload h hc hca hne _ hfr, hperm⟩

/-- Every reachable state satisfies the invariant. -/
theorem reachable_inv {s : State} {live : List Nat} (h : Reachable s live) : Inv s live := by
  induction h with
  | init hp hi => exact inv_init hp hi
  | malloc _ hv hm ih => exact inv_malloc ih (by unfold ValidSize at hv; omega) hm
  | free _ hp ih => exact inv_free ih hp
  | realloc _ hp hv hm ih => exact inv_realloc ih hp hv hm
  | calloc _ hv hm hz ih => exact inv_calloc ih hv hm hz
  | store _ hp hlt _ ih => exact inv_store ih hp hlt

/-! ### Claims C3, C4, C5 -/

theorem Rep.heapBlocks_eq {s : State} {L : List Blk} {fl : List Nat} (h : Rep s L fl) :
    heapBlocks s = L := by
  unfold heapBlocks
  apply blocksFrom_eq _ _ _ _ h.layout h.tags h.epi
  have := Layout_length _ _ _ h.layout
  have := h.toPre.brk_lt
  omega

theorem Rep.freeList_eq {s : State} {L : List Blk} {fl : List Nat} (h : Rep s L fl) :
    freeList s = fl := by
  unfold freeList NEXT_FRP
  apply listFrom_eq _ _ _ h.flist
  · intro y hy
    have := h.toPre.nodes_rng y (List.mem_cons_of_mem _ hy)
    omega
  · have := h.fl_length
    omega

theorem fresh_ok : ProviderOK fresh := by
  unfold ProviderOK
  decide

theorem init0 : mm_init fresh = (heap0, 0) := Prod.ext rfl (by decide)

theorem reach0 : Reachable heap0 [] := @Reachable.init fresh heap0 fresh_ok init0

theorem tight_ok : ProviderOK tight := by
  unfold ProviderOK
  decide

theorem initT : mm_init tight = (heapT, 0) := Prod.ext rfl (by decide)

theorem reachT : Reachable heapT [] := @Reachable.init tight heapT tight_ok initT

/-- C3: in every state reachable from Initialize through public operations
with valid arguments, no two physically adjacent blocks of the block chain
are both free. -/
theorem no_adjacent_free {s : State} {live : List Nat} (h : Reachable s live) :
    (heapBlocks s).Chain' (fun a b => a.alloc = true ∨ b.alloc = true) := by
  obtain ⟨L, fl, hR, _⟩ := reachable_inv h
  rw [hR.heapBlocks_eq]
  exact hR.noadj

theorem no_adjacent_free_witness :
    Reachable heap0 [] ∧ (heapBlocks heap0).Chain' (fun a b => a.alloc = true ∨ b.alloc = true) :=
  ⟨reach0, no_adjacent_free reach0⟩

/-- C4: in every reachable state the blocks reached by forward links from the
sentinel are exactly the blocks of the chain whose header marks them free,
each once; neither the prologue nor the epilogue is among them. -/
theorem free_list_exact {s : State} {live : List Nat} (h : Reachable s live) :
    (freeList s).Perm (freeAddrs (heapBlocks s)) ∧ (freeList s).Nodup
      ∧ s.heap_listp ∉ freeList s ∧ s.mem_brk ∉ freeList s := by
  obtain ⟨L, fl, hR, _⟩ := reachable_inv h
  rw [hR.heapBlocks_eq, hR.freeList_eq]
  refine ⟨hR.perm, hR.nodup, ?_, ?_⟩
  · intro hm
    obtain ⟨b, hb, e, hf⟩ := hR.sub _ hm
    have := hR.toPre.free_ge hb hf
    omega
  · intro hm
    obtain ⟨b, hb, e, hf⟩ := hR.sub _ hm
    have := hR.toPre.blk hb
    omega

theorem free_list_exact_witness :
    Reachable heap0 [] ∧ ((freeList heap0).Perm (freeAddrs (heapBlocks heap0))
      ∧ (freeList heap0).Nodup ∧ heap0.heap_listp ∉ freeList heap0
      ∧ heap0.mem_brk ∉ freeList heap0) :=
  ⟨reach0, free_list_exact reach0⟩

/-- C5: in every reachable state the sizes of the blocks of the chain (the
prologue is the first of them) plus the 8 bytes of padding and epilogue header
add up to the bytes obtained from the provider, `mem_brk - mem_heap`. -/
theorem bytes_conserved {s : State} {live : List Nat} (h : Reachable s live) :
    ((heapBlocks s).map Blk.size).sum + 8 = s.mem_brk - s.mem_heap := by
  obtain ⟨L, fl, hR, _⟩ := reachable_inv h
  rw [hR.heapBlocks_eq]
  have := Layout_sum _ _ _ hR.layout
  have := hR.hl
  omega

theorem bytes_conserved_witness :
    Reachable heap0 [] ∧ ((heapBlocks heap0).map Blk.size).sum + 8
      = heap0.mem_brk - heap0.mem_heap :=
  ⟨reach0, bytes_conserved reach0⟩

/-! ### Claim C6 -/

/-- `mm_malloc` when no free block fits and the provider refuses the bytes. -/
theorem malloc_exhausted {s : State} {L : List Blk} {fl : List Nat} (h : Rep s L fl) (size : Nat)
    (hno : ∀ y ∈ fl, GET_SIZE s.mem (HDRP y) < adjust size)
    (hprov : mem_sbrk s (MAX (adjust size) CHUNKSIZE) = (s, s.mem_fail)) :
    mm_malloc s size = some (s, 0) := by
  have hhl : s.heap_listp ≠ 0 := by have := h.toPre.brk_lt.2; omega
  by_cases hpos : 0 < size
  · rcases malloc_cases h size hpos with hA | ⟨p, _, hmem, hfits, _⟩ | ⟨_, hfit, _, _⟩
    · exact hA.1
    · have := hno p hmem
      have := hfits.2
      omega
    · exfalso
      unfold mem_sbrk at hprov
      rw [if_pos hfit] at hprov
      have e := (Prod.mk.inj hprov).2
      have := h.toPre.brk_lt.1
      have := h.fail_half
      simp only [SZ] at *
      omega
  · have hz : size = 0 := by omega
    subst hz
    unfold mm_malloc
    simp only [hhl, if_false, Nat.le_refl, if_true]

/-- C6: on a reachable heap, when no free block holds the adjusted size and
the provider refuses the bytes `extend_heap` asks for, `mm_malloc` returns
null and the state is the one before the call; `mm_realloc` on its
allocate-and-copy path returns null and the state, so the old block too, is
the one before the call. -/
theorem exhaustion_safe {s : State} {live : List Nat} (h : Reachable s live) (size : Nat)
    (hno : ∀ y ∈ freeList s, GET_SIZE s.mem (HDRP y) < adjust size)
    (hprov : mem_sbrk s (MAX (adjust size) CHUNKSIZE) = (s, s.mem_fail)) :
    mm_malloc s size = some (s, 0)
      ∧ ∀ ptr, ptr ≠ 0 → size ≠ 0
        → ¬ (adjust size ≤ GET_SIZE s.mem (HDRP ptr)
            ∧ (GET_SIZE s.mem (HDRP ptr) + SZ - size) % SZ ≤ MINIMUM)
        → ¬ (adjust size + MINIMUM) % SZ ≤ GET_SIZE s.mem (HDRP ptr)
        → mm_realloc s ptr size = some (s, 0) := by
  obtain ⟨L, fl, hR, _⟩ := reachable_inv h
  rw [hR.freeList_eq] at hno
  have hm := malloc_exhausted hR size hno hprov
  refine ⟨hm, ?_⟩
  intro ptr hptr hsz h1 h2
  rw [realloc_move_eq s ptr size (GET_SIZE s.mem (HDRP ptr)) hsz hptr rfl h1 h2 s 0 hm, if_pos rfl]

theorem exhaustion_safe_witness :
    Reachable heapT [] ∧ (∀ y ∈ freeList heapT, GET_SIZE heapT.mem (HDRP y) < adjust 5000)
      ∧ mem_sbrk heapT (MAX (adjust 5000) CHUNKSIZE) = (heapT, heapT.mem_fail)
      ∧ (mm_malloc heapT 5000 = some (heapT, 0)
        ∧ ∀ ptr, ptr ≠ 0 → 5000 ≠ 0
          → ¬ (adjust 5000 ≤ GET_SIZE heapT.mem (HDRP ptr)
              ∧ (GET_SIZE heapT.mem (HDRP ptr) + SZ - 5000) % SZ ≤ MINIMUM)
          → ¬ (adjust 5000 + MINIMUM) % SZ ≤ GET_SIZE heapT.mem (HDRP ptr)
          → mm_realloc heapT ptr 5000 = some (heapT, 0)) :=
  have h1 : ∀ y ∈ freeList heapT, GET_SIZE heapT.mem (HDRP y) < adjust 5000 := by decide
  have h2 : mem_sbrk heapT (MAX (adjust 5000) CHUNKSIZE) = (heapT, heapT.mem_fail) := by
    unfold mem_sbrk
    rw [if_neg (by decide)]
  ⟨reachT, h1, h2, exhaustion_safe reachT 5000 h1 h2⟩

/-! ### Claim C2 -/

theorem Pre.addr_mod {s : State} {L : List Blk} {fl : List Nat} (h : Pre s L fl) {b : Blk}
    (hb : b ∈ L) : b.addr % 8 = s.heap_listp % 8 := by
  obtain ⟨L1, L2, hL⟩ := List.append_of_mem hb
  have hl := h.layout
  rw [hL] at hl
  exact Layout_mod _ _ _ (Layout_split _ _ _ _ _ hl).1

/-- The pointer `mm_malloc` returns, for any request size: null or the
address of a block boundary of the chain. -/
theorem malloc_result_mod {s s' : State} {L : List Blk} {fl : List Nat} {size p : Nat}
    (h : Rep s L fl) (hm : mm_malloc s size = some (s', p)) :
    p = 0 ∨ p % 8 = s.heap_listp % 8 := by
  have hhl : s.heap_listp ≠ 0 := by have := h.toPre.brk_lt.2; omega
  by_cases hpos : 0 < size
  · rcases malloc_cases h size hpos with hA | ⟨p1, _, hmem, _, e⟩ | ⟨_, hfit, _, e⟩
    · rw [hA.1] at hm
      exact Or.inl (Prod.mk.inj (Option.some.inj hm)).2.symm
    · rw [e] at hm
      have e2 := (Prod.mk.inj (Option.some.inj hm)).2
      subst e2
      obtain ⟨b, hb, e3, _⟩ := h.sub _ hmem
      right
      rw [← e3]
      exact h.toPre.addr_mod hb
    · rw [e] at hm
      have e2 := (Prod.mk.inj (Option.some.inj hm)).2
      obtain ⟨m8, _⟩ := adjust_mod size
      obtain ⟨w1, w2, w3, _, _⟩ := MAX_chunk (adjust size) m8
      obtain ⟨L0, pb, hL⟩ : ∃ L0 pb, L = L0 ++ [pb] := by
        obtain ⟨L', hL'⟩ := h.head
        exact List.exists_snoc_of_ne_nil L (by rw [hL']; exact List.cons_ne_nil _ _)
      subst hL
      obtain ⟨fl', _, g2, _⟩ := extend_heap_spec h _ w1 w2 (by rw [w3]; exact hfit) _ rfl
      right
      rw [← e2, g2]
      split
      · exact Layout_mod _ _ _ h.layout
      · exact h.toPre.addr_mod (by simp)
  · have hz : size = 0 := by omega
    subst hz
    unfold mm_malloc at hm
    simp only [hhl, if_false, Nat.le_refl, if_true] at hm
    exact Or.inl (Prod.mk.inj (Option.some.inj hm)).2.symm

/-- The pointer `mm_realloc` returns: null, the old pointer, or what
`mm_malloc` returned for the same size. -/
theorem realloc_result {s s' : State} {ptr size q : Nat}
    (hm : mm_realloc s ptr size = some (s', q)) :
    q = 0 ∨ q = ptr ∨ ∃ s1, mm_malloc s size = some (s1, q) := by
  by_cases hsz : size = 0
  · unfold mm_realloc at hm
    rw [if_pos hsz] at hm
    exact Or.inl (Prod.mk.inj (Option.some.inj hm)).2.symm
  by_cases hptr : ptr = 0
  · unfold mm_realloc at hm
    rw [if_neg hsz, if_pos hptr] at hm
    exact Or.inr (Or.inr ⟨s', hm⟩)
  by_cases h1 : adjust size ≤ GET_SIZE s.mem (ptr - 4)
      ∧ (GET_SIZE s.mem (ptr - 4) + SZ - size) % SZ ≤ 24
  · rw [realloc_reuse_eq s ptr size _ hsz hptr rfl h1] at hm
    exact Or.inr (Or.inl (Prod.mk.inj (Option.some.inj hm)).2.symm)
  by_cases h2 : (adjust size + 24) % SZ ≤ GET_SIZE s.mem (ptr - 4)
  · unfold mm_realloc at hm
    simp only [hsz, hptr, if_false, HDRP, WSIZE, MINIMUM, h1, h2, if_true] at hm
    exact Or.inr (Or.inl (Prod.mk.inj (Option.some.inj hm)).2.symm)
  · cases hmm : mm_malloc s size with
    | none =>
      rw [realloc_move_none s ptr size _ hsz hptr rfl h1 h2 hmm] at hm
      cases hm
    | some r =>
      obtain ⟨s1, q1⟩ := r
      rw [realloc_move_eq s ptr size _ hsz hptr rfl h1 h2 s1 q1 hmm] at hm
      by_cases hq : q1 = 0
      · rw [if_pos hq] at hm
        exact Or.inl (Prod.mk.inj (Option.some.inj hm)).2.symm
      · rw [if_neg hq] at hm
        have := (Prod.mk.inj (Option.some.inj hm)).2
        subst this
        exact Or.inr (Or.inr ⟨s1, rfl⟩)

/-- On an initialised heap `mm_malloc` returns, for any size: the fuel of the
list walks suffices. -/
theorem malloc_total {s : State} {L : List Blk} {fl : List Nat} (h : Rep s L fl) (size : Nat) :
    ∃ s' p, mm_malloc s size = some (s', p) := by
  have hhl : s.heap_listp ≠ 0 := by have := h.toPre.brk_lt.2; omega
  by_cases hpos : 0 < size
  · rcases malloc_cases h size hpos with hA | ⟨p1, _, _, _, e⟩ | ⟨_, _, _, e⟩
    · exact ⟨_, _, hA.1⟩
    · exact ⟨_, _, e⟩
    · exact ⟨_, _, e⟩
  · have hz : size = 0 := by omega
    subst hz
    refine ⟨s, 0, ?_⟩
    unfold mm_malloc
    simp only [hhl, if_false, Nat.le_refl, if_true]

/-- On an initialised heap `mm_realloc` returns. -/
theorem realloc_total {s : State} {L : List Blk} {fl : List Nat} (h : Rep s L fl)
    (ptr size : Nat) : ∃ s' q, mm_realloc s ptr size = some (s', q) := by
  by_cases hsz : size = 0
  · refine ⟨mm_free s ptr, 0, ?_⟩
    unfold mm_realloc
    rw [if_pos hsz]
  by_cases hptr : ptr = 0
  · obtain ⟨s', p, e⟩ := malloc_total h size
    refine ⟨s', p, ?_⟩
    unfold mm_realloc
    rw [if_neg hsz, if_pos hptr, e]
  by_cases h1 : adjust size ≤ GET_SIZE s.mem (ptr - 4)
      ∧ (GET_SIZE s.mem (ptr - 4) + SZ - size) % SZ ≤ 24
  · exact ⟨_, _, realloc_reuse_eq s ptr size _ hsz hptr rfl h1⟩
  by_cases h2 : (adjust size + 24) % SZ ≤ GET_SIZE s.mem (ptr - 4)
  · unfold mm_realloc
    simp only [hsz, hptr, if_false, HDRP, WSIZE, MINIMUM, h1, h2, if_true]
    exact ⟨_, _, rfl⟩
  · obtain ⟨s1, q1, e⟩ := malloc_total h size
    rw [realloc_move_eq s ptr size _ hsz hptr rfl h1 h2 s1 q1 e]
    by_cases hq : q1 = 0
    · rw [if_pos hq]; exact ⟨_, _, rfl⟩
    · rw [if_neg hq]; exact ⟨_, _, rfl⟩

/-- On an initialised heap `mm_calloc` returns. -/
theorem calloc_total {s : State} {L : List Blk} {fl : List Nat} (h : Rep s L fl)
    (nmemb size : Nat) : ∃ s' p, mm_calloc s nmemb size = some (s', p) := by
  have hhl : s.heap_listp ≠ 0 := by have := h.toPre.brk_lt.2; omega
  obtain ⟨s1, p1, e⟩ := malloc_total h ((nmemb * size) % SZ)
  unfold mm_calloc
  simp only [hhl, if_false, e]
  exact ⟨_, _, rfl⟩

/-- C2: when the provider's region starts at an 8-byte aligned address, in
every reachable state `mm_malloc`, `mm_realloc` (called on null or on a live
pointer) and `mm_calloc` return, for any size, and the address they return is
a multiple of 8 (so is null). -/
theorem results_aligned {s : State} {live : List Nat} (h : Reachable s live)
    (h8 : s.mem_heap % 8 = 0) :
    (∀ size, ∃ s' p, mm_malloc s size = some (s', p) ∧ p % 8 = 0)
      ∧ (∀ ptr size, (ptr = 0 ∨ ptr ∈ live) →
          ∃ s' q, mm_realloc s ptr size = some (s', q) ∧ q % 8 = 0)
      ∧ (∀ nmemb size, ∃ s' p, mm_calloc s nmemb size = some (s', p) ∧ p % 8 = 0) := by
  obtain ⟨L, fl, hR, hperm⟩ := reachable_inv h
  have hhl : s.heap_listp % 8 = 0 := by rw [hR.hl]; omega
  have hhz : s.heap_listp ≠ 0 := by have := hR.toPre.brk_lt.2; omega
  have hmal : ∀ size s' p, mm_malloc s size = some (s', p) → p % 8 = 0 := by
    intro size s' p hm
    rcases malloc_result_mod hR hm with e | e
    · rw [e]
    · rw [e, hhl]
  refine ⟨?_, ?_, ?_⟩
  · intro size
    obtain ⟨s', p, e⟩ := malloc_total hR size
    exact ⟨s', p, e, hmal _ _ _ e⟩
  · intro ptr size hptr
    obtain ⟨s', q, hm⟩ := realloc_total hR ptr size
    refine ⟨s', q, hm, ?_⟩
    rcases realloc_result hm with e | e | ⟨s1, e⟩
    · rw [e]
    · rw [e]
      rcases hptr with hp | hp
      · rw [hp]
      · obtain ⟨c, hc, e2, _, _⟩ := live_block hR hperm hp
        rw [← e2, hR.toPre.addr_mod hc, hhl]
    · exact hmal _ _ _ e
  · intro nmemb size
    obtain ⟨s', p, hm⟩ := calloc_total hR nmemb size
    refine ⟨s', p, hm, ?_⟩
    unfold mm_calloc at hm
    simp only [hhz, if_false] at hm
    cases hmm : mm_malloc s ((nmemb * size) % SZ) with
    | none => rw [hmm] at hm; cases hm
    | some r =>
      obtain ⟨s1, p1⟩ := r
      rw [hmm] at hm
      have := (Prod.mk.inj (Option.some.inj hm)).2
      subst this
      exact hmal _ _ _ hmm

theorem results_aligned_witness :
    Reachable heap0 [] ∧ heap0.mem_heap % 8 = 0
      ∧ ((∀ size, ∃ s' p, mm_malloc heap0 size = some (s', p) ∧ p % 8 = 0)
        ∧ (∀ ptr size, (ptr = 0 ∨ ptr ∈ ([] : List Nat)) →
            ∃ s' q, mm_realloc heap0 ptr size = some (s', q) ∧ q % 8 = 0)
        ∧ (∀ nmemb size, ∃ s' p, mm_calloc heap0 nmemb size = some (s', p) ∧ p % 8 = 0)) :=
  ⟨reach0, by decide, results_aligned reach0 (by decide)⟩

/-- On a reachable heap, a successful `mm_malloc` of a size that does not
overflow the rounding returns an allocated block of the chain with at least
`size` bytes of payload. -/
theorem malloc_payload {s s' : State} {live : List Nat} {size p : Nat} (h : Reachable s live)
    (hv : size + 23 < SZ) (hm : mm_malloc s size = some (s', p)) (hp : p ≠ 0) :
    p ∈ allocAddrs (heapBlocks s') ∧ GET_ALLOC s'.mem (HDRP p) = 1
      ∧ size + 8 ≤ GET_SIZE s'.mem (HDRP p) := by
  obtain ⟨L, fl, hR, _⟩ := reachable_inv h
  rcases malloc_step hR hv hm with ⟨e, _⟩ | ⟨_, _, L', fl', c, r1, r2, r3, r4, r5, _⟩
  · exact absurd e hp
  · obtain ⟨_, _, alo, _⟩ := adjust_valid size hv
    have h1 := r1.toPre.hdr_size r2
    have h2 := r1.toPre.hdr_alloc r2
    rw [r4] at h2
    rw [r1.heapBlocks_eq]
    unfold HDRP
    simp only [WSIZE]
    rw [← r3, h1]
    exact ⟨mem_allocAddrs.mpr ⟨c, r2, rfl, r4⟩, h2, by omega⟩

/-! ### Claims C1, C7, C9 and the counterexample to C8 -/

/-- C1: `mm_malloc(2^64 - 16)` on the heap right after Initialize does not fail:
the rounding of the size wraps around to 0, and the call returns the non-null
address 4128 of a block that is still marked free (size field 4096,
allocation bit 0) and still in the free list, so that the next
`mm_malloc(100)` returns the same address 4128 again. -/
theorem malloc_overflow :
    (mm_malloc heap0 (SZ - 16)).map
        (fun r => (r.2, GET_SIZE r.1.mem (HDRP r.2), GET_ALLOC r.1.mem (HDRP r.2)))
        = some (4128, 4096, 0)
      ∧ (mm_malloc heap0 (SZ - 16)).bind
          (fun r => (mm_malloc r.1 100).map (fun r2 => (r.2, r2.2))) = some (4128, 4128) := by
  refine ⟨?_, ?_⟩ <;> decide

/-- On a reachable heap, a successful `mm_realloc` of a live block to a valid
size `size > 0` keeps the first `min (old payload) size` bytes. -/
theorem realloc_preserves {s s' : State} {live : List Nat} {p size q : Nat}
    (h : Reachable s live) (hp : p ∈ live) (hsz : 0 < size) (hv : ValidSize size)
    (hm : mm_realloc s p size = some (s', q)) (hq : q ≠ 0) :
    ∀ i, i < size → i + 8 < GET_SIZE s.mem (HDRP p) → s'.mem (q + i) = s.mem (p + i) := by
  obtain ⟨L, fl, hR, hperm⟩ := reachable_inv h
  obtain ⟨c, hc, e, hca, hne⟩ := live_block hR hperm hp
  subst e
  have hold := hR.toPre.hdr_size hc
  unfold HDRP
  simp only [WSIZE]
  rw [hold]
  rcases realloc_step hR hc hca hne (by omega) hv hm with ⟨e, _⟩ | ⟨_, _, _, _, _, _, _, _, _, _, _,
    _, g⟩
  · exact absurd e hq
  · exact g

/-- C7: `mm_realloc(ptr, 2^64 - 1)` on the block `mm_malloc(100)` returned on the
heap right after Initialize succeeds in place (it returns `ptr = 4128`), but
the rounding of the size wraps around to 16 and the split writes a footer
into the payload: the byte at `ptr + 8` is 0 before the call and 17 after. -/
theorem realloc_overflow :
    (mm_malloc heap0 100).bind (fun r => (mm_realloc r.1 r.2 (SZ - 1)).map
      (fun r2 => (r.2, r2.2, r.1.mem (r.2 + 8), r2.1.mem (r2.2 + 8))))
      = some (4128, 4128, 0, 17) := by
  decide

/-- C8 as stated fails: on the heap right after Initialize, `mm_malloc(100)`
returns 4128 and `mm_realloc(4128, 90)` returns 4248. -/
theorem resize_90_moves :
    (mm_malloc heap0 100).bind (fun r => (mm_realloc r.1 r.2 90).map (fun r2 => (r.2, r2.2)))
      = some (4128, 4248) := by
  decide

/-- C9 as stated fails before Initialize: `mm_malloc(0)` initialises the heap,
`mm_realloc(NULL, 0)` does not. -/
theorem resize_null_zero_differs : mm_realloc fresh 0 0 ≠ mm_malloc fresh 0 := by
  intro h
  have h2 := congrArg (fun o : Option (State × Nat) => o.map (fun r => r.1.heap_listp)) h
  revert h2
  decide

/-- C9 amended: when the heap is initialised or `n` is not 0,
`mm_realloc(NULL, n)` is `mm_malloc(n)`, result and state; and for every
`ptr`, `mm_realloc(ptr, 0)` returns null and the state `mm_free(ptr)` gives. -/
theorem resize_degenerate (s : State) (n : Nat) (h : s.heap_listp ≠ 0 ∨ n ≠ 0) :
    mm_realloc s 0 n = mm_malloc s n ∧ ∀ ptr, mm_realloc s ptr 0 = some (mm_free s ptr, 0) := by
  refine ⟨?_, ?_⟩
  · by_cases hn : n = 0
    · subst hn
      have hhl : s.heap_listp ≠ 0 := by
        rcases h with h | h
        · exact h
        · exact absurd rfl h
      unfold mm_realloc mm_malloc
      simp only [if_true, hhl, if_false, Nat.le_refl, mm_free_null]
    · unfold mm_realloc
      rw [if_neg hn, if_pos rfl]
  · intro ptr
    unfold mm_realloc
    rw [if_pos rfl]

theorem resize_degenerate_witness :
    (heap0.heap_listp ≠ 0 ∨ 0 ≠ 0)
      ∧ (mm_realloc heap0 0 0 = mm_malloc heap0 0
        ∧ ∀ ptr, mm_realloc heap0 ptr 0 = some (mm_free heap0 ptr, 0)) :=
  ⟨Or.inl (by decide), resize_degenerate heap0 0 (Or.inl (by decide))⟩

/-! ### Claim C8 as amended -/

/-- A free block of a chain that consists of allocated blocks followed by one
free block is that last block. -/
theorem snoc_free_split {X L1 L2 : List Blk} {f b : Blk} (hX : ∀ x ∈ X, x.alloc = true)
    (hb : b.alloc = false) (e : X ++ [f] = L1 ++ b :: L2) : L1 = X ∧ b = f ∧ L2 = [] := by
  rcases List.append_eq_append_iff.mp e with ⟨a', e1, e2⟩ | ⟨c', e1, e2⟩
  · cases a' with
    | nil =>
      simp only [List.nil_append] at e2
      obtain ⟨e3, e4⟩ := List.cons.inj e2
      exact ⟨by simpa using e1, e3.symm, e4.symm⟩
    | cons x xs =>
      exfalso
      have := congrArg List.length e2
      simp at this
  · cases c' with
    | nil =>
      simp only [List.nil_append] at e2
      obtain ⟨e3, e4⟩ := List.cons.inj e2
      exact ⟨by simpa using e1.symm, e3, e4⟩
    | cons x xs =>
      exfalso
      obtain ⟨e3, e4⟩ := List.cons.inj e2
      have hx : b ∈ X := by rw [e1, e3]; simp
      have := hX b hx
      rw [hb] at this
      cases this

/-- `mm_malloc(100)` on the heap right after Initialize: the block of 120
bytes at the start of the seeded free block. -/
theorem malloc_100_fresh (s0 s : State) (hp : ProviderOK s0) (hi : mm_init s0 = (s, 0)) :
    ∃ s1 fl, mm_malloc s 100 = some (s1, s0.mem_heap + 32)
      ∧ Rep s1 [⟨s0.mem_heap + 8, 24, true⟩, ⟨s0.mem_heap + 32, 120, true⟩,
          ⟨s0.mem_heap + 152, 3976, false⟩] fl := by
  obtain ⟨hR, _, _, _, hhl⟩ := mm_init_spec s0 s hp hi
  have hadj : adjust 100 = 120 := by decide
  have hF : (⟨s0.mem_heap + 32, 4096, false⟩ : Blk) ∈
      [(⟨s0.mem_heap + 8, 24, true⟩ : Blk), ⟨s0.mem_heap + 32, 4096, false⟩] := by simp
  have hfits : fits s.mem (adjust 100) (s0.mem_heap + 32) := by
    have h1 := hR.toPre.hdr_size hF
    have h2 := hR.toPre.hdr_alloc hF
    unfold fits HDRP
    simp only [WSIZE]
    simp only at h1 h2
    rw [h1, hadj]
    exact ⟨by simpa using h2, by omega⟩
  rcases malloc_spec hR 100 (by decide) (by decide) with ⟨_, hno, _⟩
    | ⟨s1, L1, b, L2, fl', e, hL, hbf, hle, hrep, _⟩ | ⟨hno, _⟩
  · exact absurd hfits (hno _ (by simp))
  · have hL' : [(⟨s0.mem_heap + 8, 24, true⟩ : Blk)] ++ [⟨s0.mem_heap + 32, 4096, false⟩]
        = L1 ++ b :: L2 := hL
    obtain ⟨e1, e2, e3⟩ := snoc_free_split (by simp) hbf hL'
    subst e1 e2 e3
    refine ⟨s1, fl', e, ?_⟩
    rw [hadj] at hrep
    have hpl : placeBlks ⟨s0.mem_heap + 32, 4096, false⟩ 120
        = [⟨s0.mem_heap + 32, 120, true⟩, ⟨s0.mem_heap + 152, 3976, false⟩] := by
      unfold placeBlks
      simp
    rw [hpl] at hrep
    exact hrep
  · exact absurd hfits (hno _ (by simp))

/-- C8 amended: on the heap right after Initialize, `mm_malloc(100)` returns a
block of 120 bytes, and `mm_realloc(ptr, n)` on it returns the same `ptr` and
leaves the state as it is for every `n` from 96 to 104. -/
theorem resize_reuse (s0 s : State) (hp : ProviderOK s0) (hi : mm_init s0 = (s, 0)) (n : Nat)
    (h1 : 96 ≤ n) (h2 : n ≤ 104) :
    ∃ s1 p, mm_malloc s 100 = some (s1, p) ∧ p ≠ 0 ∧ GET_SIZE s1.mem (HDRP p) = 120
      ∧ mm_realloc s1 p n = some (s1, p) := by
  obtain ⟨s1, fl, e, hR⟩ := malloc_100_fresh s0 s hp hi
  have hA : (⟨s0.mem_heap + 32, 120, true⟩ : Blk) ∈
      [(⟨s0.mem_heap + 8, 24, true⟩ : Blk), ⟨s0.mem_heap + 32, 120, true⟩,
        ⟨s0.mem_heap + 152, 3976, false⟩] := by simp
  have hsz := hR.toPre.hdr_size hA
  simp only at hsz
  have hadj : adjust n ≤ 120 := by
    have := adjust_eq n (by simp only [SZ]; omega) (by omega)
    omega
  refine ⟨s1, s0.mem_heap + 32, e, by omega, ?_, ?_⟩
  · unfold HDRP; simp only [WSIZE]; exact hsz
  · apply realloc_reuse_eq s1 _ n 120 (by omega) (by omega) hsz
    refine ⟨hadj, ?_⟩
    simp only [SZ]
    omega

theorem resize_reuse_witness :
    ProviderOK fresh ∧ mm_init fresh = (heap0, 0) ∧ 96 ≤ 100 ∧ 100 ≤ 104
      ∧ ∃ s1 p, mm_malloc heap0 100 = some (s1, p) ∧ p ≠ 0 ∧ GET_SIZE s1.mem (HDRP p) = 120
        ∧ mm_realloc s1 p 100 = some (s1, p) :=
  ⟨fresh_ok, init0, by decide, by decide,
    resize_reuse fresh heap0 fresh_ok init0 100 (by decide) (by decide)⟩

/-! ### Releasing three neighbours in the six orders -/

theorem coalL_alloc (X Y : List Blk) (pb : Blk) (a n : Nat) (hp : pb.alloc = true) :
    coalL X pb ⟨a, n, false⟩ Y = X ++ pb :: ⟨a, n + mergeSize Y, false⟩ :: mergeRest Y := by
  unfold coalL
  cases Y with
  | nil => simp [hp, mergeSize, mergeRest]
  | cons nb Y' => cases hn : nb.alloc <;> simp [hp, hn, mergeSize, mergeRest]

theorem coalL_free (X Y : List Blk) (pb : Blk) (a n : Nat) (hp : pb.alloc = false) :
    coalL X pb ⟨a, n, false⟩ Y
      = X ++ ⟨pb.addr, pb.size + n + mergeSize Y, false⟩ :: mergeRest Y := by
  unfold coalL
  cases Y with
  | nil => simp [hp, mergeSize, mergeRest]
  | cons nb Y' => cases hn : nb.alloc <;> simp [hp, hn, mergeSize, mergeRest]

/-- Releasing a block whose predecessor is allocated. -/
theorem free_after_alloc {s : State} {L : List Blk} {fl : List Nat} (h : Rep s L fl)
    (X : List Blk) (p b : Blk) (Y : List Blk) (hL : L = X ++ p :: b :: Y) (hp : p.alloc = true)
    (hb : b.alloc = true) (L' : List Blk)
    (hL' : L' = X ++ p :: ⟨b.addr, b.size + mergeSize Y, false⟩ :: mergeRest Y) :
    ∃ fl', Rep (mm_free s b.addr) L' fl' ∧ SameEnv s (mm_free s b.addr)
      ∧ (mm_free s b.addr).mem_brk = s.mem_brk := by
  subst hL
  obtain ⟨fl', g1, _, g3, g4⟩ := free_spec h hb _ rfl
  rw [coalL_alloc _ _ _ _ _ hp, ← hL'] at g1
  exact ⟨fl', g1, g3, g4⟩

/-- Releasing a block whose predecessor is free. -/
theorem free_after_free {s : State} {L : List Blk} {fl : List Nat} (h : Rep s L fl)
    (X : List Blk) (p b : Blk) (Y : List Blk) (hL : L = X ++ p :: b :: Y) (hp : p.alloc = false)
    (hb : b.alloc = true) (L' : List Blk)
    (hL' : L' = X ++ ⟨p.addr, p.size + b.size + mergeSize Y, false⟩ :: mergeRest Y) :
    ∃ fl', Rep (mm_free s b.addr) L' fl' ∧ SameEnv s (mm_free s b.addr)
      ∧ (mm_free s b.addr).mem_brk = s.mem_brk := by
  subst hL
  obtain ⟨fl', g1, _, g3, g4⟩ := free_spec h hb _ rfl
  rw [coalL_free _ _ _ _ _ hp, ← hL'] at g1
  exact ⟨fl', g1, g3, g4⟩

theorem free_ABC {s : State} {L1 L2 : List Blk} {pb A B C : Blk} {fl : List Nat}
    (h : Rep s (L1 ++ pb :: A :: B :: C :: L2) fl) (hpb : pb.alloc = true)
    (hA : A.alloc = true) (hB : B.alloc = true) (hC : C.alloc = true) :
    ∃ fl', Rep (free3 s A.addr B.addr C.addr) (merged3 L1 pb A B C L2) fl'
      ∧ SameEnv s (free3 s A.addr B.addr C.addr)
      ∧ (free3 s A.addr B.addr C.addr).mem_brk = s.mem_brk := by
  obtain ⟨f1, r1, e1, b1⟩ := free_after_alloc h L1 pb A (B :: C :: L2) rfl hpb hA
    (L1 ++ pb :: ⟨A.addr, A.size, false⟩ :: B :: C :: L2) (by simp [mergeSize, mergeRest, hB])
  obtain ⟨f2, r2, e2, b2⟩ := free_after_free r1 (L1 ++ [pb]) ⟨A.addr, A.size, false⟩ B (C :: L2)
    (by simp) rfl hB (L1 ++ pb :: ⟨A.addr, A.size + B.size, false⟩ :: C :: L2)
    (by simp [mergeSize, mergeRest, hC])
  obtain ⟨f3, r3, e3, b3⟩ := free_after_free r2 (L1 ++ [pb]) ⟨A.addr, A.size + B.size, false⟩ C L2
    (by simp) rfl hC (merged3 L1 pb A B C L2) (by simp [merged3])
  exact ⟨f3, r3, SameEnv_trans (SameEnv_trans e1 e2) e3, by rw [free3, b3, b2, b1]⟩

theorem free_ACB {s : State} {L1 L2 : List Blk} {pb A B C : Blk} {fl : List Nat}
    (h : Rep s (L1 ++ pb :: A :: B :: C :: L2) fl) (hpb : pb.alloc = true)
    (hA : A.alloc = true) (hB : B.alloc = true) (hC : C.alloc = true) :
    ∃ fl', Rep (free3 s A.addr C.addr B.addr) (merged3 L1 pb A B C L2) fl'
      ∧ SameEnv s (free3 s A.addr C.addr B.addr)
      ∧ (free3 s A.addr C.addr B.addr).mem_brk = s.mem_brk := by
  obtain ⟨f1, r1, e1, b1⟩ := free_after_alloc h L1 pb A (B :: C :: L2) rfl hpb hA
    (L1 ++ pb :: ⟨A.addr, A.size, false⟩ :: B :: C :: L2) (by simp [mergeSize, mergeRest, hB])
  obtain ⟨f2, r2, e2, b2⟩ := free_after_alloc r1 (L1 ++ [pb, ⟨A.addr, A.size, false⟩]) B C L2
    (by simp) hB hC
    (L1 ++ pb :: ⟨A.addr, A.size, false⟩ :: B :: ⟨C.addr, C.size + mergeSize L2, false⟩
      :: mergeRest L2) (by simp)
  obtain ⟨f3, r3, e3, b3⟩ := free_after_free r2 (L1 ++ [pb]) ⟨A.addr, A.size, false⟩ B
    (⟨C.addr, C.size + mergeSize L2, false⟩ :: mergeRest L2) (by simp) rfl hB
    (merged3 L1 pb A B C L2) (by simp [merged3, mergeSize, mergeRest, Nat.add_assoc])
  exact ⟨f3, r3, SameEnv_trans (SameEnv_trans e1 e2) e3, by rw [free3, b3, b2, b1]⟩

theorem free_BAC {s : State} {L1 L2 : List Blk} {pb A B C : Blk} {fl : List Nat}
    (h : Rep s (L1 ++ pb :: A :: B :: C :: L2) fl) (hpb : pb.alloc = true)
    (hA : A.alloc = true) (hB : B.alloc = true) (hC : C.alloc = true) :
    ∃ fl', Rep (free3 s B.addr A.addr C.addr) (merged3 L1 pb A B C L2) fl'
      ∧ SameEnv s (free3 s B.addr A.addr C.addr)
      ∧ (free3 s B.addr A.addr C.addr).mem_brk = s.mem_brk := by
  obtain ⟨f1, r1, e1, b1⟩ := free_after_alloc h (L1 ++ [pb]) A B (C :: L2) (by simp) hA hB
    (L1 ++ pb :: A :: ⟨B.addr, B.size, false⟩ :: C :: L2) (by simp [mergeSize, mergeRest, hC])
  obtain ⟨f2, r2, e2, b2⟩ := free_after_alloc r1 L1 pb A (⟨B.addr, B.size, false⟩ :: C :: L2)
    rfl hpb hA (L1 ++ pb :: ⟨A.addr, A.size + B.size, false⟩ :: C :: L2)
    (by simp [mergeSize, mergeRest])
  obtain ⟨f3, r3, e3, b3⟩ := free_after_free r2 (L1 ++ [pb]) ⟨A.addr, A.size + B.size, false⟩ C L2
    (by simp) rfl hC (merged3 L1 pb A B C L2) (by simp [merged3])
  exact ⟨f3, r3, SameEnv_trans (SameEnv_trans e1 e2) e3, by rw [free3, b3, b2, b1]⟩

theorem free_BCA {s : State} {L1 L2 : List Blk} {pb A B C : Blk} {fl : List Nat}
    (h : Rep s (L1 ++ pb :: A :: B :: C :: L2) fl) (hpb : pb.alloc = true)
    (hA : A.alloc = true) (hB : B.alloc = true) (hC : C.alloc = true) :
    ∃ fl', Rep (free3 s B.addr C.addr A.addr) (merged3 L1 pb A B C L2) fl'
      ∧ SameEnv s (free3 s B.addr C.addr A.addr)
      ∧ (free3 s B.addr C.addr A.addr).mem_brk = s.mem_brk := by
  obtain ⟨f1, r1, e1, b1⟩ := free_after_alloc h (L1 ++ [pb]) A B (C :: L2) (by simp) hA hB
    (L1 ++ pb :: A :: ⟨B.addr, B.size, false⟩ :: C :: L2) (by simp [mergeSize, mergeRest, hC])
  obtain ⟨f2, r2, e2, b2⟩ := free_after_free r1 (L1 ++ [pb, A]) ⟨B.addr, B.size, false⟩ C L2
    (by simp) rfl hC
    (L1 ++ pb :: A :: ⟨B.addr, B.size + C.size + mergeSize L2, false⟩ :: mergeRest L2) (by simp)
  obtain ⟨f3, r3, e3, b3⟩ := free_after_alloc r2 L1 pb A
    (⟨B.addr, B.size + C.size + mergeSize L2, false⟩ :: mergeRest L2) rfl hpb hA
    (merged3 L1 pb A B C L2) (by simp [merged3, mergeSize, mergeRest, Nat.add_assoc])
  exact ⟨f3, r3, SameEnv_trans (SameEnv_trans e1 e2) e3, by rw [free3, b3, b2, b1]⟩

theorem free_CAB {s : State} {L1 L2 : List Blk} {pb A B C : Blk} {fl : List Nat}
    (h : Rep s (L1 ++ pb :: A :: B :: C :: L2) fl) (hpb : pb.alloc = true)
    (hA : A.alloc = true) (hB : B.alloc = true) (hC : C.alloc = true) :
    ∃ fl', Rep (free3 s C.addr A.addr B.addr) (merged3 L1 pb A B C L2) fl'
      ∧ SameEnv s (free3 s C.addr A.addr B.addr)
      ∧ (free3 s C.addr A.addr B.addr).mem_brk = s.mem_brk := by
  obtain ⟨f1, r1, e1, b1⟩ := free_after_alloc h (L1 ++ [pb, A]) B C L2 (by simp) hB hC
    (L1 ++ pb :: A :: B :: ⟨C.addr, C.size + mergeSize L2, false⟩ :: mergeRest L2) (by simp)
  obtain ⟨f2, r2, e2, b2⟩ := free_after_alloc r1 L1 pb A
    (B :: ⟨C.addr, C.size + mergeSize L2, false⟩ :: mergeRest L2) rfl hpb hA
    (L1 ++ pb :: ⟨A.addr, A.size, false⟩ :: B :: ⟨C.addr, C.size + mergeSize L2, false⟩
      :: mergeRest L2) (by simp [mergeSize, mergeRest, hB])
  obtain ⟨f3, r3, e3, b3⟩ := free_after_free r2 (L1 ++ [pb]) ⟨A.addr, A.size, false⟩ B
    (⟨C.addr, C.size + mergeSize L2, false⟩ :: mergeRest L2) (by simp) rfl hB
    (merged3 L1 pb A B C L2) (by simp [merged3, mergeSize, mergeRest, Nat.add_assoc])
  exact ⟨f3, r3, SameEnv_trans (SameEnv_trans e1 e2) e3, by rw [free3, b3, b2, b1]⟩

theorem free_CBA {s : State} {L1 L2 : List Blk} {pb A B C : Blk} {fl : List Nat}
    (h : Rep s (L1 ++ pb :: A :: B :: C :: L2) fl) (hpb : pb.alloc = true)
    (hA : A.alloc = true) (hB : B.alloc = true) (hC : C.alloc = true) :
    ∃ fl', Rep (free3 s C.addr B.addr A.addr) (merged3 L1 pb A B C L2) fl'
      ∧ SameEnv s (free3 s C.addr B.addr A.addr)
      ∧ (free3 s C.addr B.addr A.addr).mem_brk = s.mem_brk := by
  obtain ⟨f1, r1, e1, b1⟩ := free_after_alloc h (L1 ++ [pb, A]) B C L2 (by simp) hB hC
    (L1 ++ pb :: A :: B :: ⟨C.addr, C.size + mergeSize L2, false⟩ :: mergeRest L2) (by simp)
  obtain ⟨f2, r2, e2, b2⟩ := free_after_alloc r1 (L1 ++ [pb]) A B
    (⟨C.addr, C.size + mergeSize L2, false⟩ :: mergeRest L2) (by simp) hA hB
    (L1 ++ pb :: A :: ⟨B.addr, B.size + (C.size + mergeSize L2), false⟩ :: mergeRest L2)
    (by simp [mergeSize, mergeRest])
  obtain ⟨f3, r3, e3, b3⟩ := free_after_alloc r2 L1 pb A
    (⟨B.addr, B.size + (C.size + mergeSize L2), false⟩ :: mergeRest L2) rfl hpb hA
    (merged3 L1 pb A B C L2) (by simp [merged3, mergeSize, mergeRest, Nat.add_assoc])
  exact ⟨f3, r3, SameEnv_trans (SameEnv_trans e1 e2) e3, by rw [free3, b3, b2, b1]⟩

/-! ### Allocation on a compact heap -/

theorem placeBlks_shape (b : Blk) (asize : Nat) :
    ∃ A T, placeBlks b asize = A :: T ∧ A.addr = b.addr ∧ A.alloc = true
      ∧ (T = [] ∨ ∃ f, T = [f] ∧ f.alloc = false) := by
  unfold placeBlks
  split
  · exact ⟨_, _, rfl, rfl, rfl, Or.inr ⟨_, rfl, rfl⟩⟩
  · exact ⟨_, _, rfl, rfl, rfl, Or.inl rfl⟩

/-- On a chain of allocated blocks followed by at most one free block, a
successful `mm_malloc` appends its block to the allocated ones. -/
theorem malloc_shape {s s' : State} {P T : List Blk} {fl : List Nat} {n p : Nat}
    (h : Rep s (P ++ T) fl) (hP : ∀ x ∈ P, x.alloc = true)
    (hT : T = [] ∨ ∃ f, T = [f] ∧ f.alloc = false) (hv : n + 23 < SZ)
    (hm : mm_malloc s n = some (s', p)) (hp : p ≠ 0) :
    ∃ A T' fl', Rep s' ((P ++ [A]) ++ T') fl' ∧ A.addr = p ∧ A.alloc = true
      ∧ (T' = [] ∨ ∃ f, T' = [f] ∧ f.alloc = false) ∧ SameEnv s s' := by
  have hpos : 0 < n := by
    rcases malloc_step h hv hm with ⟨e, _⟩ | ⟨_, hpos, _⟩
    · exact absurd e hp
    · exact hpos
  rcases malloc_spec h n hpos hv with ⟨e, _, _⟩
    | ⟨s1, L1, b, L2, fl', e, hL, hbf, hle, hrep, _, henv, _⟩
    | ⟨_, s1, L0, pb, L1, b, fl', e, hL, hco, hbf, hle, hrep, _, henv, _⟩
  · rw [e] at hm
    exact absurd (Prod.mk.inj (Option.some.inj hm)).2.symm hp
  · rw [e] at hm
    obtain ⟨e1, e2⟩ := Prod.mk.inj (Option.some.inj hm)
    subst e1 e2
    rcases hT with hT | ⟨f, hT, hf⟩
    · subst hT
      exfalso
      have hb : b ∈ P := by
        have : b ∈ P ++ [] := by rw [hL]; simp
        simpa using this
      have := hP b hb
      rw [hbf] at this
      cases this
    · subst hT
      obtain ⟨e1, e2, e3⟩ := snoc_free_split hP hbf hL
      subst e1 e2 e3
      obtain ⟨A, T', q1, q2, q3, q4⟩ := placeBlks_shape b (adjust n)
      rw [q1] at hrep
      exact ⟨A, T', fl', by simpa using hrep, q2, q3, q4, henv⟩
  · rw [e] at hm
    obtain ⟨e1, e2⟩ := Prod.mk.inj (Option.some.inj hm)
    subst e1 e2
    obtain ⟨A, T', q1, q2, q3, q4⟩ := placeBlks_shape b (adjust n)
    rw [q1] at hrep
    rcases hT with hT | ⟨f, hT, hf⟩
    · subst hT
      have hpb : pb.alloc = true := by
        apply hP
        have : pb ∈ P ++ [] := by rw [hL]; simp
        simpa using this
      rw [coalL_alloc _ _ _ _ _ hpb] at hco
      have hco' : (L0 ++ [pb]) ++ [⟨s.mem_brk, MAX (adjust n) CHUNKSIZE + mergeSize [], false⟩]
          = L1 ++ [b] := by simpa [mergeRest] using hco
      obtain ⟨e3, _⟩ := List.append_inj' hco' rfl
      have e4 : L1 = P := by rw [← e3, ← hL]; simp
      subst e4
      exact ⟨A, T', fl', by simpa using hrep, q2, q3, q4, henv⟩
    · subst hT
      obtain ⟨e3, e4⟩ := List.append_inj' hL rfl
      have e5 : pb = f := by simpa using e4.symm
      subst e5
      rw [coalL_free _ _ _ _ _ hf] at hco
      have hco' : L0 ++ [⟨pb.addr, pb.size + MAX (adjust n) CHUNKSIZE + mergeSize [], false⟩]
          = L1 ++ [b] := by simpa [mergeRest] using hco
      obtain ⟨e6, _⟩ := List.append_inj' hco' rfl
      subst e6 e3
      exact ⟨A, T', fl', by simpa using hrep, q2, q3, q4, henv⟩

/-- A chain that consists of the prologue and one free block. -/
theorem two_block_chain {s : State} {X : Blk} {R : List Blk} {fl : List Nat} {a : Nat}
    (h : Rep s (⟨s.heap_listp, 24, true⟩ :: X :: R) fl) (hR : R = []) (ha : X.addr = a)
    (hf : X.alloc = false) :
    heapBlocks s = [⟨s.heap_listp, 24, true⟩, ⟨a, s.mem_brk - a, false⟩] := by
  subst hR
  rw [h.heapBlocks_eq]
  obtain ⟨_, _, _, h1, _, _, h2⟩ := h.layout
  have h2' : s.heap_listp + 24 + X.size = s.mem_brk := h2
  have h1' : X.addr = s.heap_listp + 24 := h1
  have h3 : X.addr + X.size = s.mem_brk := by omega
  clear h1 h2 h1' h2'
  have : X = ⟨a, s.mem_brk - a, false⟩ := by
    cases X with
    | mk xa xs xf =>
      simp only at ha hf h3
      subst ha hf
      have : xs = s.mem_brk - xa := by omega
      rw [this]
  rw [this]

theorem mergeRest_tail {T : List Blk} (hT : T = [] ∨ ∃ f, T = [f] ∧ f.alloc = false) :
    mergeRest T = [] := by
  rcases hT with hT | ⟨f, hT, hf⟩
  · subst hT; rfl
  · subst hT; simp [mergeRest, hf]

/-! ### Claim C10 -/

theorem stateOf_eq (o : Option (State × Nat)) (p : Nat) (h : o.map Prod.snd = some p) :
    o = some (stateOf o, p) := by
  cases o with
  | none => cases h
  | some r =>
    obtain ⟨s, q⟩ := r
    have : q = p := Option.some.inj h
    subst this
    rfl

theorem merged_chain {s3 sf : State} {pro A B C : Blk} {T3 : List Blk} {fl : List Nat}
    (hrep : Rep sf (merged3 [] pro A B C T3) fl) (henv : SameEnv s3 sf)
    (hbrk : sf.mem_brk = s3.mem_brk) (hpro : pro = ⟨s3.heap_listp, 24, true⟩)
    (hT : T3 = [] ∨ ∃ f, T3 = [f] ∧ f.alloc = false) :
    heapBlocks sf = [⟨s3.heap_listp, 24, true⟩, ⟨A.addr, s3.mem_brk - A.addr, false⟩] := by
  unfold merged3 at hrep
  rw [hpro, ← henv.2.2.2] at hrep
  have := two_block_chain (by simpa using hrep) (mergeRest_tail hT) rfl rfl
  rw [this, henv.2.2.2, hbrk]

/-- C10: on the heap right after Initialize, three successful `mm_malloc` calls
of one valid size return three blocks that lie one after the other; when the
three are released, in any of the six orders, the chain consists of the
prologue and one free block that starts at the first of the three and ends at
the end of the heap, so it spans all three. -/
theorem release_orders (s0 s s1 s2 s3 : State) (n a b c : Nat) (hp : ProviderOK s0)
    (hi : mm_init s0 = (s, 0)) (hv : ValidSize n)
    (h1 : mm_malloc s n = some (s1, a)) (ha : a ≠ 0)
    (h2 : mm_malloc s1 n = some (s2, b)) (hb : b ≠ 0)
    (h3 : mm_malloc s2 n = some (s3, c)) (hc : c ≠ 0) :
    (∃ A B C T, heapBlocks s3 = ⟨s3.heap_listp, 24, true⟩ :: ⟨a, A, true⟩ :: ⟨b, B, true⟩
        :: ⟨c, C, true⟩ :: T ∧ b = a + A ∧ c = b + B ∧ c + C ≤ s3.mem_brk)
      ∧ heapBlocks (free3 s3 a b c)
          = [⟨s3.heap_listp, 24, true⟩, ⟨a, s3.mem_brk - a, false⟩]
      ∧ heapBlocks (free3 s3 a c b)
          = [⟨s3.heap_listp, 24, true⟩, ⟨a, s3.mem_brk - a, false⟩]
      ∧ heapBlocks (free3 s3 b a c)
          = [⟨s3.heap_listp, 24, true⟩, ⟨a, s3.mem_brk - a, false⟩]
      ∧ heapBlocks (free3 s3 b c a)
          = [⟨s3.heap_listp, 24, true⟩, ⟨a, s3.mem_brk - a, false⟩]
      ∧ heapBlocks (free3 s3 c a b)
          = [⟨s3.heap_listp, 24, true⟩, ⟨a, s3.mem_brk - a, false⟩]
      ∧ heapBlocks (free3 s3 c b a)
          = [⟨s3.heap_listp, 24, true⟩, ⟨a, s3.mem_brk - a, false⟩] := by
  have hv23 : n + 23 < SZ := by unfold ValidSize at hv; omega
  obtain ⟨hR0, _, _, _, hhl⟩ := mm_init_spec s0 s hp hi
  have hR0' : Rep s ([(⟨s0.mem_heap + 8, 24, true⟩ : Blk)] ++ [⟨s0.mem_heap + 32, 4096, false⟩])
      [s0.mem_heap + 32] := hR0
  obtain ⟨A, T1, fl1, r1, a1, a2, t1, e1⟩ := malloc_shape hR0' (by simp) (Or.inr ⟨_, rfl, rfl⟩)
    hv23 h1 ha
  obtain ⟨B, T2, fl2, r2, b1, b2, t2, e2⟩ := malloc_shape r1 (by simp [a2]) t1 hv23 h2 hb
  obtain ⟨C, T3, fl3, r3, c1, c2, t3, e3⟩ := malloc_shape r2 (by simp [a2, b2]) t2 hv23 h3 hc
  have henv : s3.heap_listp = s0.mem_heap + 8 := by
    rw [e3.2.2.2, e2.2.2.2, e1.2.2.2, hhl]
  have hpro : (⟨s0.mem_heap + 8, 24, true⟩ : Blk) = ⟨s3.heap_listp, 24, true⟩ := by rw [henv]
  have hR : Rep s3 ([] ++ ⟨s0.mem_heap + 8, 24, true⟩ :: A :: B :: C :: T3) fl3 := by
    simpa using r3
  subst a1 b1 c1
  refine ⟨?_, ?_, ?_, ?_, ?_, ?_, ?_⟩
  · refine ⟨A.size, B.size, C.size, T3, ?_, ?_, ?_, ?_⟩
    · rw [hR.heapBlocks_eq, hpro]
      cases A; cases B; cases C
      simp only at a2 b2 c2
      subst a2 b2 c2
      rfl
    · have := hR.layout
      obtain ⟨_, _, _, k1, _, _, k2, _⟩ := this
      have k1' : A.addr = s3.heap_listp + 24 := k1
      have k2' : B.addr = s3.heap_listp + 24 + A.size := k2
      omega
    · have := hR.layout
      obtain ⟨_, _, _, k1, _, _, k2, _, _, k3, _⟩ := this
      have k2' : B.addr = s3.heap_listp + 24 + A.size := k2
      have k3' : C.addr = s3.heap_listp + 24 + A.size + B.size := k3
      omega
    · have := hR.toPre.blk (b := C) (by simp)
      omega
  · obtain ⟨fl', g1, g2, g3⟩ := free_ABC hR rfl a2 b2 c2
    exact merged_chain g1 g2 g3 hpro t3
  · obtain ⟨fl', g1, g2, g3⟩ := free_ACB hR rfl a2 b2 c2
    exact merged_chain g1 g2 g3 hpro t3
  · obtain ⟨fl', g1, g2, g3⟩ := free_BAC hR rfl a2 b2 c2
    exact merged_chain g1 g2 g3 hpro t3
  · obtain ⟨fl', g1, g2, g3⟩ := free_BCA hR rfl a2 b2 c2
    exact merged_chain g1 g2 g3 hpro t3
  · obtain ⟨fl', g1, g2, g3⟩ := free_CAB hR rfl a2 b2 c2
    exact merged_chain g1 g2 g3 hpro t3
  · obtain ⟨fl', g1, g2, g3⟩ := free_CBA hR rfl a2 b2 c2
    exact merged_chain g1 g2 g3 hpro t3

theorem release_orders_witness :
    ProviderOK fresh ∧ mm_init fresh = (heap0, 0) ∧ ValidSize 100
      ∧ mm_malloc heap0 100 = some (heap1, 4128) ∧ 4128 ≠ 0
      ∧ mm_malloc heap1 100 = some (heap2, 4248) ∧ 4248 ≠ 0
      ∧ mm_malloc heap2 100 = some (heap3, 4368) ∧ 4368 ≠ 0
      ∧ ((∃ A B C T, heapBlocks heap3 = ⟨heap3.heap_listp, 24, true⟩ :: ⟨4128, A, true⟩
            :: ⟨4248, B, true⟩ :: ⟨4368, C, true⟩ :: T ∧ 4248 = 4128 + A ∧ 4368 = 4248 + B
            ∧ 4368 + C ≤ heap3.mem_brk)
        ∧ heapBlocks (free3 heap3 4128 4248 4368)
            = [⟨heap3.heap_listp, 24, true⟩, ⟨4128, heap3.mem_brk - 4128, false⟩]
        ∧ heapBlocks (free3 heap3 4128 4368 4248)
            = [⟨heap3.heap_listp, 24, true⟩, ⟨4128, heap3.mem_brk - 4128, false⟩]
        ∧ heapBlocks (free3 heap3 4248 4128 4368)
            = [⟨heap3.heap_listp, 24, true⟩, ⟨4128, heap3.mem_brk - 4128, false⟩]
        ∧ heapBlocks (free3 heap3 4248 4368 4128)
            = [⟨heap3.heap_listp, 24, true⟩, ⟨4128, heap3.mem_brk - 4128, false⟩]
        ∧ heapBlocks (free3 heap3 4368 4128 4248)
            = [⟨heap3.heap_listp, 24, true⟩, ⟨4128, heap3.mem_brk - 4128, false⟩]
        ∧ heapBlocks (free3 heap3 4368 4248 4128)
            = [⟨heap3.heap_listp, 24, true⟩, ⟨4128, heap3.mem_brk - 4128, false⟩]) :=
  have v : ValidSize 100 := by unfold ValidSize; decide
  have m1 : mm_malloc heap0 100 = some (heap1, 4128) := stateOf_eq _ _ (by decide)
  have m2 : mm_malloc heap1 100 = some (heap2, 4248) := stateOf_eq _ _ (by decide)
  have m3 : mm_malloc heap2 100 = some (heap3, 4368) := stateOf_eq _ _ (by decide)
  ⟨fresh_ok, init0, v, m1, by decide, m2, by decide, m3, by decide,
    release_orders fresh heap0 heap1 heap2 heap3 100 4128 4248 4368 fresh_ok init0 v m1
      (by decide) m2 (by decide) m3 (by decide)⟩

/-! ### Claims C12, C16, C17 -/

/-- C12 as stated fails: for a request of 10 bytes the code computes 32, the
formula with `ceil` gives 40. -/
theorem needed_10_differs :
    adjust 10 = 32 ∧ specNeeded 10 = 40 ∧ adjust 10 ≠ specNeeded 10 := by
  decide

/-- C12 amended: for a request that does not overflow the rounding, the needed
block size `mm_malloc` and `mm_realloc` compute is 24 when the request is at
most 8 bytes and `8 * floor((size + 16 + 7) / 8)` when it is larger, which is
`size + 16` rounded up to a multiple of 8. -/
theorem needed_size (size : Nat) (hv : size + 23 < SZ) :
    (size ≤ 8 → adjust size = 24)
      ∧ (8 < size → adjust size = 8 * ((size + 16 + 7) / 8)
          ∧ adjust size % 8 = 0 ∧ size + 16 ≤ adjust size ∧ adjust size < size + 16 + 8) := by
  unfold adjust
  simp only [DSIZE, OVERHEAD, SZ] at *
  refine ⟨?_, ?_⟩
  · intro h
    rw [if_pos h]
  · intro h
    rw [if_neg (by omega)]
    omega

theorem needed_size_witness :
    100 + 23 < SZ ∧ ((100 ≤ 8 → adjust 100 = 24)
      ∧ (8 < 100 → adjust 100 = 8 * ((100 + 16 + 7) / 8)
          ∧ adjust 100 % 8 = 0 ∧ 100 + 16 ≤ adjust 100 ∧ adjust 100 < 100 + 16 + 8)) :=
  ⟨by decide, needed_size 100 (by decide)⟩

/-- C16: in every reachable state every block of the chain, the prologue
included, has a header word equal to its footer word, a size that is a
multiple of 8 and a size of at least 24 bytes; the chain ends at the epilogue
header, which is at `mem_brk - 4` and holds size 0, allocated. -/
theorem blocks_well_formed {s : State} {live : List Nat} (h : Reachable s live) :
    (∀ b ∈ heapBlocks s, GET s.mem (HDRP b.addr) = GET s.mem (FTRP s.mem b.addr)
        ∧ b.size % 8 = 0 ∧ 24 ≤ b.size ∧ GET_SIZE s.mem (HDRP b.addr) = b.size)
      ∧ s.heap_listp + ((heapBlocks s).map Blk.size).sum = s.mem_brk
      ∧ GET s.mem (HDRP s.mem_brk) = PACK 0 1 := by
  obtain ⟨L, fl, hR, _⟩ := reachable_inv h
  rw [hR.heapBlocks_eq]
  refine ⟨?_, Layout_sum _ _ _ hR.layout, ?_⟩
  · intro b hb
    have h1 := hR.tags b hb
    have h2 := hR.toPre.blk hb
    have h3 := hR.toPre.hdr_size hb
    unfold FTRP HDRP
    simp only [WSIZE, DSIZE]
    rw [h3, h1.1, h1.2]
    exact ⟨rfl, h2.2.2.2.1, h2.2.2.1, rfl⟩
  · unfold HDRP
    simp only [WSIZE]
    rw [hR.epi]
    decide

theorem blocks_well_formed_witness :
    Reachable heap0 [] ∧ ((∀ b ∈ heapBlocks heap0,
        GET heap0.mem (HDRP b.addr) = GET heap0.mem (FTRP heap0.mem b.addr)
        ∧ b.size % 8 = 0 ∧ 24 ≤ b.size ∧ GET_SIZE heap0.mem (HDRP b.addr) = b.size)
      ∧ heap0.heap_listp + ((heapBlocks heap0).map Blk.size).sum = heap0.mem_brk
      ∧ GET heap0.mem (HDRP heap0.mem_brk) = PACK 0 1) :=
  ⟨reach0, blocks_well_formed reach0⟩

/-- C17 as stated fails: after `mm_malloc(100)` on the heap right after
Initialize the rover is `NULL`, which is neither the sentinel 4104 nor the one
node 4248 of the free list. -/
theorem rover_null_after_malloc :
    (mm_malloc heap0 100).map (fun r => (r.1.rover, r.1.heap_listp, freeList r.1))
      = some (0, 4104, [4248]) := by
  decide

/-- C17 amended: in every reachable state the rover is `NULL`, or the sentinel
`heap_listp`, or a block that is in the free list. -/
theorem rover_valid {s : State} {live : List Nat} (h : Reachable s live) :
    s.rover = 0 ∨ s.rover = s.heap_listp ∨ s.rover ∈ freeList s := by
  obtain ⟨L, fl, hR, _⟩ := reachable_inv h
  rw [hR.freeList_eq]
  exact hR.rov

theorem rover_valid_witness :
    Reachable heap0 []
      ∧ (heap0.rover = 0 ∨ heap0.rover = heap0.heap_listp ∨ heap0.rover ∈ freeList heap0) :=
  ⟨reach0, rover_valid reach0⟩

/-! ### Claims C19 and C13 -/

/-- A node of the free list reads as free in its header. -/
theorem Rep.node_free {s : State} {L : List Blk} {fl : List Nat} (h : Rep s L fl) {y : Nat}
    (hy : y ∈ fl) : GET_ALLOC s.mem (HDRP y) = 0 := by
  obtain ⟨b, hb, e, hf⟩ := h.sub y hy
  have := h.toPre.hdr_alloc hb
  rw [hf] at this
  unfold HDRP
  simp only [WSIZE]
  rw [← e]
  simpa using this

/-- C19: in every reachable state and for every `asize`, `find_fit` returns;
it returns `NULL` exactly when every node of the free list is smaller than
`asize`, and then leaves the state as it is; when it returns a block, the
block is a node of the free list, is not the sentinel, is free, holds at
least `asize` bytes, and the rover is set to it (nothing else changes). -/
theorem find_fit_correct {s : State} {live : List Nat} (h : Reachable s live) (asize : Nat) :
    ∃ s' p, find_fit s asize = some (s', p)
      ∧ (p = 0 ↔ ∀ y ∈ freeList s, GET_SIZE s.mem (HDRP y) < asize)
      ∧ (p = 0 → s' = s)
      ∧ (p ≠ 0 → p ∈ freeList s ∧ p ≠ s.heap_listp ∧ GET_ALLOC s.mem (HDRP p) = 0
          ∧ asize ≤ GET_SIZE s.mem (HDRP p) ∧ s' = { s with rover := p }) := by
  obtain ⟨L, fl, hR, _⟩ := reachable_inv h
  rw [hR.freeList_eq]
  obtain ⟨p, ⟨hp, hff, hno⟩ | ⟨hp, hff, hmem, hfits⟩⟩ := find_fit_spec hR asize
  · subst hp
    refine ⟨s, 0, hff, ?_, fun _ => rfl, fun hne => absurd rfl hne⟩
    refine ⟨fun _ y hy => ?_, fun _ => rfl⟩
    have h1 := hno y hy
    have h2 := hR.node_free hy
    unfold fits at h1
    omega
  · refine ⟨_, p, hff, ?_, fun h0 => absurd h0 hp, fun _ => ?_⟩
    · refine ⟨fun h0 => absurd h0 hp, fun hall => ?_⟩
      have := hall p hmem
      have := hfits.2
      omega
    · refine ⟨hmem, ?_, hfits.1, hfits.2, rfl⟩
      intro e
      exact hR.sentinel_not_fit asize (e ▸ hfits)

theorem find_fit_correct_witness :
    Reachable heap0 [] ∧ ∃ s' p, find_fit heap0 120 = some (s', p)
      ∧ (p = 0 ↔ ∀ y ∈ freeList heap0, GET_SIZE heap0.mem (HDRP y) < 120)
      ∧ (p = 0 → s' = heap0)
      ∧ (p ≠ 0 → p ∈ freeList heap0 ∧ p ≠ heap0.heap_listp ∧ GET_ALLOC heap0.mem (HDRP p) = 0
          ∧ 120 ≤ GET_SIZE heap0.mem (HDRP p) ∧ s' = { heap0 with rover := p }) :=
  ⟨reach0, find_fit_correct reach0 120⟩

/-- When the product `nmemb * size` does not overflow (nor the rounding of it
to a block size), `mm_calloc(nmemb, size)` returns in every reachable state,
and when the address it returns is not null, each of the `nmemb * size` bytes
from that address is 0 and they lie in the payload of the allocated block at
that address. -/
theorem calloc_zeroed_valid {s : State} {live : List Nat} (h : Reachable s live)
    (nmemb size : Nat) (hv : nmemb * size + 23 < SZ) :
    ∃ s' p, mm_calloc s nmemb size = some (s', p)
      ∧ (p ≠ 0 → (∀ i, i < nmemb * size → s'.mem (p + i) = 0)
          ∧ GET_ALLOC s'.mem (HDRP p) = 1 ∧ nmemb * size + 8 ≤ GET_SIZE s'.mem (HDRP p)) := by
  have hmod : (nmemb * size) % SZ = nmemb * size := Nat.mod_eq_of_lt (by omega)
  obtain ⟨L, fl, hR, _⟩ := reachable_inv h
  obtain ⟨s', p, hm⟩ := calloc_total hR nmemb size
  refine ⟨s', p, hm, ?_⟩
  have hhl : s.heap_listp ≠ 0 := by have := hR.toPre.brk_lt.2; omega
  unfold mm_calloc at hm
  simp only [hhl, if_false] at hm
  rw [hmod] at hm
  cases hmm : mm_malloc s (nmemb * size) with
  | none => rw [hmm] at hm; cases hm
  | some r =>
    obtain ⟨s1, p1⟩ := r
    rw [hmm] at hm
    obtain ⟨e1, e2⟩ := Prod.mk.inj (Option.some.inj hm)
    subst e1 e2
    intro hp
    refine ⟨?_, ?_⟩
    · intro i hi
      show bzero s1.mem p1 (nmemb * size) (p1 + i) = 0
      unfold bzero
      rw [if_pos (by omega)]
    · rcases malloc_step hR hv hmm with ⟨e, _⟩ | ⟨_, _, L', fl', c, r1, r2, r3, r4, r5, _⟩
      · exact absurd e hp
      · obtain ⟨_, _, alo, _⟩ := adjust_valid _ hv
        subst r3
        have k1 := r1.toPre.hdr_size r2
        have k2 := r1.toPre.hdr_alloc r2
        have k3 := r1.toPre.blk r2
        have k4 := r1.toPre.brk_lt
        rw [r4] at k2
        have hfr : ∀ a, c.addr - 4 ≤ a → a < c.addr - 4 + 4 →
            bzero s1.mem c.addr (nmemb * size) a = s1.mem a := by
          intro a ha1 ha2
          unfold bzero
          rw [if_neg (by omega)]
        have hg := GET_congr s1.mem (bzero s1.mem c.addr (nmemb * size)) (c.addr - 4) hfr
        show GET_ALLOC (bzero s1.mem c.addr (nmemb * size)) (HDRP c.addr) = 1
          ∧ nmemb * size + 8
            ≤ GET_SIZE (bzero s1.mem c.addr (nmemb * size)) (HDRP c.addr)
        unfold HDRP GET_ALLOC GET_SIZE
        simp only [WSIZE]
        rw [hg]
        unfold GET_ALLOC at k2
        unfold GET_SIZE at k1
        rw [k1, k2]
        exact ⟨rfl, by omega⟩

/-- C13: on the heap right after Initialize, `mm_calloc(2^61 + 1, 8)` succeeds:
it returns 4128, the address of an allocated block of 24 bytes. The product
`count*size` is `2^64 + 8`; the code computes it in `size_t` without a check,
gets 8, and allocates and zeroes 8 bytes. The byte at offset 16 from the
returned address, one of the `count*size` bytes, is 25 after the call (it is
the first byte of the footer of the block). -/
theorem calloc_overflow :
    (mm_calloc heap0 2305843009213693953 8).map
        (fun r => (r.2, GET_SIZE r.1.mem (HDRP r.2), GET_ALLOC r.1.mem (HDRP r.2),
          r.1.mem (r.2 + 16))) = some (4128, 24, 1, 25)
      ∧ 16 < 2305843009213693953 * 8 ∧ (2305843009213693953 * 8) % SZ = 8 := by
  refine ⟨?_, ?_, ?_⟩ <;> decide

/-! ### The consistency checker; claims C18 and C14 -/

theorem checkblock_ok (m : Mem) (b : Blk) (h : GET m (b.addr - 4) = b.tag
    ∧ GET m (b.addr + b.size - 8) = b.tag) (h8 : b.size % 8 = 0) (ha : b.addr % 8 = 0) :
    checkblock m b.addr = [] := by
  have hs : GET_SIZE m (b.addr - 4) = b.size := tag_size m _ b h.1 h8
  unfold checkblock FTRP HDRP
  simp only [WSIZE, DSIZE]
  rw [hs, h.1, h.2]
  simp [ha]

/-- The block loop of `mm_checkheap` on a well-formed, aligned chain: no
diagnostic, and the loop stops at the epilogue. -/
theorem checkheap_loop_ok (m : Mem) (L : List Blk) (lo hi : Nat) (hL : Layout L lo hi)
    (ht : TagsOK m L) (he : GET m (hi - 4) = 1) (h8 : lo % 8 = 0) (fuel : Nat)
    (hf : L.length < fuel) : checkheap_loop m fuel lo = some ([], hi) := by
  induction L generalizing lo fuel with
  | nil =>
    simp only [Layout] at hL
    subst hL
    cases fuel with
    | zero => simp at hf
    | succ n =>
      have : GET_SIZE m (HDRP lo) = 0 := by
        simp only [GET_SIZE, HDRP, he]; decide
      simp [checkheap_loop, this]
  | cons b t ih =>
    obtain ⟨h1, h2, h3, h4⟩ := hL
    cases fuel with
    | zero => simp at hf
    | succ n =>
      have hb := ht b (List.mem_cons_self _ _)
      have hck := checkblock_ok m b hb h3 (by rw [h1]; exact h8)
      rw [h1] at hb hck
      have hs : GET_SIZE m (HDRP lo) = b.size := tag_size m _ b hb.1 h3
      have hn : NEXT_BLKP m lo = lo + b.size := by
        simp only [NEXT_BLKP]; rw [show lo - WSIZE = HDRP lo from rfl, hs]
      have ih' := ih (lo + b.size) h4 (fun c hc => ht c (List.mem_cons_of_mem _ hc))
        (by omega) n (by simp only [List.length_cons] at hf; omega)
      simp only [checkheap_loop, hs, hn, ih', hck]
      rw [if_pos (by omega)]
      rfl

/-- On every reachable heap whose region starts at a multiple of 8, so on a
heap whose prologue has its 24 bytes and is allocated, whose epilogue has
size 0 and is allocated, whose blocks are aligned and have matching header and
footer, `mm_checkheap` returns and prints exactly one diagnostic, "Bad
prologue header": it compares the size of the prologue with `DSIZE`. -/
theorem checkheap_well_formed {s : State} {live : List Nat} (h : Reachable s live)
    (h8 : s.mem_heap % 8 = 0) : mm_checkheap s = some [Diag.badPrologue] := by
  obtain ⟨L, fl, hR, _⟩ := reachable_inv h
  have hhl : s.heap_listp % 8 = 0 := by rw [hR.hl]; omega
  have hlen : L.length < s.mem_brk := by
    have := Layout_length _ _ _ hR.layout
    have := hR.toPre.brk_lt
    omega
  have hloop := checkheap_loop_ok s.mem L _ _ hR.layout hR.tags hR.epi hhl s.mem_brk hlen
  have hpro := hR.toPre.pro_mem
  have hps := hR.toPre.hdr_size hpro
  have hpa := hR.toPre.hdr_alloc hpro
  have hck := checkblock_ok s.mem _ (hR.tags _ hpro) (by show 24 % 8 = 0; rfl) hhl
  have hes : GET_SIZE s.mem (HDRP s.mem_brk) = 0 := by
    simp only [GET_SIZE, HDRP, WSIZE, hR.epi]; decide
  have hea : GET_ALLOC s.mem (HDRP s.mem_brk) = 1 := by
    simp only [GET_ALLOC, HDRP, WSIZE, hR.epi]; decide
  simp only at hps hpa hck
  unfold mm_checkheap
  simp only [hloop, HDRP, WSIZE, DSIZE] at *
  simp only [hps, hck, hes, hea]
  simp

/-- C18: on the heap right after Initialize, whose prologue has its 24 bytes and
is allocated, whose epilogue has size 0 and is allocated and whose blocks are
aligned with matching header and footer, `mm_checkheap` prints "Bad prologue
header" (and nothing else): it compares the prologue size with `DSIZE`, 8. -/
theorem checkheap_bad_prologue :
    mm_checkheap heap0 = some [Diag.badPrologue]
      ∧ GET_SIZE heap0.mem (HDRP heap0.heap_listp) = 24
      ∧ GET_ALLOC heap0.mem (HDRP heap0.heap_listp) = 1 := by
  refine ⟨checkheap_well_formed reach0 (by decide), ?_, ?_⟩ <;> decide

/-- C14: on the heap right after Initialize on the provider `tight`,
`mm_malloc(5000)` fails, and `mm_calloc(1, 5000)` returns null after
`bzero(NULL, 5000)` ran: in the model, whose memory is total, the bytes from 0
to 4999 are zeroed, among them the prologue header at 4100, which held 25. -/
theorem calloc_null_writes :
    (mm_malloc heapT 5000).map Prod.snd = some 0
      ∧ (mm_calloc heapT 1 5000).map (fun r => (r.2, r.1.mem 4100, heapT.mem 4100))
        = some (0, 0, 25) := by
  refine ⟨?_, ?_⟩ <;> decide

/-! ### Initialisation with checked stores; claim C15 -/

theorem PUT_checked_some {s s' : State} {p v : Nat} (h : PUT_checked s p v = some s') :
    s' = { s with mem := PUT s.mem p v } := by
  unfold PUT_checked at h
  split at h
  · exact (Option.some.inj h).symm
  · cases h

theorem PUTA_checked_some {s s' : State} {p v : Nat} (h : PUTA_checked s p v = some s') :
    s' = { s with mem := PUTA s.mem p v } := by
  unfold PUTA_checked at h
  split at h
  · exact (Option.some.inj h).symm
  · cases h

/-- When no store of `extend_heap_checked` faults, it returns what
`extend_heap` returns. -/
theorem extend_heap_checked_agree {s : State} {words : Nat} {r : State × Nat}
    (h : extend_heap_checked s words = some r) : extend_heap s words = r := by
  unfold extend_heap_checked at h
  unfold extend_heap
  simp only at h ⊢
  generalize (if words % 2 ≠ 0 then ((words + 1) * WSIZE) % SZ else (words * WSIZE) % SZ)
    = size at h ⊢
  by_cases hc : SZ / 2 ≤ (mem_sbrk s size).2
  · rw [if_pos hc] at h ⊢
    exact Option.some.inj h
  · rw [if_neg hc] at h ⊢
    simp only [Option.bind_eq_some] at h
    obtain ⟨s1, h1, s2, h2, s3, h3, h4⟩ := h
    have e1 := PUT_checked_some h1
    have e2 := PUT_checked_some h2
    have e3 := PUT_checked_some h3
    subst e1
    subst e2
    subst e3
    exact Option.some.inj h4

/-- When no store of `mm_init_checked` faults, it returns what `mm_init`
returns. -/
theorem mm_init_checked_agree {s : State} {r : State × Int}
    (h : mm_init_checked s = some r) : mm_init s = r := by
  unfold mm_init_checked at h
  unfold mm_init
  simp only at h ⊢
  by_cases hc : (mem_sbrk s (8 * WSIZE)).2 = 0
  · rw [if_pos hc] at h ⊢
    exact Option.some.inj h
  · rw [if_neg hc] at h ⊢
    simp only [Option.bind_eq_some, Option.map_eq_some'] at h
    obtain ⟨s1, h1, s2, h2, s3, h3, s4, h4, s5, h5, s6, h6, r1, h7, h8⟩ := h
    have e1 := PUT_checked_some h1
    have e2 := PUT_checked_some h2
    have e3 := PUTA_checked_some h3
    have e4 := PUTA_checked_some h4
    have e5 := PUT_checked_some h5
    have e6 := PUT_checked_some h6
    subst e1
    subst e2
    subst e3
    subst e4
    subst e5
    subst e6
    have e7 := extend_heap_checked_agree h7
    rw [← h8, ← e7]
    rfl

theorem PUT_checked_ok (s : State) (p v : Nat) (h1 : s.mem_heap ≤ p) (h2 : p + 4 ≤ s.mem_brk) :
    PUT_checked s p v = some { s with mem := PUT s.mem p v } := by
  unfold PUT_checked
  rw [if_pos ⟨h1, h2⟩]

theorem PUTA_checked_ok (s : State) (p v : Nat) (h1 : s.mem_heap ≤ p) (h2 : p + 8 ≤ s.mem_brk) :
    PUTA_checked s p v = some { s with mem := PUTA s.mem p v } := by
  unfold PUTA_checked
  rw [if_pos ⟨h1, h2⟩]

/-- The three stores of `extend_heap` lie in the bytes obtained from the
provider when the provider succeeds (an even count of words). -/
theorem extend_heap_checked_ok (s : State) (words : Nat) (hev : words % 2 = 0) (h6 : 6 ≤ words)
    (hw : words * 4 < WD) (hh : s.mem_heap + 8 ≤ s.mem_brk)
    (hfit : s.mem_brk + words * 4 ≤ s.mem_max_addr) (hmax : s.mem_max_addr < SZ / 2) :
    extend_heap_checked s words = some (extend_heap s words) := by
  have hsz : (if words % 2 ≠ 0 then ((words + 1) * WSIZE) % SZ else (words * WSIZE) % SZ)
      = words * 4 := by
    rw [if_neg (by omega)]
    simp only [WSIZE]
    exact Nat.mod_eq_of_lt (by simp only [WD, SZ] at *; omega)
  have hp : PACK (words * 4) 0 = words * 4 := by simp [PACK]
  have hhalf : ¬ SZ / 2 ≤ s.mem_brk := by simp only [SZ] at *; omega
  obtain ⟨_, _, _, _, g5, g6⟩ := extend_mem s.mem s.mem_brk (words * 4) (by omega) (by omega)
    (by omega) hw _ rfl
  have a1 : s.mem_heap ≤ s.mem_brk - 4 := by omega
  have a2 : s.mem_brk - 4 + 4 ≤ s.mem_brk + words * 4 := by omega
  have a3 : s.mem_heap ≤ s.mem_brk + words * 4 - 8 := by omega
  have a4 : s.mem_brk + words * 4 - 8 + 4 ≤ s.mem_brk + words * 4 := by omega
  have a5 : s.mem_heap ≤ s.mem_brk + words * 4 - 4 := by omega
  have a6 : s.mem_brk + words * 4 - 4 + 4 ≤ s.mem_brk + words * 4 := by omega
  unfold extend_heap_checked extend_heap mem_sbrk
  simp only [hsz, hp, if_pos hfit, if_neg hhalf, HDRP, FTRP, NEXT_BLKP, WSIZE, DSIZE]
  rw [PUT_checked_ok _ _ _ (by exact a1) (by exact a2)]
  simp only [Option.some_bind, g5]
  rw [PUT_checked_ok _ _ _ (by exact a3) (by exact a4)]
  simp only [Option.some_bind, g6]
  rw [PUT_checked_ok _ _ _ (by exact a5) (by exact a6)]
  simp only [Option.some_bind]

/-- When the first request succeeds, the six stores of `mm_init` lie in the 32
bytes obtained, and `mm_init_checked` goes on to extend the heap. -/
theorem mm_init_checked_eq (s0 : State) (hh : s0.mem_heap ≤ s0.mem_brk) (hne : s0.mem_brk ≠ 0)
    (h32 : s0.mem_brk + 32 ≤ s0.mem_max_addr) :
    mm_init_checked s0 = (extend_heap_checked (initState s0) 1024).map
      (fun r => if r.2 = 0 then (r.1, -1) else (r.1, 0)) := by
  have e1 : PACK 24 1 = 25 := by decide
  have e2 : PACK 0 1 = 1 := by decide
  have a1 : s0.mem_brk + 4 ≤ s0.mem_brk + 32 := by omega
  have a2 : s0.mem_heap ≤ s0.mem_brk + 4 := by omega
  have a3 : s0.mem_brk + 4 + 4 ≤ s0.mem_brk + 32 := by omega
  have a4 : s0.mem_heap ≤ s0.mem_brk + 8 := by omega
  have a5 : s0.mem_brk + 8 + 8 ≤ s0.mem_brk + 32 := by omega
  have a6 : s0.mem_heap ≤ s0.mem_brk + 16 := by omega
  have a7 : s0.mem_brk + 16 + 8 ≤ s0.mem_brk + 32 := by omega
  have a8 : s0.mem_heap ≤ s0.mem_brk + 24 := by omega
  have a9 : s0.mem_brk + 24 + 4 ≤ s0.mem_brk + 32 := by omega
  have a10 : s0.mem_heap ≤ s0.mem_brk + 28 := by omega
  have a11 : s0.mem_brk + 28 + 4 ≤ s0.mem_brk + 32 := by omega
  unfold mm_init_checked mem_sbrk
  simp only [WSIZE, h32, if_true, hne, if_false, OVERHEAD, DSIZE, QSIZE, CHUNKSIZE,
    NEXT_FRP, PREV_FRP, e1, e2, Nat.reduceMul, Nat.reduceAdd, Nat.reduceDiv, Nat.add_assoc]
  rw [PUT_checked_ok _ _ _ (by exact hh) (by exact a1)]
  simp only [Option.some_bind]
  rw [PUT_checked_ok _ _ _ (by exact a2) (by exact a3)]
  simp only [Option.some_bind]
  rw [PUTA_checked_ok _ _ _ (by exact a4) (by exact a5)]
  simp only [Option.some_bind]
  rw [PUTA_checked_ok _ _ _ (by exact a6) (by exact a7)]
  simp only [Option.some_bind]
  rw [PUT_checked_ok _ _ _ (by exact a8) (by exact a9)]
  simp only [Option.some_bind]
  rw [PUT_checked_ok _ _ _ (by exact a10) (by exact a11)]
  simp only [Option.some_bind]
  rfl

/-- On a fresh provider with room for both requests no store of `mm_init`
leaves the bytes obtained from the provider: the checked version returns what
`mm_init` returns, and the return value is 0. -/
theorem mm_init_checked_ok (s0 : State) (hp : ProviderOK s0)
    (hfit : s0.mem_brk + 4128 ≤ s0.mem_max_addr) :
    mm_init_checked s0 = some (mm_init s0) ∧ (mm_init s0).2 = 0 := by
  have hp' := hp
  obtain ⟨h1, h2, h3, h4, h5⟩ := hp
  have h32 : s0.mem_brk + 32 ≤ s0.mem_max_addr := by omega
  have hb : (initState s0).mem_brk = s0.mem_brk + 32 := rfl
  have hx : (initState s0).mem_max_addr = s0.mem_max_addr := rfl
  have hy : (initState s0).mem_heap = s0.mem_heap := rfl
  have hfit2 : (initState s0).mem_brk + 1024 * 4 ≤ (initState s0).mem_max_addr := by
    rw [hb, hx]; omega
  have hrep := initState_rep s0 hp' h32
  obtain ⟨fl', g1, g2, g3, g4, g5⟩ := @extend_heap_spec _ [] _ _ (by simpa using hrep) 1024
    (by decide) (by decide) hfit2 _ rfl
  have hr2 : (extend_heap (initState s0) 1024).2 ≠ 0 := by
    rw [g2]; simp only [if_true, hb]; omega
  have hck := extend_heap_checked_ok (initState s0) 1024 (by decide) (by decide) (by decide)
    (by rw [hb, hy]; omega) hfit2 (by rw [hx]; exact h4)
  have hi := mm_init_eq s0 hp' h32
  rw [if_neg hr2] at hi
  refine ⟨?_, ?_⟩
  · rw [mm_init_checked_eq s0 (by omega) (by omega) h32, hck, hi]
    simp only [Option.map_some', if_neg hr2]
  · rw [hi]

/-- The first request fails and the failure value is not `NULL`: `mm_init`
stores through the failure value, which does not point into the bytes the
provider has handed out. -/
theorem mm_init_checked_first (s0 : State) (h32 : ¬ s0.mem_brk + 32 ≤ s0.mem_max_addr)
    (hf : s0.mem_fail ≠ 0) (hout : s0.mem_fail < s0.mem_heap ∨ s0.mem_brk < s0.mem_fail + 4) :
    mm_init_checked s0 = none := by
  have hc : ¬ (s0.mem_heap ≤ s0.mem_fail ∧ s0.mem_fail + 4 ≤ s0.mem_brk) := by omega
  unfold mm_init_checked mem_sbrk
  simp only [WSIZE, h32, if_false, hf]
  unfold PUT_checked
  simp only [hc, if_false, Option.none_bind]

/-- The provider fails and its failure value is `NULL`: `extend_heap`, which
tests for a negative value, goes on and stores at `NULL - 4`. -/
theorem extend_heap_checked_null (s : State) (words : Nat) (hf : s.mem_fail = 0)
    (h0 : 0 < s.mem_heap)
    (hfail : ¬ s.mem_brk + (if words % 2 ≠ 0 then ((words + 1) * WSIZE) % SZ
      else (words * WSIZE) % SZ) ≤ s.mem_max_addr) :
    extend_heap_checked s words = none := by
  have hc : ¬ (s.mem_heap ≤ 0 ∧ 0 + 4 ≤ s.mem_brk) := by omega
  have hz : ¬ SZ / 2 ≤ 0 := by decide
  unfold extend_heap_checked mem_sbrk
  simp only [hfail, if_false, hf, hz, HDRP, Nat.zero_sub]
  unfold PUT_checked
  simp only [hc, if_false, Option.none_bind]

/-- The first request succeeds, the seeding request fails and the failure value
is `NULL`: `extend_heap` does not notice and stores at `NULL - 4`. -/
theorem mm_init_checked_second (s0 : State) (hf : s0.mem_fail = 0) (h0 : 0 < s0.mem_heap)
    (hh : s0.mem_heap ≤ s0.mem_brk) (h32 : s0.mem_brk + 32 ≤ s0.mem_max_addr)
    (h2 : ¬ s0.mem_brk + 4128 ≤ s0.mem_max_addr) :
    mm_init_checked s0 = none := by
  have hb : ¬ (initState s0).mem_brk + (if 1024 % 2 ≠ 0 then ((1024 + 1) * WSIZE) % SZ
      else (1024 * WSIZE) % SZ) ≤ (initState s0).mem_max_addr := by
    show ¬ s0.mem_brk + 32 + 4096 ≤ s0.mem_max_addr
    omega
  rw [mm_init_checked_eq s0 hh (by omega) h32,
    extend_heap_checked_null (initState s0) 1024 hf h0 hb]
  rfl

/-- Whatever value the provider uses to signal failure, there is a fresh
provider with that failure value (region at 4096, room for fewer than the 4128
bytes `mm_init` asks for, so one of the two requests fails) on which
`mm_init` does not return: it stores outside the bytes it obtained. -/
theorem init_no_common_signal (f : Nat) :
    ∃ s0 : State, s0.mem_fail = f ∧ s0.mem_heap = 4096 ∧ s0.mem_brk = 4096
      ∧ s0.mem_max_addr < 4096 + 4128 ∧ mm_init_checked s0 = none := by
  by_cases hf : f = 0
  · refine ⟨⟨fun _ => 0, 4096, 4096, 4096 + 32, f, 0, 0⟩, rfl, rfl, rfl, ?_, ?_⟩
    · show 4096 + 32 < 4096 + 4128
      omega
    · apply mm_init_checked_second _ hf
      · show 0 < 4096
        omega
      · show 4096 ≤ 4096
        omega
      · show 4096 + 32 ≤ 4096 + 32
        omega
      · show ¬ 4096 + 4128 ≤ 4096 + 32
        omega
  · refine ⟨⟨fun _ => 0, 4096, 4096, 4096 + 16, f, 0, 0⟩, rfl, rfl, rfl, ?_, ?_⟩
    · show 4096 + 16 < 4096 + 4128
      omega
    · apply mm_init_checked_first _ _ hf
      · show f < 4096 ∨ 4096 < f + 4
        omega
      · show ¬ 4096 + 32 ≤ 4096 + 16
        omega

/-- C15: `mm_init` does not report every failure of the provider. The provider
`tiny` cannot supply the first 32 bytes and signals failure with `(void *)-1`,
the value the test of `extend_heap` is written for: `mm_init`, which tests for
`NULL`, does not return -1 but stores through the failure pointer, outside the
bytes obtained from the provider. The provider `tinyNull` signals failure with
`NULL`, the value the test of `mm_init` is written for, and supplies the 32
bytes but not the 4096 of the seeding request: `extend_heap`, which tests for a
negative value, stores at `NULL - 4`, and `mm_init` does not return -1 either.
On the provider `fresh` both requests succeed and `mm_init` returns 0. -/
theorem init_failure_unreported :
    (mem_sbrk tiny 32).2 = SZ - 1 ∧ mm_init_checked tiny = none
      ∧ (mem_sbrk tinyNull 32).2 = 4096 ∧ (mem_sbrk (initState tinyNull) 4096).2 = 0
      ∧ mm_init_checked tinyNull = none
      ∧ (mm_init_checked fresh).map Prod.snd = some 0 := by
  refine ⟨by decide, ?_, by decide, by decide, ?_, by decide⟩
  · exact mm_init_checked_first tiny (by decide) (by decide) (by decide)
  · exact mm_init_checked_second tinyNull rfl (by decide) (by decide) (by decide) (by decide)

/-! ### Claim C11 -/

theorem placeBlks_bound (b : Blk) (asize : Nat) (hle : asize ≤ b.size) :
    ∃ c, c ∈ placeBlks b asize ∧ c.addr = b.addr ∧ asize ≤ c.size ∧ c.size < asize + 24 := by
  unfold placeBlks
  split
  · exact ⟨⟨b.addr, asize, true⟩, by simp, rfl, Nat.le_refl _, by show asize < asize + 24; omega⟩
  · exact ⟨⟨b.addr, b.size, true⟩, by simp, rfl, hle, by show b.size < asize + 24; omega⟩

/-- The size of the block a successful `mm_malloc` hands out: the adjusted size,
or up to 23 bytes more when the free block found is handed out whole. -/
theorem malloc_block_bounds {s s' : State} {live : List Nat} {size p : Nat}
    (h : Reachable s live) (hv : size + 23 < SZ) (hm : mm_malloc s size = some (s', p))
    (hp : p ≠ 0) :
    adjust size ≤ GET_SIZE s'.mem (HDRP p) ∧ GET_SIZE s'.mem (HDRP p) < adjust size + 24
      ∧ GET_SIZE s'.mem (HDRP p) % 8 = 0 := by
  obtain ⟨L, fl, hR, _⟩ := reachable_inv h
  have hpos : 0 < size := by
    rcases malloc_step hR hv hm with ⟨e, _⟩ | ⟨_, hpos, _⟩
    · exact absurd e hp
    · exact hpos
  have key : ∀ (L' : List Blk) (fl' : List Nat) (c : Blk), Rep s' L' fl' → c ∈ L' → c.addr = p →
      adjust size ≤ c.size → c.size < adjust size + 24 →
      adjust size ≤ GET_SIZE s'.mem (HDRP p) ∧ GET_SIZE s'.mem (HDRP p) < adjust size + 24
        ∧ GET_SIZE s'.mem (HDRP p) % 8 = 0 := by
    intro L' fl' c hR' hc e h1 h2
    have h3 := hR'.toPre.hdr_size hc
    have h4 := hR'.toPre.blk hc
    unfold HDRP
    simp only [WSIZE]
    rw [← e, h3]
    exact ⟨h1, h2, h4.2.2.2.1⟩
  rcases malloc_spec hR size hpos hv with ⟨e, _, _⟩
    | ⟨s1, L1, b, L2, fl', e, hL, hbf, hle, hrep, _⟩
    | ⟨_, s1, L0, pb, L1, b, fl', e, hL, hco, hbf, hle, hrep, _⟩
  · rw [e] at hm
    exact absurd (Prod.mk.inj (Option.some.inj hm)).2.symm hp
  · rw [e] at hm
    obtain ⟨e1, e2⟩ := Prod.mk.inj (Option.some.inj hm)
    subst e1 e2
    obtain ⟨c, c1, c2, c3, c4⟩ := placeBlks_bound b (adjust size) hle
    exact key _ _ c hrep (by simp only [List.mem_append]; exact Or.inl (Or.inr c1)) c2 c3 c4
  · rw [e] at hm
    obtain ⟨e1, e2⟩ := Prod.mk.inj (Option.some.inj hm)
    subst e1 e2
    obtain ⟨c, c1, c2, c3, c4⟩ := placeBlks_bound b (adjust size) hle
    exact key _ _ c hrep (by simp only [List.mem_append]; exact Or.inr c1) c2 c3 c4

/-- `mm_malloc(n)` on the heap right after Initialize, for a request the seeded
block can be split for: the block of the adjusted size at the start of it. -/
theorem malloc_fresh (s0 s : State) (hp : ProviderOK s0) (hi : mm_init s0 = (s, 0)) (n : Nat)
    (hpos : 0 < n) (hv : n + 23 < SZ) (hfit : adjust n + 24 ≤ 4096) :
    ∃ s1 fl, mm_malloc s n = some (s1, s0.mem_heap + 32)
      ∧ Rep s1 [⟨s0.mem_heap + 8, 24, true⟩, ⟨s0.mem_heap + 32, adjust n, true⟩,
          ⟨s0.mem_heap + 32 + adjust n, 4096 - adjust n, false⟩] fl := by
  obtain ⟨hR, _, _, _, hhl⟩ := mm_init_spec s0 s hp hi
  have hF : (⟨s0.mem_heap + 32, 4096, false⟩ : Blk) ∈
      [(⟨s0.mem_heap + 8, 24, true⟩ : Blk), ⟨s0.mem_heap + 32, 4096, false⟩] := by simp
  have hfits : fits s.mem (adjust n) (s0.mem_heap + 32) := by
    have h1 := hR.toPre.hdr_size hF
    have h2 := hR.toPre.hdr_alloc hF
    unfold fits HDRP
    simp only [WSIZE]
    simp only at h1 h2
    rw [h1]
    exact ⟨by simpa using h2, by omega⟩
  rcases malloc_spec hR n hpos hv with ⟨_, hno, _⟩
    | ⟨s1, L1, b, L2, fl', e, hL, hbf, hle, hrep, _⟩ | ⟨hno, _⟩
  · exact absurd hfits (hno _ (by simp))
  · have hL' : [(⟨s0.mem_heap + 8, 24, true⟩ : Blk)] ++ [⟨s0.mem_heap + 32, 4096, false⟩]
        = L1 ++ b :: L2 := hL
    obtain ⟨e1, e2, e3⟩ := snoc_free_split (by simp) hbf hL'
    subst e1 e2 e3
    refine ⟨s1, fl', e, ?_⟩
    have hpl : placeBlks ⟨s0.mem_heap + 32, 4096, false⟩ (adjust n)
        = [⟨s0.mem_heap + 32, adjust n, true⟩,
          ⟨s0.mem_heap + 32 + adjust n, 4096 - adjust n, false⟩] := by
      unfold placeBlks
      rw [if_pos (by show 4096 - adjust n ≥ 24; omega)]
    rw [hpl] at hrep
    exact hrep
  · exact absurd hfits (hno _ (by simp))

/-- C11 as stated fails: on the heap right after Initialize, allocate 9 bytes
twice, release the first block (32 bytes) and allocate 1 byte: the free block
of 32 bytes is handed out whole, at the address 4128 of the first block. -/
theorem small_request_gets_32 :
    (mm_malloc heap0 9).bind (fun r1 => (mm_malloc r1.1 9).bind (fun r2 =>
      (mm_malloc (mm_free r2.1 r1.2) 1).map (fun r3 =>
        (r1.2, r2.2, r3.2, GET_SIZE r3.1.mem (HDRP r3.2)))))
      = some (4128, 4160, 4128, 32) := by
  decide

/-- C11 amended: for a request of 1 to 8 bytes a successful `mm_malloc` on a
reachable heap yields a block of 24, 32 or 40 bytes, and for a request of 9
bytes one of 32, 40 or 48 bytes (the needed size, or the whole free block
found when less than 24 bytes would remain); on the heap right after
Initialize the call succeeds with a block of exactly 24, respectively 32,
bytes. -/
theorem small_request_sizes (n : Nat) (h1 : 1 ≤ n) (h9 : n ≤ 9) :
    (∀ s live s' p, Reachable s live → mm_malloc s n = some (s', p) → p ≠ 0 →
        (n ≤ 8 → GET_SIZE s'.mem (HDRP p) = 24 ∨ GET_SIZE s'.mem (HDRP p) = 32
          ∨ GET_SIZE s'.mem (HDRP p) = 40)
        ∧ (n = 9 → GET_SIZE s'.mem (HDRP p) = 32 ∨ GET_SIZE s'.mem (HDRP p) = 40
          ∨ GET_SIZE s'.mem (HDRP p) = 48))
      ∧ (∀ s0 s, ProviderOK s0 → mm_init s0 = (s, 0) →
          ∃ s' p, mm_malloc s n = some (s', p) ∧ p ≠ 0
            ∧ GET_SIZE s'.mem (HDRP p) = (if n ≤ 8 then 24 else 32)) := by
  have hv : n + 23 < SZ := by simp only [SZ]; omega
  have hadj : adjust n = if n ≤ 8 then 24 else 32 := by
    unfold adjust
    simp only [DSIZE, OVERHEAD, SZ]
    split <;> omega
  refine ⟨?_, ?_⟩
  · intro s live s' p hr hm hp
    obtain ⟨b1, b2, b3⟩ := malloc_block_bounds hr hv hm hp
    rw [hadj] at b1 b2
    refine ⟨fun h8 => ?_, fun h => ?_⟩
    · rw [if_pos h8] at b1 b2; omega
    · rw [if_neg (by omega)] at b1 b2; omega
  · intro s0 s hp hi
    obtain ⟨s1, fl, e, hR⟩ := malloc_fresh s0 s hp hi n (by omega) hv (by rw [hadj]; split <;> omega)
    have hsz := hR.toPre.hdr_size (b := ⟨s0.mem_heap + 32, adjust n, true⟩) (by simp)
    refine ⟨s1, _, e, by omega, ?_⟩
    unfold HDRP
    simp only [WSIZE]
    rw [← hadj]
    exact hsz

theorem small_request_sizes_witness :
    1 ≤ 1 ∧ 1 ≤ 9 ∧ ∃ s' p, mm_malloc heap0 1 = some (s', p) ∧ p ≠ 0
      ∧ GET_SIZE s'.mem (HDRP p) = (if 1 ≤ 8 then 24 else 32) :=
  ⟨by decide, by decide,
    (small_request_sizes 1 (by decide) (by decide)).2 fresh heap0 fresh_ok init0⟩

/-! ### Claim C20 -/

/-- The relocation case of `mm_realloc`: the payload of the new block holds,
after the call, what `memcpy` left there; the release of the old block does
not touch it. -/
theorem realloc_move_copy {s s1 : State} {L : List Blk} {fl : List Nat} {c : Blk} {size q : Nat}
    (h : Rep s L fl) (hc : c ∈ L) (hca : c.alloc = true) (hne : c.addr ≠ s.heap_listp)
    (hv : size + 23 < SZ) (hm : mm_malloc s size = some (s1, q)) (hq : q ≠ 0) (k : Nat)
    (hk : k = if size < c.size then size else c.size) (s' : State)
    (hs' : s' = mm_free { s1 with mem := memcpy s1.mem q c.addr k } c.addr) :
    ∀ a, q ≤ a → a + 8 < q + GET_SIZE s'.mem (HDRP q) →
      s'.mem a = memcpy s1.mem q c.addr k a := by
  obtain ⟨a24, a8, alo, ahi⟩ := adjust_valid size hv
  rcases malloc_step h hv hm with ⟨e, _⟩ | ⟨_, hpos, L1, fl1, c', r1, r2, r3, r4, r5, r6, r7, r8,
    r9, r10⟩
  · exact absurd e hq
  have hc1 : c ∈ L1 := r10 c hc hca
  have hcb := h.toPre.blk hc
  have hc'b := r1.toPre.blk r2
  have hnd := (List.Perm.nodup_iff r6).mp r1.toPre.alloc_nodup
  rw [List.nodup_cons] at hnd
  have hqc : q ≠ c.addr := by
    intro e
    apply hnd.1
    rw [e]
    exact mem_allocAddrs.mpr ⟨c, hc, rfl, hca⟩
  have hne1 : c.addr ≠ s1.heap_listp := by rw [r8.2.2.2]; exact hne
  have hq1 : c'.addr ≠ s1.heap_listp := by
    intro e
    obtain ⟨L', hL'⟩ := h.head
    have hp : s.heap_listp ∈ allocAddrs L := by
      rw [hL']; simp [allocAddrs]
    apply hnd.1
    rw [← r3, e, r8.2.2.2]
    exact hp
  have hkle : k ≤ size ∧ k ≤ c.size := by rw [hk]; split <;> omega
  have hfr : ∀ a, (a < c'.addr ∨ c'.addr + c'.size - 8 ≤ a) →
      memcpy s1.mem q c.addr k a = s1.mem a := by
    intro a ha
    unfold memcpy
    rw [if_neg (by omega)]
  have hR2 := Rep_payload r1 r2 r4 hq1 _ hfr
  obtain ⟨L2, fl2, g1, g2, g3, g4, g5⟩ := free_step hR2 hc1 hca hne1
  have hc'c : c' ≠ c := by intro e; rw [e] at r3; exact hqc r3.symm
  obtain ⟨g6, g7⟩ := g5 c' r2 r4 hc'c
  rw [← hs'] at g1 g3 g4 g7
  have hsz := g1.toPre.hdr_size g6
  intro a ha1 ha2
  unfold HDRP at ha2
  simp only [WSIZE] at ha2
  rw [← r3, hsz] at ha2
  exact g7 hq1 a (by omega) (by omega)

/-- C20 as stated fails: on the heap right after Initialize, `mm_malloc(100)`
returns 4128, a block of 120 bytes, so 112 bytes of payload;
`mm_realloc(4128, 200)` relocates to 4248 and copies 120 bytes: the byte at
index 112 of the new payload, 0 after `mm_malloc(200)` alone, holds after the
call the byte 121 at index 112 of the old block, the first of its footer. -/
theorem copy_exceeds_payload :
    (mm_malloc heap0 100).bind (fun r => (mm_realloc r.1 r.2 200).bind (fun r2 =>
      (mm_malloc r.1 200).map (fun r1 => (r.2, GET_SIZE r.1.mem (HDRP r.2), r2.2,
        r1.1.mem (r1.2 + 112), r2.1.mem (r2.2 + 112), r.1.mem (r.2 + 112)))))
      = some (4128, 120, 4248, 0, 121, 121) := by
  decide

/-- C20 amended: when `mm_realloc` on a live block of a reachable heap takes
its relocation path and the allocation succeeds, it copies exactly
`min(size, old block size)` bytes, the old block size being the size field
of the header, boundary tags included: after the call the first that many
bytes of the new payload are the bytes the old block held when the copy was
made, and every later byte of the new payload is as `mm_malloc` left it. -/
theorem relocate_copy {s s' : State} {live : List Nat} {ptr size q : Nat}
    (h : Reachable s live) (hp : ptr ∈ live) (hsz : size ≠ 0) (hv : ValidSize size)
    (h1 : ¬ (adjust size ≤ GET_SIZE s.mem (HDRP ptr)
      ∧ (GET_SIZE s.mem (HDRP ptr) + SZ - size) % SZ ≤ MINIMUM))
    (h2 : ¬ (adjust size + MINIMUM) % SZ ≤ GET_SIZE s.mem (HDRP ptr))
    (hm : mm_realloc s ptr size = some (s', q)) (hq : q ≠ 0) :
    ∃ s1, mm_malloc s size = some (s1, q)
      ∧ (∀ i, i < min size (GET_SIZE s.mem (HDRP ptr)) → s'.mem (q + i) = s1.mem (ptr + i))
      ∧ (∀ i, min size (GET_SIZE s.mem (HDRP ptr)) ≤ i → i + 8 < GET_SIZE s'.mem (HDRP q) →
          s'.mem (q + i) = s1.mem (q + i)) := by
  have hv23 : size + 23 < SZ := by unfold ValidSize at hv; omega
  obtain ⟨L, fl, hR, hperm⟩ := reachable_inv h
  obtain ⟨c, hc, e, hca, hne⟩ := live_block hR hperm hp
  subst e
  have hold := hR.toPre.hdr_size hc
  have hcb := hR.toPre.blk hc
  have hbrk := hR.toPre.brk_lt
  have hptr : c.addr ≠ 0 := by omega
  unfold HDRP at h1 h2 ⊢
  simp only [WSIZE, MINIMUM] at h1 h2 ⊢
  rw [hold] at h1 h2 ⊢
  obtain ⟨s1, q1, hmm⟩ := malloc_total hR size
  rw [realloc_move_eq s c.addr size c.size hsz hptr hold h1 h2 s1 q1 hmm] at hm
  by_cases hq1 : q1 = 0
  · rw [if_pos hq1] at hm
    exact absurd (Prod.mk.inj (Option.some.inj hm)).2.symm hq
  rw [if_neg hq1] at hm
  obtain ⟨e4, e5⟩ := Prod.mk.inj (Option.some.inj hm)
  subst e5
  have hmin : min size c.size = if size < c.size then size else c.size := by
    split <;> omega
  have key := realloc_move_copy hR hc hca hne hv23 hmm hq1 _ rfl s' e4.symm
  unfold HDRP at key
  simp only [WSIZE] at key
  refine ⟨s1, hmm, ?_, ?_⟩
  · intro i hi
    have hsz' : i + 8 < GET_SIZE s'.mem (q1 - 4) := by
      -- the new block holds at least `size + 16` bytes
      rcases realloc_step hR hc hca hne hsz hv (by
        rw [realloc_move_eq s c.addr size c.size hsz hptr hold h1 h2 s1 q1 hmm, if_neg hq1,
          e4] : mm_realloc s c.addr size = some (s', q1)) with ⟨e, _⟩
        | ⟨_, L2, fl2, c', g1, g2, g3, g4, g5, _⟩
      · exact absurd e hq1
      · have := g1.toPre.hdr_size g2
        rw [g3] at this
        have ⟨_, _, alo, _⟩ := adjust_valid size hv23
        rw [this]
        omega
    rw [key (q1 + i) (by omega) (by omega)]
    unfold memcpy
    rw [if_pos (by rw [hmin] at hi; omega), Nat.add_sub_cancel_left]
  · intro i hi1 hi2
    rw [key (q1 + i) (by omega) (by omega)]
    unfold memcpy
    rw [if_neg (by rw [hmin] at hi1; omega)]

/-! ### Claim C20: a relocation on the sample heap -/

theorem malloc0_100 : mm_malloc heap0 100 = some (heap1, 4128) := stateOf_eq _ _ (by decide)

theorem reach1 : Reachable heap1 [4128] :=
  @Reachable.malloc heap0 heap1 [] 100 4128 reach0 (by unfold ValidSize; decide) malloc0_100

theorem relocate_copy_witness :
    Reachable heap1 [4128] ∧ 4128 ∈ [4128] ∧ 200 ≠ 0 ∧ ValidSize 200
      ∧ ¬ (adjust 200 ≤ GET_SIZE heap1.mem (HDRP 4128)
          ∧ (GET_SIZE heap1.mem (HDRP 4128) + SZ - 200) % SZ ≤ MINIMUM)
      ∧ ¬ (adjust 200 + MINIMUM) % SZ ≤ GET_SIZE heap1.mem (HDRP 4128)
      ∧ mm_realloc heap1 4128 200 = some (heapR, 4248) ∧ 4248 ≠ 0
      ∧ ∃ s1, mm_malloc heap1 200 = some (s1, 4248)
        ∧ (∀ i, i < min 200 (GET_SIZE heap1.mem (HDRP 4128)) →
            heapR.mem (4248 + i) = s1.mem (4128 + i))
        ∧ (∀ i, min 200 (GET_SIZE heap1.mem (HDRP 4128)) ≤ i →
            i + 8 < GET_SIZE heapR.mem (HDRP 4248) → heapR.mem (4248 + i) = s1.mem (4248 + i)) :=
  have v : ValidSize 200 := by unfold ValidSize; decide
  have h1 : ¬ (adjust 200 ≤ GET_SIZE heap1.mem (HDRP 4128)
      ∧ (GET_SIZE heap1.mem (HDRP 4128) + SZ - 200) % SZ ≤ MINIMUM) := by decide
  have h2 : ¬ (adjust 200 + MINIMUM) % SZ ≤ GET_SIZE heap1.mem (HDRP 4128) := by decide
  have hm : mm_realloc heap1 4128 200 = some (heapR, 4248) := stateOf_eq _ _ (by decide)
  ⟨reach1, by decide, by decide, v, h1, h2, hm, by decide,
    relocate_copy reach1 (by decide) (by decide) v h1 h2 hm (by decide)⟩

end MM
